import Mathlib

/-!
Verification of the document tree maintenance engine of the ReactDocEditor
repository: the flat document model, the sibling sort routines, the tree
builders, the drag-and-drop reorder engine of the primary sidebar, the
dialog move handler, the search match and expansion helper, and the API
normalization layer. Each definition is a shallow embedding of one source
function; fuel parameters stand in for unbounded recursion or while loops
in the source, and a doc comment on each definition names the source
location it embeds.

Identifiers are modeled as lists of characters (the, possibly empty,
strings of the source); a JavaScript falsy id or parent id is the empty
list. Orders are integers, Option standing for a missing field.
-/

set_option maxHeartbeats 1000000

namespace DocTree


/-- The flat document record, the fields the tree engine reads:
id corresponds to the Mongo string field of the source, title to the
display string, parentId to the nullable parent reference, order to the
optional sibling index. Opaque payload fields (content, icon, dates) are
omitted because no embedded function reads them. -/
structure Doc where
  id : List Char
  title : String
  parentId : Option (List Char)
  order : Option Int
deriving Repr, DecidableEq

/-- The sentinel 9007199254740991 stands for Number.MAX_SAFE_INTEGER. -/
def maxSafeInteger : Int := 9007199254740991

/-- Order key with a fallback for a missing order, the pattern
a.order double-question fallback of every sort variant. -/
def orderKey (fallback : Int) (d : Doc) : Int := d.order.getD fallback

/-- Comparator relation of the sort variants that compare by order only
(a stable JavaScript sort by the numeric difference of the keys). -/
def leOrd (fallback : Int) (a b : Doc) : Prop :=
  orderKey fallback a ≤ orderKey fallback b

instance (fallback : Int) : DecidableRel (leOrd fallback) := fun a b =>
  inferInstanceAs (Decidable (orderKey fallback a ≤ orderKey fallback b))

instance (fallback : Int) : IsTotal Doc (leOrd fallback) :=
  ⟨fun a b => le_total (orderKey fallback a) (orderKey fallback b)⟩

instance (fallback : Int) : IsTrans Doc (leOrd fallback) :=
  ⟨fun _ _ _ hab hbc => le_trans hab hbc⟩

/-- Comparator relation of the sort variants that break order ties by the
title (localeCompare of the source, modeled as the plain string order,
the ASCII fallback the specification allows). -/
def leLex (fallback : Int) (a b : Doc) : Prop :=
  orderKey fallback a < orderKey fallback b ∨
    (orderKey fallback a = orderKey fallback b ∧ a.title ≤ b.title)

instance (fallback : Int) : DecidableRel (leLex fallback) := fun a b =>
  inferInstanceAs (Decidable (_ ∨ _))

instance (fallback : Int) : IsTotal Doc (leLex fallback) := by
  constructor
  intro a b
  rcases lt_trichotomy (orderKey fallback a) (orderKey fallback b) with h | h | h
  · exact Or.inl (Or.inl h)
  · rcases le_total a.title b.title with ht | ht
    · exact Or.inl (Or.inr ⟨h, ht⟩)
    · exact Or.inr (Or.inr ⟨h.symm, ht⟩)
  · exact Or.inr (Or.inl h)

instance (fallback : Int) : IsTrans Doc (leLex fallback) := by
  constructor
  intro a b c hab hbc
  rcases hab with hab | ⟨hab, tab⟩
  · rcases hbc with hbc | ⟨hbc, _⟩
    · exact Or.inl (hab.trans hbc)
    · exact Or.inl (hbc ▸ hab)
  · rcases hbc with hbc | ⟨hbc, tbc⟩
    · exact Or.inl (hab ▸ hbc)
    · exact Or.inr ⟨hab.trans hbc, tab.trans tbc⟩

/-- sortDocuments of the primary sidebar (Sidebar.tsx lines 26 to 32) and
of part_007 lines 10 to 16: stable sort by order with fallback 999999 and
no tie break. -/
def sortDocumentsA (docs : List Doc) : List Doc :=
  docs.insertionSort (leOrd 999999)

/-- sortDocuments of ExportPdfModal.tsx lines 256 to 262: stable sort by
order with fallback Number.MAX_SAFE_INTEGER and no tie break. -/
def sortDocumentsExport (docs : List Doc) : List Doc :=
  docs.insertionSort (leOrd maxSafeInteger)

/-- sortDocuments of the part_000 documentTree library (lines 74 to 85):
order ascending with fallback Number.MAX_SAFE_INTEGER, ties broken by
localeCompare on the titles. -/
def sortDocumentsTB (docs : List Doc) : List Doc :=
  docs.insertionSort (leLex maxSafeInteger)

/-- sortDocuments of the third sidebar variant (Sidebar.tsx lines 1310 to
1319): order ascending with fallback 0, ties broken by localeCompare on
the titles. -/
def sortDocumentsZ (docs : List Doc) : List Doc :=
  docs.insertionSort (leLex 0)

/-! ## Tree builders -/

/-- The ephemeral hierarchical view: one document plus an ordered list of
child nodes, as DocumentTreeNode of the source. -/
inductive TreeNode where
  | node (doc : Doc) (children : List TreeNode)

/-- The document of a node. -/
def TreeNode.doc : TreeNode → Doc
  | .node d _ => d

/-- The recursive filter-based tree builder shared by ExportPdfModal.tsx
lines 264 to 274 and the second documentTree variant of part_000 lines 87
to 104: the two differ only by their sort routine, passed here as sortFn.
At each level it sorts the documents whose parentId equals the requested
parent and recurses with the id of each as the next parent. The source
recursion is unbounded, modeled by a fuel parameter; fuel zero returns no
children. -/
def buildDocumentTreeRec (sortFn : List Doc → List Doc) :
    Nat → List Doc → Option (List Char) → List TreeNode
  | 0, _, _ => []
  | fuel + 1, docs, parentId =>
      (sortFn (docs.filter (fun d => d.parentId = parentId))).map
        (fun d => TreeNode.node d (buildDocumentTreeRec sortFn fuel docs (some d.id)))

/-- buildDocumentTree of ExportPdfModal.tsx lines 264 to 274. -/
def buildDocumentTreeExport (fuel : Nat) (docs : List Doc)
    (parentId : Option (List Char)) : List TreeNode :=
  buildDocumentTreeRec sortDocumentsExport fuel docs parentId

/-- buildDocumentTree of the part_000 documentTree library, lines 87 to
104, which sorts with the title tie break variant. -/
def buildDocumentTreeP0 (fuel : Nat) (docs : List Doc)
    (parentId : Option (List Char)) : List TreeNode :=
  buildDocumentTreeRec sortDocumentsTB fuel docs parentId

/-- Preorder id sequence of a forest: each node before its descendants,
siblings in list order. This is the id trace of flattenTree of part_000
lines 57 to 66 and 130 to 140. -/
def forestIds : List TreeNode → List (List Char)
  | [] => []
  | .node d c :: rest => d.id :: (forestIds c ++ forestIds rest)

/-- The recursive traverse closure of getOrderedDocumentIds
(ExportPdfModal.tsx lines 302 to 312): push the id of a node when it is
truthy and selected, then descend into a nonempty child list, then
continue with the remaining siblings. -/
def traverseSelected (sel : List (List Char)) : List TreeNode → List (List Char)
  | [] => []
  | .node d c :: rest =>
      (if d.id ≠ [] ∧ d.id ∈ sel then [d.id] else []) ++
        ((if c.length > 0 then traverseSelected sel c else []) ++
          traverseSelected sel rest)

/-- getOrderedDocumentIds of ExportPdfModal.tsx lines 296 to 316: traverse
the forest built from the whole collection and collect the selected ids in
visit order. -/
def getOrderedDocumentIds (fuel : Nat) (docs : List Doc)
    (sel : List (List Char)) : List (List Char) :=
  traverseSelected sel (buildDocumentTreeExport fuel docs none)

/-! ## The map-based tree builder of part_000 lines 13 to 42 -/

/-- Insert a document into a JavaScript Map keyed by id: replace in place
when the key exists, append otherwise. -/
def mapSetDoc (m : List Doc) (d : Doc) : List Doc :=
  if m.any (fun x => x.id = d.id) then
    m.map (fun x => if x.id = d.id then d else x)
  else m ++ [d]

/-- The node map of buildDocumentTree in part_000 lines 13 to 24: the
documents sorted by order with fallback 999999, entered into a Map keyed
by id, skipping documents whose id is falsy. -/
def v1MapDocs (docs : List Doc) : List Doc :=
  (sortDocumentsA docs).foldl
    (fun m d => if d.id = [] then m else mapSetDoc m d) []

/-- The parent reference is truthy: present and not the empty string. -/
def truthyParent (d : Doc) : Bool :=
  match d.parentId with
  | some p => decide (p ≠ [])
  | none => false

/-- The root list of buildDocumentTree in part_000 lines 26 to 33: a map
entry is a root unless its parentId is truthy and names a key of the map. -/
def v1Roots (docs : List Doc) : List Doc :=
  (v1MapDocs docs).filter
    (fun d => !(truthyParent d && (v1MapDocs docs).any
      (fun x => some x.id = d.parentId)))

/-- The children pushed onto a map entry in part_000 lines 26 to 33: the
map entries whose truthy parentId equals the given id, in map order. -/
def v1ChildrenOf (docs : List Doc) (pid : List Char) : List Doc :=
  (v1MapDocs docs).filter
    (fun d => truthyParent d && decide (d.parentId = some pid))

/-- Unfold the object graph of the part_000 map builder into a forest,
applying the sortChildren pass (lines 35 to 40) at every level; fuel
bounds the unfolding depth of the possibly cyclic object graph. -/
def v1Unfold (docs : List Doc) : Nat → Doc → TreeNode
  | 0, d => .node d []
  | fuel + 1, d =>
      .node d ((sortDocumentsA (v1ChildrenOf docs d.id)).map (v1Unfold docs fuel))

/-- buildDocumentTree of part_000 lines 13 to 42, as the forest reachable
from the returned roots array after the sortChildren pass. -/
def buildDocumentTreeV1 (fuel : Nat) (docs : List Doc) : List TreeNode :=
  (sortDocumentsA (v1Roots docs)).map (v1Unfold docs fuel)

/-! ## API read and update layer (apps/api/src/services/documents.ts) -/

/-- A stored Mongo document as the service layer reads it: parentId and
icon may be absent or any string (the empty string is falsy), order may be
absent. The date fields are opaque and omitted. -/
structure StoredDoc where
  id : String
  title : String
  content : String
  authorId : String
  parentId : Option String
  icon : Option String
  order : Option Int
deriving Repr, DecidableEq

/-- A document as returned by the API service layer: parentId normalized,
icon defaulted, order always a number. -/
structure ApiDoc where
  id : String
  title : String
  content : String
  authorId : String
  parentId : Option String
  icon : String
  order : Int
deriving Repr, DecidableEq

/-- The update payload of updateDocument: only the provided fields are
written (data.field not undefined in the source); parentId may be set to
null explicitly. -/
structure UpdateDocPayload where
  title : Option String
  content : Option String
  parentId : Option (Option String)
  icon : Option String
  order : Option Int
deriving Repr, DecidableEq

/-- The record literal repeated by getAllDocuments, getDocumentById and
updateDocument (documents.ts lines 54 to 64, 75 to 85 and 114 to 124): a
falsy parentId becomes null, a falsy icon becomes the default, a missing
order becomes 0. -/
def normalizeStored (doc : StoredDoc) : ApiDoc :=
  { id := doc.id
    title := doc.title
    content := doc.content
    authorId := doc.authorId
    parentId := match doc.parentId with
      | some s => if s = "" then none else some s
      | none => none
    icon := match doc.icon with
      | some s => if s = "" then "📄" else s
      | none => "📄"
    order := doc.order.getD 0 }

/-- getAllDocuments (documents.ts lines 50 to 65): maps every stored
document to the API shape. -/
def getAllDocuments (store : List StoredDoc) : List ApiDoc :=
  store.map normalizeStored

/-- getDocumentById (documents.ts lines 67 to 86): findOne by id, then the
same normalization. -/
def getDocumentById (i : String) (store : List StoredDoc) : Option ApiDoc :=
  (store.find? (fun d => d.id = i)).map normalizeStored

/-- The field merge of updateDocument (documents.ts lines 94 to 103): set
each provided field of the payload on the stored document. -/
def applySetFields (data : UpdateDocPayload) (doc : StoredDoc) : StoredDoc :=
  { doc with
    title := data.title.getD doc.title
    content := data.content.getD doc.content
    parentId := data.parentId.getD doc.parentId
    icon := match data.icon with
      | some ic => some ic
      | none => doc.icon
    order := match data.order with
      | some o => some o
      | none => doc.order }

/-- updateDocument (documents.ts lines 88 to 125): set each provided field
on the found document, then return it through the same normalization as
the readers. -/
def updateDocument (i : String) (data : UpdateDocPayload)
    (store : List StoredDoc) : Option ApiDoc :=
  (store.find? (fun d => d.id = i)).map
    (fun doc => normalizeStored (applySetFields data doc))

/-- A returned parentId is never the empty string: absent or falsy stored
values come out as null. -/
def normalizedParent (a : ApiDoc) : Prop :=
  ∀ s, a.parentId = some s → s ≠ ""

/-! ## Search match set and expansion (Sidebar.tsx lines 295 to 362) -/

/-- True when the sequence s begins with the pattern. -/
def leadsWith : List Char → List Char → Bool
  | [], _ => true
  | _ :: _, [] => false
  | a :: as, b :: bs => a = b && leadsWith as bs

/-- True when the pattern occurs as a contiguous subsequence of s, the
includes test of JavaScript strings. -/
def hasSub (q : List Char) : List Char → Bool
  | [] => leadsWith q []
  | c :: cs => leadsWith q (c :: cs) || hasSub q cs

/-- The normalized query of Sidebar.tsx line 295: the raw search text
trimmed and lowercased, as a character list. -/
def normalizedQuery (rawq : String) : List Char :=
  (rawq.trim.toLower).data

/-- The title test of Sidebar.tsx line 312: the title, with the Untitled
display fallback for the empty title, lowercased, must contain the
normalized query. -/
def titleMatch (nq : List Char) (d : Doc) : Bool :=
  hasSub nq ((if d.title = "" then "Untitled" else d.title).data.map Char.toLower)

/-- Add an id to an insertion-ordered set, the add of a JavaScript Set. -/
def addSet (s : List (List Char)) (x : List Char) : List (List Char) :=
  if x ∈ s then s else s ++ [x]

/-- The lookup Map of Sidebar.tsx lines 303 to 310: documents keyed by a
truthy id, later entries overwriting earlier ones. -/
def lookupGet (docs : List Doc) (i : List Char) : Option Doc :=
  ((docs.filter (fun d => d.id ≠ [])).reverse).find? (fun d => d.id = i)

/-- The recursive includeAncestors closure of Sidebar.tsx lines 317 to
329: walk the parent chain upward, stopping at a falsy id or at an id
already in the set; the revisit test bounds the walk, made explicit here
by a fuel of at least the collection size plus one, which covers every
terminating source run. -/
def includeAncestors (docs : List Doc) :
    Nat → List (List Char) → Option (List Char) → List (List Char)
  | 0, acc, _ => acc
  | _ + 1, acc, none => acc
  | fuel + 1, acc, some i =>
      if i = [] then acc
      else if i ∈ acc then acc
      else includeAncestors docs fuel (acc ++ [i])
        ((lookupGet docs i).bind Doc.parentId)

/-- The match set memo of Sidebar.tsx lines 297 to 337: null for an empty
normalized query; otherwise the title matches in collection order,
extended by the ancestors of every title match. -/
def matchSetFn (docs : List Doc) (nq : List Char) :
    Option (List (List Char)) :=
  if nq = [] then none
  else
    let matches0 := docs.foldl
      (fun acc d =>
        if d.id = [] then acc
        else if titleMatch nq d then addSet acc d.id else acc) []
    some (matches0.foldl
      (fun acc i => includeAncestors docs (docs.length + 1) acc
        ((lookupGet docs i).bind Doc.parentId)) matches0)

/-- The while loop of the expansion effect, Sidebar.tsx lines 354 to 358:
add every truthy ancestor of an id to the set; the source loop has no
revisit test and can run forever on a cyclic chain, so the fuel is an
explicit bound covering every terminating source run. -/
def addAncestorsWhile (docs : List Doc) :
    Nat → List (List Char) → Option (List Char) → List (List Char)
  | 0, acc, _ => acc
  | _ + 1, acc, none => acc
  | fuel + 1, acc, some p =>
      if p = [] then acc
      else addAncestorsWhile docs fuel (addSet acc p)
        ((lookupGet docs p).bind Doc.parentId)

/-- The expansion effect of Sidebar.tsx lines 339 to 362: when the match
set is nonempty, extend the previously expanded set by every ancestor of
every member of the match set. -/
def expandAfterSearch (docs : List Doc) (matchList : List (List Char))
    (prev : List (List Char)) : List (List Char) :=
  if matchList = [] then prev
  else matchList.foldl
    (fun acc i => addAncestorsWhile docs (docs.length + 1) acc
      ((lookupGet docs i).bind Doc.parentId)) prev

/-! ## The drag and drop reorder engine of the primary sidebar
(Sidebar.tsx lines 26 to 561) -/

/-- The while loop of isDescendant, Sidebar.tsx lines 45 to 55: walk the
parent chain of the current document upward, returning true when a parent
reference equals the candidate ancestor, false at a falsy parent or a
missing document. The source loop terminates on every chain that reaches
an answer and loops forever on a cyclic chain; the fuel, docs.length plus
one at the top call, covers every terminating source run. -/
def descendLoop (docs : List Doc) (anc : List Char) :
    Nat → Option Doc → Bool
  | 0, _ => false
  | _ + 1, none => false
  | fuel + 1, some c =>
      match c.parentId with
      | none => false
      | some p =>
          if p = anc then true
          else if p = [] then false
          else descendLoop docs anc fuel (docs.find? (fun d => d.id = p))

/-- isDescendant of Sidebar.tsx lines 34 to 58: false for a falsy start
id, else walk upward from the document with that id. -/
def isDescendant (docs : List Doc) (pDesc : Option (List Char))
    (anc : List Char) : Bool :=
  match pDesc with
  | none => false
  | some i =>
      if i = [] then false
      else descendLoop docs anc (docs.length + 1)
        (docs.find? (fun d => d.id = i))

/-- The partial update payload queued by the drag handler
(UpdateDocumentDto restricted to the two fields the handler writes):
each field present only when assigned. -/
structure UpdateDto where
  parentId : Option (Option (List Char))
  order : Option Int
deriving Repr, DecidableEq

/-- The empty payload. -/
def emptyDto : UpdateDto := ⟨none, none⟩

/-- Object spread merge of two payloads: present fields of the new data
override, the rest keep the existing values. -/
def mergeDto (old new : UpdateDto) : UpdateDto :=
  ⟨match new.parentId with
    | some v => some v
    | none => old.parentId,
   match new.order with
    | some v => some v
    | none => old.order⟩

/-- Map.set on the updates map: replace in place when the key exists,
append otherwise. -/
def mapSetDto (m : List (List Char × UpdateDto)) (i : List Char)
    (v : UpdateDto) : List (List Char × UpdateDto) :=
  if m.any (fun e => e.1 = i) then
    m.map (fun e => if e.1 = i then (i, v) else e)
  else m ++ [(i, v)]

/-- queueUpdate of Sidebar.tsx lines 442 to 449: skip a falsy id, merge
the data over the existing entry. -/
def queueUpdate (m : List (List Char × UpdateDto)) (i : List Char)
    (data : UpdateDto) : List (List Char × UpdateDto) :=
  if i = [] then m
  else mapSetDto m i
    (mergeDto (((m.find? (fun e => e.1 = i)).map Prod.snd).getD emptyDto) data)

/-- getSiblings of Sidebar.tsx lines 451 to 454: the documents of one
parent group, sorted by the primary sidebar sort. -/
def getSiblings (docs : List Doc) (parentId : Option (List Char)) :
    List Doc :=
  sortDocumentsA (docs.filter (fun d => d.parentId = parentId))

/-- The loop body of reindexSiblings, Sidebar.tsx lines 460 to 477, at
one enumerated sibling: the dragged document always receives the parent
and its index, any other sibling receives its index when its order
differs; falsy ids are skipped and empty payloads are not queued. -/
def reindexStep (dragId : List Char) (parentId : Option (List Char))
    (m : List (List Char × UpdateDto)) (e : Nat × Doc) :
    List (List Char × UpdateDto) :=
  if e.2.id = [] then m
  else
    let data : UpdateDto :=
      if e.2.id = dragId then ⟨some parentId, some (e.1 : Int)⟩
      else if e.2.order ≠ some (e.1 : Int) then ⟨none, some (e.1 : Int)⟩
      else ⟨none, none⟩
    if data.parentId.isSome ∨ data.order.isSome then
      queueUpdate m e.2.id data
    else m

/-- reindexSiblings of Sidebar.tsx lines 456 to 478: fold the enumerated
sibling list through the per-sibling step above. -/
def reindexSiblings (dragId : List Char)
    (m0 : List (List Char × UpdateDto)) (siblings : List Doc)
    (parentId : Option (List Char)) : List (List Char × UpdateDto) :=
  siblings.enum.foldl (reindexStep dragId parentId) m0

/-- JavaScript splice insertion at a position: positions past the end
append. -/
def spliceInsert (l : List Doc) (n : Nat) (d : Doc) : List Doc :=
  if l.length ≤ n then l ++ [d] else l.insertIdx n d

/-- One end of a drag: the droppable id string and the index inside it. -/
structure DropLocation where
  droppableId : List Char
  index : Nat
deriving Repr, DecidableEq

/-- The drop result the drag library reports. -/
structure DropResult where
  draggableId : List Char
  source : DropLocation
  destination : Option DropLocation
deriving Repr, DecidableEq

/-- parseListParentId of Sidebar.tsx lines 415 to 426: the root list is
the null parent; a list droppable strips its marker, an empty remainder
is null; anything else is null. -/
def parseListParentId (droppableId : List Char) : Option (List Char) :=
  if droppableId = "list:root".data then none
  else if leadsWith "list:".data droppableId then
    let i := droppableId.drop 5
    if i = [] then none else some i
  else none

/-- handleDragEnd of the primary sidebar, Sidebar.tsx lines 428 to 561,
returning the queued update entries (the updates array handed to the
reorder mutation); the empty list is the no-mutation outcome. The nest
branch handles droppables with the into marker, the list branch handles
sibling lists; both reindex the destination group and, on a parent
change, the source group. -/
def handleDragEnd (docs : List Doc) (result : DropResult) :
    List (List Char × UpdateDto) :=
  match result.destination with
  | none => []
  | some destination =>
      match docs.find? (fun d => d.id = result.draggableId) with
      | none => []
      | some movingDoc =>
          let sourceParentId := parseListParentId result.source.droppableId
          if leadsWith "into:".data destination.droppableId then
            let destParentId := destination.droppableId.drop 5
            if destParentId = [] ∨ destParentId = result.draggableId then []
            else if isDescendant docs (some destParentId) result.draggableId
            then []
            else
              let destSiblings :=
                (getSiblings docs (some destParentId)).filter
                  (fun d => d.id ≠ result.draggableId) ++
                  [{ movingDoc with parentId := some destParentId }]
              let m1 := reindexSiblings result.draggableId [] destSiblings
                (some destParentId)
              if sourceParentId ≠ some destParentId then
                reindexSiblings result.draggableId m1
                  ((getSiblings docs sourceParentId).filter
                    (fun d => d.id ≠ result.draggableId))
                  sourceParentId
              else m1
          else if leadsWith "list:".data destination.droppableId then
            let destParentId := parseListParentId destination.droppableId
            if destination.droppableId = result.source.droppableId ∧
                destination.index = result.source.index ∧
                destParentId = sourceParentId then []
            else if (match destParentId with
                | some p => isDescendant docs (some p) result.draggableId
                | none => false) then []
            else
              let destSiblings := spliceInsert
                ((getSiblings docs destParentId).filter
                  (fun d => d.id ≠ result.draggableId))
                destination.index
                { movingDoc with parentId := destParentId }
              let m1 := reindexSiblings result.draggableId [] destSiblings
                destParentId
              if destParentId ≠ sourceParentId then
                reindexSiblings result.draggableId m1
                  ((getSiblings docs sourceParentId).filter
                    (fun d => d.id ≠ result.draggableId))
                  sourceParentId
              else m1
          else []

/-- Apply the patch set to one document: take the provided fields of its
queued update, if any. -/
def applyFn (updates : List (List Char × UpdateDto)) (d : Doc) : Doc :=
  match (updates.find? (fun e => e.1 = d.id)).map Prod.snd with
  | none => d
  | some dto =>
      { d with
        parentId := dto.parentId.getD d.parentId
        order := match dto.order with
          | some o => some o
          | none => d.order }

/-- Apply a patch set to the collection: each patched document takes the
provided fields, the persistence step the host performs with every entry
before refreshing the collection (specification section 4.2 step 6). -/
def applyPatches (docs : List Doc)
    (updates : List (List Char × UpdateDto)) : List Doc :=
  docs.map (applyFn updates)

/-- handleMove of the third sidebar variant, Sidebar.tsx lines 1831 to
1839 (the move dialog confirm): one single update assigning the
destination parent and an order equal to the number of other documents
already in the destination group; no other document is renumbered. -/
def handleMove (docs : List Doc) (i : List Char)
    (parentId : Option (List Char)) : List (List Char × UpdateDto) :=
  [(i, ⟨some parentId,
    some ((docs.filter
      (fun d => d.parentId = parentId ∧ d.id ≠ i)).length : Int)⟩)]

/-! ## Characterization of the reindex pass -/

/-- The payload an index assignment produces for one sibling, the body of
the reindexSiblings loop at one position. -/
def patchFor (dragId : List Char) (parentId : Option (List Char)) (n : Nat)
    (d : Doc) : Option UpdateDto :=
  if d.id = [] then none
  else if d.id = dragId then some ⟨some parentId, some (n : Int)⟩
  else if d.order ≠ some (n : Int) then some ⟨none, some (n : Int)⟩
  else none

/-- The patch entries of one reindex pass over a sibling list, starting
at a given index. -/
def patchList (dragId : List Char) (parentId : Option (List Char)) :
    Nat → List Doc → List (List Char × UpdateDto)
  | _, [] => []
  | n, d :: ds =>
      (match patchFor dragId parentId n d with
       | some dto => [(d.id, dto)]
       | none => []) ++ patchList dragId parentId (n + 1) ds

/-- A document updated to a parent and an index. -/
def updDoc (P : Option (List Char)) (n : Nat) (d : Doc) : Doc :=
  { d with parentId := P, order := some (n : Int) }

/-- A sibling group after a reindex pass: every member carries the group
parent and its position as order. -/
def finalGroup (P : Option (List Char)) : Nat → List Doc → List Doc
  | _, [] => []
  | n, d :: ds => updDoc P n d :: finalGroup P (n + 1) ds

/-- The source sibling list the drag handler renumbers on a parent
change: the sorted source group without the dragged document. -/
def srcSibsOf (docs : List Doc) (dragId : List Char)
    (srcP : Option (List Char)) : List Doc :=
  (getSiblings docs srcP).filter (fun d => d.id ≠ dragId)

/-- The full patch set of one accepted drag: the destination reindex
followed, on a parent change, by the source reindex. -/
def enginePatches (docs : List Doc) (dragId : List Char)
    (destP srcP : Option (List Char)) (destSibs : List Doc) :
    List (List Char × UpdateDto) :=
  patchList dragId destP 0 destSibs ++
    (if destP ≠ srcP then patchList dragId srcP 0 (srcSibsOf docs dragId srcP)
     else [])

/-- The destination sibling list the sibling list branch builds: the
sorted destination group without the dragged document, with the
parent-retargeted copy of the dragged document spliced in at the drop
index. -/
def destSibsOf (docs : List Doc) (dragId : List Char)
    (destP : Option (List Char)) (idx : Nat) (movingDoc : Doc) : List Doc :=
  spliceInsert ((getSiblings docs destP).filter (fun d => d.id ≠ dragId))
    idx { movingDoc with parentId := destP }

/-- handleDragEnd of the fourth sidebar variant, part_006 lines 304 to
399, returning the sequence of queued update payloads: a drop onto a nest
droppable yields one patch making the document the destination's child
with order 0; a drop in a list patches the dragged document to the
destination index and bumps every destination sibling whose
shift-adjusted index is at or past that index. -/
def handleDragEndP6 (docs : List Doc) (result : DropResult) :
    List (List Char × UpdateDto) :=
  match result.destination with
  | none => []
  | some destination =>
      if destination.droppableId = result.source.droppableId ∧
          destination.index = result.source.index then []
      else if leadsWith "nest-".data destination.droppableId then
        [(result.draggableId,
          ⟨some (some (destination.droppableId.drop 5)), some 0⟩)]
      else
        let destParentId : Option (List Char) :=
          if destination.droppableId = "root".data then none
          else some (if leadsWith "children-".data destination.droppableId
            then destination.droppableId.drop 9
            else destination.droppableId)
        let sourceParentId : Option (List Char) :=
          if result.source.droppableId = "root".data then none
          else some (if leadsWith "children-".data result.source.droppableId
            then result.source.droppableId.drop 9
            else result.source.droppableId)
        let newOrder : Int := destination.index
        (result.draggableId, ⟨some destParentId, some newOrder⟩) ::
          (sortDocumentsTB (docs.filter
            (fun d => d.parentId = destParentId))).enum.filterMap
            (fun e =>
              if e.2.id = result.draggableId then none
              else
                let adjustedIdx : Int :=
                  if destParentId = sourceParentId then
                    if result.source.index < destination.index then
                      if result.source.index < e.1 ∧
                          e.1 ≤ destination.index then (e.1 : Int) - 1
                      else (e.1 : Int)
                    else if destination.index < result.source.index then
                      if destination.index ≤ e.1 ∧
                          e.1 < result.source.index then (e.1 : Int) + 1
                      else (e.1 : Int)
                    else (e.1 : Int)
                  else (e.1 : Int)
                if newOrder ≤ adjustedIdx then
                  some (e.2.id, ⟨none, some (adjustedIdx + 1)⟩)
                else none)

/-- Modelled from the spec: the droppable id naming a sibling list, the
root list or a parent's child list, in the format the drag handler
parses. -/
def listDroppableId : Option (List Char) → List Char
  | none => "list:root".data
  | some i => "list:".data ++ i

/-- Modelled from the spec: the drop result the drag layer reports for a
move intent (movingId, destinationParentId, destinationIndex): the
destination names the target sibling list at the desired index, and the
source names the moving document's current sibling list together with its
current position in that list. -/
def moveIntent (docs : List Doc) (movingId : List Char)
    (destP : Option (List Char)) (destIdx : Nat) : DropResult :=
  let srcP := ((docs.find? (fun d => d.id = movingId)).map
    Doc.parentId).getD none
  ⟨movingId,
   ⟨listDroppableId srcP,
    (getSiblings docs srcP).findIdx (fun d => d.id = movingId)⟩,
   some ⟨listDroppableId destP, destIdx⟩⟩

/-- The truthiness of an optional parent reference, the test truthyParent
performs on a document's parentId field. -/
def qTruthy : Option (List Char) → Bool
  | some p => decide (p ≠ [])
  | none => false

/-- A simple upward chain of documents, the invariant a tree builder
maintains along one recursion path: the head is the document whose
children are currently being built, each element's parentId points to the
next element, no element repeats, and the parent reference at the bottom
of the chain satisfies the builder's root condition P0. -/
def chainInv (S : List Doc) (P0 : Option (List Char) → Prop) :
    List Doc → Option (List Char) → Prop
  | [], p => P0 p
  | d :: rest, p => p = some d.id ∧ d ∈ S ∧ d ∉ rest ∧
      chainInv S P0 rest d.parentId

/-- The root condition of the part_000 map builder as a function of the
parent reference alone: the reference is not a truthy key of the node
map. -/
def rootCondV1 (docs : List Doc) (q : Option (List Char)) : Prop :=
  ¬(qTruthy q = true ∧ ∃ x ∈ v1MapDocs docs, some x.id = q)

/-- One upward parent step of the search helper's ancestor walk: the
collection holds a document with this id whose parent reference is
nonempty. -/
def parentStep (docs : List Doc) (i p : List Char) : Prop :=
  ∃ d ∈ docs, d.id = i ∧ d.parentId = some p ∧ p ≠ []

/-- The ancestor relation the specification describes (section 4.3 step
3): an id reached from the starting id by one or more upward parentId
steps through the collection. Stated from the spec's words, to be
compared with the match and expansion sets the sidebar computes. -/
inductive AncestorOf (docs : List Doc) (i : List Char) : List Char → Prop
  | base {p : List Char} : parentStep docs i p → AncestorOf docs i p
  | step {a b : List Char} : AncestorOf docs i a → parentStep docs a b →
      AncestorOf docs i b

/-- The deterministic upward step through the collection lookup map: the
nonempty parent reference of the document the map holds under this id. -/
def stepFun (docs : List Doc) (i : List Char) : Option (List Char) :=
  match (lookupGet docs i).bind Doc.parentId with
  | some p => if p = [] then none else some p
  | none => none

/-- Iterated upward steps: the id reached after n steps from i. -/
def iterOpt (docs : List Doc) : Nat → List Char → Option (List Char)
  | 0, i => some i
  | n + 1, i =>
      match stepFun docs i with
      | some j => iterOpt docs n j
      | none => none

/-- C6 counterexample. The third sidebar variant treats a missing order as
0, so a document with a missing order sorts before a sibling whose defined
order is positive, contradicting the claim that a missing order sorts
after every defined order of the group. -/
theorem c6_missing_order_sorts_first :
    sortDocumentsZ
        [⟨[Char.ofNat 97], "a", none, some 5⟩,
         ⟨[Char.ofNat 98], "b", none, none⟩] =
      [⟨[Char.ofNat 98], "b", none, none⟩,
       ⟨[Char.ofNat 97], "a", none, some 5⟩] ∧
    (⟨[Char.ofNat 98], "b", none, none⟩ : Doc).order = none ∧
    (⟨[Char.ofNat 97], "a", none, some 5⟩ : Doc).order = some 5 := by
  refine ⟨?_, rfl, rfl⟩
  decide

/-- C6 amended. The documentTree library sort returns a permutation of its
input sorted by order ascending with a missing order treated as
Number.MAX_SAFE_INTEGER and the title as tie break, so a missing order
sorts after every defined order below that sentinel; the primary sidebar
sort is a permutation sorted by order alone with sentinel 999999 and no
title tie break. -/
theorem c6_sort_characterization (docs : List Doc) :
    (sortDocumentsTB docs).Perm docs ∧
      List.Sorted (leLex maxSafeInteger) (sortDocumentsTB docs) ∧
      (sortDocumentsA docs).Perm docs ∧
      List.Sorted (leOrd 999999) (sortDocumentsA docs) := by
  refine ⟨List.perm_insertionSort _ _, List.sorted_insertionSort _ _,
    List.perm_insertionSort _ _, List.sorted_insertionSort _ _⟩

theorem traverseSelected_eq_filter (sel : List (List Char)) :
    ∀ ns : List TreeNode,
      traverseSelected sel ns =
        (forestIds ns).filter (fun i => decide (i ≠ [] ∧ i ∈ sel)) := by
  intro ns
  induction ns using traverseSelected.induct sel with
  | case1 => simp [traverseSelected, forestIds]
  | case2 d c rest ihc ihrest =>
      by_cases hsel : d.id ≠ [] ∧ d.id ∈ sel
      · by_cases hc : c.length > 0
        · simp [traverseSelected, forestIds, hsel, hc, ihc, ihrest]
        · have hcnil : c = [] := by
            cases c with
            | nil => rfl
            | cons x xs => simp at hc
          subst hcnil
          simp [traverseSelected, forestIds, hsel, ihrest]
      · by_cases hc : c.length > 0
        · simp [traverseSelected, forestIds, hsel, hc, ihc, ihrest]
        · have hcnil : c = [] := by
            cases c with
            | nil => rfl
            | cons x xs => simp at hc
          subst hcnil
          simp [traverseSelected, forestIds, hsel, ihrest]

/-- C10. getOrderedDocumentIds returns exactly the selected truthy ids
that occur in the forest built from the collection, in the preorder of the
forest: the preorder id sequence filtered by membership in the selection.
A selected document is therefore included regardless of whether its
ancestors are selected, and selected ids absent from the built forest are
omitted. -/
theorem c10_ordered_ids_are_preorder_filter (fuel : Nat) (docs : List Doc)
    (sel : List (List Char)) :
    getOrderedDocumentIds fuel docs sel =
      (forestIds (buildDocumentTreeExport fuel docs none)).filter
        (fun i => decide (i ≠ [] ∧ i ∈ sel)) := by
  exact traverseSelected_eq_filter sel _

theorem mem_mapSetDoc {m : List Doc} {d x : Doc} (hx : x ∈ mapSetDoc m d) :
    x ∈ m ∨ x = d := by
  unfold mapSetDoc at hx
  by_cases h : m.any (fun y => y.id = d.id)
  · simp [h] at hx
    obtain ⟨y, hy, hxy⟩ := hx
    by_cases hid : y.id = d.id
    · simp [hid] at hxy
      exact Or.inr hxy.symm
    · simp [hid] at hxy
      exact Or.inl (hxy ▸ hy)
  · simp [h] at hx
    rcases hx with hx | hx
    · exact Or.inl hx
    · exact Or.inr hx

theorem mem_v1Fold {l : List Doc} :
    ∀ {m₀ x}, x ∈ l.foldl (fun m d => if d.id = [] then m else mapSetDoc m d) m₀ →
      x ∈ m₀ ∨ x ∈ l := by
  induction l with
  | nil => intro m₀ x hx; exact Or.inl hx
  | cons d ds ih =>
      intro m₀ x hx
      simp only [List.foldl_cons] at hx
      by_cases hd : d.id = []
      · simp [hd] at hx
        rcases ih hx with h | h
        · exact Or.inl h
        · exact Or.inr (List.mem_cons_of_mem _ h)
      · simp [hd] at hx
        rcases ih hx with h | h
        · rcases mem_mapSetDoc h with h | h
          · exact Or.inl h
          · exact Or.inr (h ▸ List.mem_cons_self _ _)
        · exact Or.inr (List.mem_cons_of_mem _ h)

theorem mem_v1MapDocs {docs : List Doc} {x : Doc} (hx : x ∈ v1MapDocs docs) :
    x ∈ docs := by
  rcases mem_v1Fold hx with h | h
  · simp at h
  · exact (List.perm_insertionSort (leOrd 999999) docs).mem_iff.mp h

theorem v1Fold_eq_filter {l : List Doc} :
    ∀ {m₀ : List Doc},
      ((m₀ ++ l).map Doc.id).Nodup →
      l.foldl (fun m d => if d.id = [] then m else mapSetDoc m d) m₀ =
        m₀ ++ l.filter (fun d => decide (d.id ≠ [])) := by
  induction l with
  | nil => intro m₀ _; simp
  | cons d ds ih =>
      intro m₀ hnd
      simp only [List.foldl_cons]
      by_cases hd : d.id = []
      · rw [if_pos hd]
        have hnd' : ((m₀ ++ ds).map Doc.id).Nodup := by
          have h1 : (m₀ ++ d :: ds).map Doc.id =
              m₀.map Doc.id ++ d.id :: ds.map Doc.id := by simp
          have h2 : (m₀ ++ ds).map Doc.id = m₀.map Doc.id ++ ds.map Doc.id := by
            simp
          rw [h1] at hnd
          rw [h2]
          exact hnd.sublist (by
            refine List.Sublist.append (List.Sublist.refl _) ?_
            exact List.sublist_cons_self _ _)
        rw [ih hnd']
        simp [hd]
      · rw [if_neg hd]
        have hdm : ¬ m₀.any (fun x => x.id = d.id) := by
          intro hcon
          simp only [List.any_eq_true, decide_eq_true_eq] at hcon
          obtain ⟨x, hxm, hxid⟩ := hcon
          have h1 : (m₀ ++ d :: ds).map Doc.id =
              m₀.map Doc.id ++ d.id :: ds.map Doc.id := by simp
          rw [h1] at hnd
          have hdisj := List.disjoint_of_nodup_append hnd
          exact hdisj (List.mem_map_of_mem Doc.id hxm)
            (by rw [hxid]; exact List.mem_cons_self _ _)
        have hset : mapSetDoc m₀ d = m₀ ++ [d] := by
          unfold mapSetDoc
          rw [if_neg (by simpa using hdm)]
        rw [hset]
        have hnd' : (((m₀ ++ [d]) ++ ds).map Doc.id).Nodup := by
          have : (m₀ ++ [d]) ++ ds = m₀ ++ d :: ds := by simp
          rw [this]
          exact hnd
        rw [ih hnd']
        simp [hd]

theorem v1MapDocs_eq_of_nodup {docs : List Doc}
    (hnd : (docs.map Doc.id).Nodup) :
    v1MapDocs docs = (sortDocumentsA docs).filter (fun d => decide (d.id ≠ [])) := by
  unfold v1MapDocs
  have hperm : ((sortDocumentsA docs).map Doc.id).Perm (docs.map Doc.id) :=
    (List.perm_insertionSort (leOrd 999999) docs).map Doc.id
  have hnd' : (([] ++ sortDocumentsA docs).map Doc.id).Nodup := by
    simpa using hperm.nodup_iff.mpr hnd
  simpa using v1Fold_eq_filter hnd'

theorem v1Unfold_doc (docs : List Doc) (fuel : Nat) (d : Doc) :
    (v1Unfold docs fuel d).doc = d := by
  cases fuel <;> rfl

/-- C8 counterexample. In the filter-based recursive builder of
ExportPdfModal.tsx, a document whose non-null parentId names no document
of the collection is silently dropped: with the one-document collection
whose parent reference is dangling, the built forest is empty (fuel 2
fully unfolds a one-document collection), so the document does not appear
as a root node. -/
theorem c8_dangling_parent_dropped_by_export_builder :
    buildDocumentTreeExport 2
        [⟨['A'], "a", some ['g'], some 0⟩] none = [] ∧
    (⟨['A'], "a", some ['g'], some 0⟩ : Doc).parentId = some ['g'] ∧
    ['g'] ∉ ([⟨['A'], "a", some ['g'], some 0⟩] : List Doc).map Doc.id := by
  exact ⟨rfl, rfl, by decide⟩

/-- C8 amended. The two cited builders disagree: the map-based builder of
part_000 treats a document with a truthy dangling parent reference as a
root (it appears at the top level of the built forest), while the
filter-based recursive builder of ExportPdfModal.tsx omits such a
document from the built tree entirely. Proved here for the map-based
builder: under distinct ids, a document with a truthy parentId naming no
id of the collection appears among the root nodes. -/
theorem c8_dangling_parent_is_root_in_v1 (docs : List Doc) (d : Doc)
    (p : List Char) (fuel : Nat)
    (hnd : (docs.map Doc.id).Nodup) (hmem : d ∈ docs) (hid : d.id ≠ [])
    (hp : d.parentId = some p) (hpne : p ≠ [])
    (hdangle : p ∉ docs.map Doc.id) :
    d.id ∈ (buildDocumentTreeV1 fuel docs).map (fun t => t.doc.id) := by
  have hmap : d ∈ v1MapDocs docs := by
    rw [v1MapDocs_eq_of_nodup hnd]
    refine List.mem_filter.mpr ⟨?_, by simpa using hid⟩
    exact (List.perm_insertionSort (leOrd 999999) docs).mem_iff.mpr hmem
  have hroot : d ∈ v1Roots docs := by
    refine List.mem_filter.mpr ⟨hmap, ?_⟩
    have hany : ¬ (v1MapDocs docs).any (fun x => some x.id = d.parentId) := by
      intro hcon
      simp only [List.any_eq_true, decide_eq_true_eq] at hcon
      obtain ⟨x, hxm, hxid⟩ := hcon
      rw [hp] at hxid
      have hxid' : x.id = p := by simpa using hxid
      exact hdangle (hxid' ▸ List.mem_map_of_mem Doc.id (mem_v1MapDocs hxm))
    simp only [Bool.not_eq_true] at hany ⊢
    simp [hany]
  have hsorted : d ∈ sortDocumentsA (v1Roots docs) :=
    (List.perm_insertionSort (leOrd 999999) (v1Roots docs)).mem_iff.mpr hroot
  unfold buildDocumentTreeV1
  have : v1Unfold docs fuel d ∈ (sortDocumentsA (v1Roots docs)).map (v1Unfold docs fuel) :=
    List.mem_map_of_mem _ hsorted
  have h2 := List.mem_map_of_mem (fun t => t.doc.id) this
  simpa [v1Unfold_doc] using h2

/-- C8 amended witness at a concrete collection: a single document with a
dangling parent reference appears as a root of the map-based builder. -/
theorem c8_dangling_parent_is_root_in_v1_witness :
    (['A'] : List Char) ∈
      (buildDocumentTreeV1 1 [⟨['A'], "a", some ['g'], some 0⟩]).map
        (fun t => t.doc.id) :=
  c8_dangling_parent_is_root_in_v1 [⟨['A'], "a", some ['g'], some 0⟩]
    ⟨['A'], "a", some ['g'], some 0⟩ ['g'] 1 (by decide) (by decide)
    (by decide) rfl (by decide) (by decide)

/-- C4 counterexample. On the artificially injected two-document cycle
(A.parentId = B.id, B.parentId = A.id) both cited builders terminate but
each cycle member appears zero times in the resulting forest, not exactly
once: neither member passes the root test, so the returned forest is
empty (fuel 3 exceeds the collection size, so the fuel bound is not the
reason the output is empty). -/
theorem c4_cycle_members_absent :
    buildDocumentTreeP0 3
        [⟨['a'], "x", some ['b'], some 0⟩,
         ⟨['b'], "y", some ['a'], some 1⟩] none = [] ∧
    buildDocumentTreeV1 3
        [⟨['a'], "x", some ['b'], some 0⟩,
         ⟨['b'], "y", some ['a'], some 1⟩] = [] := by
  constructor
  · rfl
  · rfl

theorem normalizeStored_parent (doc : StoredDoc) :
    normalizedParent (normalizeStored doc) := by
  intro s hs
  unfold normalizeStored at hs
  simp only at hs
  match hp : doc.parentId with
  | none => rw [hp] at hs; simp at hs
  | some p =>
      rw [hp] at hs
      by_cases hpe : p = ""
      · simp [hpe] at hs
      · simp [hpe] at hs
        exact hs ▸ hpe

theorem normalizeStored_order (doc : StoredDoc) :
    (normalizeStored doc).order = doc.order.getD 0 := rfl

/-- C9. Every document returned by the API read and update layer has its
parentId normalized to null whenever the stored value is absent or falsy
(so a returned parentId is never the empty string), and a defined numeric
order equal to the stored order with 0 as the default for a missing one:
stated for getAllDocuments, getDocumentById and updateDocument. -/
theorem c9_api_normalization (store : List StoredDoc) (i : String)
    (data : UpdateDocPayload) :
    (∀ a ∈ getAllDocuments store, normalizedParent a ∧
      ∃ d ∈ store, a.id = d.id ∧ a.order = d.order.getD 0) ∧
    (∀ a, getDocumentById i store = some a → normalizedParent a ∧
      ∃ d ∈ store, a.id = d.id ∧ a.order = d.order.getD 0) ∧
    (∀ a, updateDocument i data store = some a → normalizedParent a ∧
      ∃ d ∈ store, a.id = d.id ∧
        a.order = (match data.order with
          | some o => some o
          | none => d.order).getD 0) := by
  refine ⟨?_, ?_, ?_⟩
  · intro a ha
    obtain ⟨d, hd, rfl⟩ := List.mem_map.mp ha
    exact ⟨normalizeStored_parent d, d, hd, rfl, rfl⟩
  · intro a ha
    unfold getDocumentById at ha
    obtain ⟨d, hf, rfl⟩ := Option.map_eq_some'.mp ha
    exact ⟨normalizeStored_parent d, d, List.mem_of_find?_eq_some hf, rfl, rfl⟩
  · intro a ha
    unfold updateDocument at ha
    obtain ⟨d, hf, rfl⟩ := Option.map_eq_some'.mp ha
    exact ⟨normalizeStored_parent _, d, List.mem_of_find?_eq_some hf, rfl, rfl⟩

/-- C9 witness at a concrete store: a stored document with an empty-string
parentId and a missing order comes back through getDocumentById with a
null parentId and order 0, and the returned document is normalized. -/
theorem c9_api_normalization_witness :
    normalizedParent (⟨"x", "t", "c", "u", none, "📄", 0⟩ : ApiDoc) ∧
    ∃ d ∈ [(⟨"x", "t", "c", "u", some "", some "", none⟩ : StoredDoc)],
      (⟨"x", "t", "c", "u", none, "📄", 0⟩ : ApiDoc).id = d.id ∧
      (⟨"x", "t", "c", "u", none, "📄", 0⟩ : ApiDoc).order = d.order.getD 0 :=
  ((c9_api_normalization [⟨"x", "t", "c", "u", some "", some "", none⟩] "x"
      ⟨none, none, none, none, none⟩).2.1)
    ⟨"x", "t", "c", "u", none, "📄", 0⟩ (by decide)

/-- C7 counterexample. In the three-level chain where only the leaf title
contains the query, the computed match set is the leaf together with both
of its ancestors, not only the leaf: the mid id is a member of the match
set although its title does not match. -/
theorem c7_match_set_contains_ancestors :
    matchSetFn
        [⟨['r'], "Alpha", none, some 0⟩,
         ⟨['m'], "Beta", some ['r'], some 0⟩,
         ⟨['l'], "Gamma", some ['m'], some 0⟩]
        ['g', 'a', 'm', 'm', 'a'] =
      some [['l'], ['m'], ['r']] ∧
    titleMatch ['g', 'a', 'm', 'm', 'a']
        ⟨['m'], "Beta", some ['r'], some 0⟩ = false := by
  exact ⟨by decide, by decide⟩

theorem includeAncestors_succ_some (docs : List Doc) (fuel : Nat)
    (acc : List (List Char)) (i : List Char) :
    includeAncestors docs (fuel + 1) acc (some i) =
      if i = [] then acc
      else if i ∈ acc then acc
      else includeAncestors docs fuel (acc ++ [i])
        ((lookupGet docs i).bind Doc.parentId) := rfl

theorem includeAncestors_none (docs : List Doc) (fuel : Nat)
    (acc : List (List Char)) :
    includeAncestors docs fuel acc none = acc := by
  cases fuel <;> rfl

theorem addAncestorsWhile_succ_some (docs : List Doc) (fuel : Nat)
    (acc : List (List Char)) (p : List Char) :
    addAncestorsWhile docs (fuel + 1) acc (some p) =
      if p = [] then acc
      else addAncestorsWhile docs fuel (addSet acc p)
        ((lookupGet docs p).bind Doc.parentId) := rfl

theorem addAncestorsWhile_none (docs : List Doc) (fuel : Nat)
    (acc : List (List Char)) :
    addAncestorsWhile docs fuel acc none = acc := by
  cases fuel <;> rfl

/-- C1. The claim requires rejection whenever destinationParentId equals
movingId. The nest branch checks this, but the sibling list branch does
not: dropping a document into its own child list emits a patch that makes
the document its own parent. With the one-document collection and the
drop result whose destination droppable is the child list of the dragged
document itself, the handler emits a nonempty patch set whose single
entry assigns the document itself as its parent, and applying it yields a
self-referential parentId, violating the acyclicity the claim protects:
the destination parent equals the moving id, yet patches are emitted. -/
theorem c1_self_parent_not_rejected_in_list_branch :
    parseListParentId ("list:".data ++ ['X']) = some ['X'] ∧
    handleDragEnd [⟨['X'], "t", none, some 0⟩]
        ⟨['X'], ⟨"list:root".data, 0⟩,
          some ⟨"list:".data ++ ['X'], 0⟩⟩ =
      [(['X'], ⟨some (some ['X']), some 0⟩)] ∧
    (applyPatches [⟨['X'], "t", none, some 0⟩]
        (handleDragEnd [⟨['X'], "t", none, some 0⟩]
          ⟨['X'], ⟨"list:root".data, 0⟩,
            some ⟨"list:".data ++ ['X'], 0⟩⟩)).map Doc.parentId =
      [some ['X']] := by
  refine ⟨by decide, by decide, by decide⟩

theorem mergeDto_empty (data : UpdateDto) : mergeDto emptyDto data = data := by
  cases data with
  | mk p o => cases p <;> cases o <;> rfl

theorem queueUpdate_fresh (m : List (List Char × UpdateDto)) (i : List Char)
    (data : UpdateDto) (hne : i ≠ []) (hfresh : i ∉ m.map Prod.fst) :
    queueUpdate m i data = m ++ [(i, data)] := by
  unfold queueUpdate
  rw [if_neg hne]
  have hfind : m.find? (fun e => e.1 = i) = none := by
    rw [List.find?_eq_none]
    intro e he hcon
    simp only [decide_eq_true_eq] at hcon
    exact hfresh (hcon ▸ List.mem_map_of_mem Prod.fst he)
  rw [hfind]
  unfold mapSetDto
  have hany : ¬ m.any (fun e => e.1 = i) = true := by
    intro hcon
    simp only [List.any_eq_true, decide_eq_true_eq] at hcon
    obtain ⟨e, he, hei⟩ := hcon
    exact hfresh (hei ▸ List.mem_map_of_mem Prod.fst he)
  rw [if_neg hany]
  simp [mergeDto_empty]

theorem patchList_cons (dragId : List Char) (P : Option (List Char))
    (n : Nat) (d : Doc) (ds : List Doc) :
    patchList dragId P n (d :: ds) =
      (match patchFor dragId P n d with
       | some dto => [(d.id, dto)]
       | none => []) ++ patchList dragId P (n + 1) ds := rfl

theorem reindexStep_char (dragId : List Char) (P : Option (List Char))
    (m : List (List Char × UpdateDto)) (n : Nat) (d : Doc) :
    reindexStep dragId P m (n, d) =
      match patchFor dragId P n d with
      | some dto => queueUpdate m d.id dto
      | none => m := by
  unfold reindexStep patchFor
  by_cases hid : d.id = []
  · simp [hid]
  · simp only [hid, if_neg, if_false]
    by_cases hdrag : d.id = dragId
    · simp [hdrag]
    · simp only [hdrag, if_neg, if_false]
      by_cases hord : d.order ≠ some (n : Int)
      · simp [hord]
      · simp [hord]

theorem reindexFold_eq (dragId : List Char) (P : Option (List Char)) :
    ∀ (sibs : List Doc) (n : Nat) (m0 : List (List Char × UpdateDto)),
      (sibs.map Doc.id).Nodup →
      (∀ d ∈ sibs, d.id ∉ m0.map Prod.fst) →
      (List.enumFrom n sibs).foldl (reindexStep dragId P) m0 =
        m0 ++ patchList dragId P n sibs := by
  intro sibs
  induction sibs with
  | nil => intro n m0 _ _; simp [patchList]
  | cons d ds ih =>
      intro n m0 hnd hfresh
      have hndtail : (ds.map Doc.id).Nodup := by
        simp only [List.map_cons, List.nodup_cons] at hnd
        exact hnd.2
      have hhead : d.id ∉ ds.map Doc.id := by
        simp only [List.map_cons, List.nodup_cons] at hnd
        exact hnd.1
      show List.foldl _ _ ((n, d) :: List.enumFrom (n + 1) ds) = _
      rw [List.foldl_cons, reindexStep_char]
      match hp : patchFor dragId P n d with
      | none =>
          show List.foldl (reindexStep dragId P) m0
              (List.enumFrom (n + 1) ds) = _
          rw [ih (n + 1) m0 hndtail
            (fun x hx => hfresh x (List.mem_cons_of_mem _ hx))]
          rw [patchList_cons, hp]
          rfl
      | some dto =>
          have hidne : d.id ≠ [] := by
            intro hcon
            unfold patchFor at hp
            rw [if_pos hcon] at hp
            exact Option.noConfusion hp
          show List.foldl (reindexStep dragId P)
              (queueUpdate m0 d.id dto) (List.enumFrom (n + 1) ds) = _
          rw [queueUpdate_fresh m0 d.id dto hidne
            (hfresh d (List.mem_cons_self _ _))]
          rw [ih (n + 1) _ hndtail ?_]
          · rw [patchList_cons, hp]
            simp
          · intro x hx
            simp only [List.map_append, List.mem_append]
            push_neg
            refine ⟨hfresh x (List.mem_cons_of_mem _ hx), ?_⟩
            simp only [List.map_cons, List.map_nil, List.mem_singleton]
            intro hcon
            exact hhead (hcon ▸ List.mem_map_of_mem Doc.id hx)

/-- reindexSiblings is the starting map extended by the patch list, as
long as the siblings have distinct ids not colliding with the map. -/
theorem reindexSiblings_eq (dragId : List Char) (P : Option (List Char))
    (sibs : List Doc) (m0 : List (List Char × UpdateDto))
    (hnd : (sibs.map Doc.id).Nodup)
    (hfresh : ∀ d ∈ sibs, d.id ∉ m0.map Prod.fst) :
    reindexSiblings dragId m0 sibs P = m0 ++ patchList dragId P 0 sibs := by
  unfold reindexSiblings
  exact reindexFold_eq dragId P sibs 0 m0 hnd hfresh

theorem patchList_keys_sub (dragId : List Char) (P : Option (List Char)) :
    ∀ (sibs : List Doc) (n : Nat) (x : List Char),
      x ∈ (patchList dragId P n sibs).map Prod.fst → x ∈ sibs.map Doc.id := by
  intro sibs
  induction sibs with
  | nil => intro n x hx; simp [patchList] at hx
  | cons d ds ih =>
      intro n x hx
      rw [patchList_cons] at hx
      simp only [List.map_append, List.mem_append] at hx
      rcases hx with hx | hx
      · match hp : patchFor dragId P n d with
        | none => rw [hp] at hx; simp at hx
        | some dto =>
            rw [hp] at hx
            simp only [List.map_cons, List.map_nil, List.mem_singleton] at hx
            simp [hx]
      · exact List.mem_cons_of_mem _ (ih (n + 1) x hx)

theorem find?_patchList_not_mem (dragId : List Char) (P : Option (List Char))
    (sibs : List Doc) (n : Nat) (x : List Char)
    (hx : x ∉ sibs.map Doc.id) :
    (patchList dragId P n sibs).find? (fun e => e.1 = x) = none := by
  rw [List.find?_eq_none]
  intro e he hcon
  simp only [decide_eq_true_eq] at hcon
  exact hx (hcon ▸ patchList_keys_sub dragId P sibs n e.1
    (List.mem_map_of_mem Prod.fst he))

theorem find?_patchList_mem (dragId : List Char) (P : Option (List Char)) :
    ∀ (sibs : List Doc) (n : Nat) (d : Doc),
      (sibs.map Doc.id).Nodup → d ∈ sibs → 
      (patchList dragId P n sibs).find? (fun e => e.1 = d.id) =
        (patchFor dragId P (n + sibs.findIdx (fun x => x.id = d.id)) d).map
          (fun dto => (d.id, dto)) := by
  intro sibs
  induction sibs with
  | nil => intro n d _ hd; simp at hd
  | cons x xs ih =>
      intro n d hnd hd
      have hndtail : (xs.map Doc.id).Nodup := by
        simp only [List.map_cons, List.nodup_cons] at hnd
        exact hnd.2
      have hhead : x.id ∉ xs.map Doc.id := by
        simp only [List.map_cons, List.nodup_cons] at hnd
        exact hnd.1
      by_cases hx : x.id = d.id
      · have hdx : d = x := by
          rcases List.mem_cons.mp hd with h | h
          · exact h
          · exact absurd (hx ▸ List.mem_map_of_mem Doc.id h) hhead
        subst hdx
        have hfi : (d :: xs).findIdx (fun y => y.id = d.id) = 0 := by
          rw [List.findIdx_cons]
          simp
        rw [hfi, Nat.add_zero, patchList_cons]
        match hp : patchFor dragId P n d with
        | none =>
            simp only [List.nil_append]
            exact find?_patchList_not_mem dragId P xs (n + 1) d.id hhead
        | some dto =>
            simp only [List.singleton_append, List.find?_cons]
            simp
      · have hdxs : d ∈ xs := by
          rcases List.mem_cons.mp hd with h | h
          · exact absurd (congrArg Doc.id h.symm) hx
          · exact h
        have hfi : (x :: xs).findIdx (fun y => y.id = d.id) =
            xs.findIdx (fun y => y.id = d.id) + 1 := by
          rw [List.findIdx_cons]
          simp [hx]
        rw [hfi, patchList_cons]
        have harith : n + (xs.findIdx (fun y => y.id = d.id) + 1) =
            (n + 1) + xs.findIdx (fun y => y.id = d.id) := by omega
        rw [harith]
        match hp : patchFor dragId P n x with
        | none =>
            simp only [List.nil_append]
            exact ih (n + 1) d hndtail hdxs
        | some dto =>
            simp only [List.singleton_append, List.find?_cons,
              decide_eq_false hx]
            exact ih (n + 1) d hndtail hdxs

theorem applyFn_of_none (U : List (List Char × UpdateDto)) (d : Doc)
    (h : U.find? (fun e => e.1 = d.id) = none) : applyFn U d = d := by
  unfold applyFn
  rw [h]
  rfl

theorem applyFn_of_some (U : List (List Char × UpdateDto)) (d : Doc)
    (x : List Char) (dto : UpdateDto)
    (h : U.find? (fun e => e.1 = d.id) = some (x, dto)) :
    applyFn U d =
      { d with
        parentId := dto.parentId.getD d.parentId
        order := match dto.order with
          | some o => some o
          | none => d.order } := by
  unfold applyFn
  rw [h]
  rfl

theorem finalGroup_cons (P : Option (List Char)) (n : Nat) (d : Doc)
    (ds : List Doc) :
    finalGroup P n (d :: ds) = updDoc P n d :: finalGroup P (n + 1) ds := rfl

theorem finalGroup_map_order (P : Option (List Char)) :
    ∀ (sibs : List Doc) (n : Nat),
      (finalGroup P n sibs).map Doc.order =
        List.map (fun k : Nat => some (k : Int)) (List.range' n sibs.length) := by
  intro sibs
  induction sibs with
  | nil => intro n; rfl
  | cons d ds ih =>
      intro n
      rw [finalGroup_cons]
      simp only [List.map_cons, List.length_cons]
      rw [show List.range' n (ds.length + 1) = n :: List.range' (n + 1) ds.length
        from List.range'_succ n ds.length 1]
      simp only [List.map_cons]
      rw [ih (n + 1)]
      rfl

theorem mem_finalGroup_facts (P : Option (List Char)) :
    ∀ (sibs : List Doc) (n : Nat) (x : Doc), x ∈ finalGroup P n sibs →
      x.parentId = P ∧ ∃ k, n ≤ k ∧ x.order = some (k : Int) := by
  intro sibs
  induction sibs with
  | nil => intro n x hx; simp [finalGroup] at hx
  | cons d ds ih =>
      intro n x hx
      rw [finalGroup_cons] at hx
      rcases List.mem_cons.mp hx with rfl | hx
      · exact ⟨rfl, n, le_refl n, rfl⟩
      · obtain ⟨hp, k, hk, ho⟩ := ih (n + 1) x hx
        exact ⟨hp, k, by omega, ho⟩

theorem finalGroup_sorted (P : Option (List Char)) :
    ∀ (sibs : List Doc) (n : Nat),
      List.Sorted (leOrd 999999) (finalGroup P n sibs) := by
  intro sibs
  induction sibs with
  | nil => intro n; simp [finalGroup]
  | cons d ds ih =>
      intro n
      rw [finalGroup_cons]
      rw [List.sorted_cons]
      refine ⟨?_, ih (n + 1)⟩
      intro b hb
      obtain ⟨_, k, hk, ho⟩ := mem_finalGroup_facts P ds (n + 1) b hb
      show orderKey 999999 (updDoc P n d) ≤ orderKey 999999 b
      unfold orderKey updDoc
      simp only [Option.getD_some, ho]
      exact_mod_cast Nat.le_of_succ_le hk

theorem finalGroup_map_id (P : Option (List Char)) :
    ∀ (sibs : List Doc) (n : Nat),
      (finalGroup P n sibs).map Doc.id = sibs.map Doc.id := by
  intro sibs
  induction sibs with
  | nil => intro n; rfl
  | cons d ds ih =>
      intro n
      rw [finalGroup_cons]
      simp only [List.map_cons]
      rw [ih (n + 1)]
      rfl

theorem finalGroup_map_key (P : Option (List Char)) :
    ∀ (sibs : List Doc) (n : Nat),
      (finalGroup P n sibs).map (orderKey 999999) =
        List.map (fun k : Nat => (k : Int)) (List.range' n sibs.length) := by
  intro sibs
  induction sibs with
  | nil => intro n; rfl
  | cons d ds ih =>
      intro n
      rw [finalGroup_cons]
      simp only [List.map_cons, List.length_cons]
      rw [show List.range' n (ds.length + 1) = n :: List.range' (n + 1) ds.length
        from List.range'_succ n ds.length 1]
      simp only [List.map_cons]
      rw [ih (n + 1)]
      rfl

theorem finalGroup_keys_nodup (P : Option (List Char)) (sibs : List Doc)
    (n : Nat) :
    ((finalGroup P n sibs).map (orderKey 999999)).Nodup := by
  rw [finalGroup_map_key]
  exact List.Nodup.map (fun a b h => Int.natCast_inj.mp h)
    (List.nodup_range' n sibs.length)

theorem eq_of_mem_of_id_eq :
    ∀ {docs : List Doc}, (docs.map Doc.id).Nodup →
      ∀ {a b : Doc}, a ∈ docs → b ∈ docs → a.id = b.id → a = b := by
  intro docs
  induction docs with
  | nil => intro _ a b ha _ _; simp at ha
  | cons x xs ih =>
      intro hnd a b ha hb hid
      have hhead : x.id ∉ xs.map Doc.id := by
        simp only [List.map_cons, List.nodup_cons] at hnd
        exact hnd.1
      have hndtail : (xs.map Doc.id).Nodup := by
        simp only [List.map_cons, List.nodup_cons] at hnd
        exact hnd.2
      rcases List.mem_cons.mp ha with rfl | ha2
      · rcases List.mem_cons.mp hb with rfl | hb2
        · rfl
        · exact absurd (hid ▸ List.mem_map_of_mem Doc.id hb2) hhead
      · rcases List.mem_cons.mp hb with rfl | hb2
        · exact absurd (hid ▸ List.mem_map_of_mem Doc.id ha2) hhead
        · exact ih hndtail ha2 hb2 hid

theorem mem_of_getElem?_doc {l : List Doc} {i : Nat} {a : Doc}
    (h : l[i]? = some a) : a ∈ l := by
  obtain ⟨hlt, rfl⟩ := List.getElem?_eq_some_iff.mp h
  exact List.getElem_mem hlt

theorem updDoc_congr (P : Option (List Char)) (n : Nat) {a b : Doc}
    (hid : a.id = b.id) (ht : a.title = b.title) :
    updDoc P n a = updDoc P n b := by
  cases a with
  | mk ai at' ap ao =>
      cases b with
      | mk bi bt bp bo =>
          simp only at hid ht
          simp [updDoc, hid, ht]

theorem mem_finalGroup_iff (P : Option (List Char)) :
    ∀ (sibs : List Doc) (n : Nat) (x : Doc),
      x ∈ finalGroup P n sibs ↔
        ∃ j e, sibs[j]? = some e ∧ x = updDoc P (n + j) e := by
  intro sibs
  induction sibs with
  | nil =>
      intro n x
      constructor
      · intro hx; simp [finalGroup] at hx
      · rintro ⟨j, e, hj, _⟩; simp at hj
  | cons d ds ih =>
      intro n x
      rw [finalGroup_cons]
      constructor
      · intro hx
        rcases List.mem_cons.mp hx with rfl | hx
        · exact ⟨0, d, List.getElem?_cons_zero, by rw [Nat.add_zero]⟩
        · obtain ⟨j, e, hj, hx⟩ := (ih (n + 1) x).mp hx
          refine ⟨j + 1, e, by rw [List.getElem?_cons_succ]; exact hj, ?_⟩
          rw [hx]
          congr 1
          omega
      · rintro ⟨j, e, hj, rfl⟩
        cases j with
        | zero =>
            rw [List.getElem?_cons_zero] at hj
            obtain rfl : d = e := Option.some.inj hj
            exact List.mem_cons_self _ _
        | succ j =>
            rw [List.getElem?_cons_succ] at hj
            refine List.mem_cons_of_mem _ ((ih (n + 1) _).mpr ⟨j, e, hj, ?_⟩)
            congr 1
            omega

theorem findIdx_id_lt {sibs : List Doc} {x : List Char}
    (hx : x ∈ sibs.map Doc.id) :
    sibs.findIdx (fun e => e.id = x) < sibs.length := by
  obtain ⟨e, he, hex⟩ := List.mem_map.mp hx
  exact List.findIdx_lt_length_of_exists ⟨e, he, by simp [hex]⟩

theorem findIdx_id_unique :
    ∀ (sibs : List Doc), (sibs.map Doc.id).Nodup →
      ∀ (j : Nat) (e : Doc), sibs[j]? = some e →
        sibs.findIdx (fun x => x.id = e.id) = j := by
  intro sibs
  induction sibs with
  | nil => intro _ j e hj; simp at hj
  | cons x xs ih =>
      intro hnd j e hj
      have hhead : x.id ∉ xs.map Doc.id := by
        simp only [List.map_cons, List.nodup_cons] at hnd
        exact hnd.1
      have hndtail : (xs.map Doc.id).Nodup := by
        simp only [List.map_cons, List.nodup_cons] at hnd
        exact hnd.2
      cases j with
      | zero =>
          rw [List.getElem?_cons_zero] at hj
          obtain rfl : x = e := Option.some.inj hj
          rw [List.findIdx_cons]
          simp
      | succ j =>
          rw [List.getElem?_cons_succ] at hj
          have hne : x.id ≠ e.id := by
            intro hcon
            exact hhead (hcon ▸ List.mem_map_of_mem Doc.id
              (mem_of_getElem?_doc hj))
          rw [List.findIdx_cons]
          simp only [decide_eq_false hne, cond_false]
          rw [ih hndtail j e hj]

theorem sorted_unique_of_nodup_keys :
    ∀ (l₁ l₂ : List Doc), l₁.Perm l₂ →
      List.Sorted (leOrd 999999) l₁ → List.Sorted (leOrd 999999) l₂ →
      ((l₁.map (orderKey 999999)).Nodup) → l₁ = l₂ := by
  intro l₁
  induction l₁ with
  | nil =>
      intro l₂ hp _ _ _
      exact (hp.symm.eq_nil).symm
  | cons a t₁ ih =>
      intro l₂ hp hs₁ hs₂ hk
      cases l₂ with
      | nil => exact absurd hp.eq_nil (by simp)
      | cons b t₂ =>
          by_cases hab : a = b
          · subst hab
            rw [ih t₂ hp.cons_inv hs₁.of_cons hs₂.of_cons
              (by simp only [List.map_cons, List.nodup_cons] at hk; exact hk.2)]
          · exfalso
            have ha2 : a ∈ t₂ := by
              rcases List.mem_cons.mp (hp.mem_iff.mp (List.mem_cons_self a t₁))
                with h | h
              · exact absurd h hab
              · exact h
            have hb1 : b ∈ t₁ := by
              rcases List.mem_cons.mp (hp.mem_iff.mpr (List.mem_cons_self b t₂))
                with h | h
              · exact absurd h.symm hab
              · exact h
            have hle1 : leOrd 999999 a b := (List.sorted_cons.mp hs₁).1 b hb1
            have hle2 : leOrd 999999 b a := (List.sorted_cons.mp hs₂).1 a ha2
            have hkey : orderKey 999999 a = orderKey 999999 b :=
              le_antisymm hle1 hle2
            simp only [List.map_cons, List.nodup_cons] at hk
            exact hk.1 (hkey ▸ List.mem_map_of_mem (orderKey 999999) hb1)

theorem applyFn_id (U : List (List Char × UpdateDto)) (d : Doc) :
    (applyFn U d).id = d.id := by
  unfold applyFn
  split
  · rfl
  · rfl

theorem mem_sortFilter_iff (docs : List Doc) (p q : Doc → Bool) (e : Doc) :
    e ∈ (sortDocumentsA (docs.filter p)).filter q ↔
      e ∈ docs ∧ p e ∧ q e := by
  rw [List.mem_filter]
  unfold sortDocumentsA
  rw [(List.perm_insertionSort (leOrd 999999) (docs.filter p)).mem_iff]
  rw [List.mem_filter]
  tauto

theorem sortFilter_ids_nodup (docs : List Doc) (p q : Doc → Bool)
    (hnd : (docs.map Doc.id).Nodup) :
    (((sortDocumentsA (docs.filter p)).filter q).map Doc.id).Nodup := by
  have hs1 : List.Sublist (docs.filter p) docs := List.filter_sublist docs
  have h1 : ((docs.filter p).map Doc.id).Nodup := (hs1.map Doc.id).nodup hnd
  have hperm : (sortDocumentsA (docs.filter p)).Perm (docs.filter p) :=
    List.perm_insertionSort _ _
  have h2 : ((sortDocumentsA (docs.filter p)).map Doc.id).Nodup :=
    ((hperm.map Doc.id).nodup_iff).mpr h1
  have hs2 : List.Sublist ((sortDocumentsA (docs.filter p)).filter q)
      (sortDocumentsA (docs.filter p)) := List.filter_sublist _
  exact (hs2.map Doc.id).nodup h2

theorem mem_srcSibs_iff (docs : List Doc) (dragId : List Char)
    (srcP : Option (List Char)) (e : Doc) :
    e ∈ srcSibsOf docs dragId srcP ↔
      e ∈ docs ∧ e.parentId = srcP ∧ e.id ≠ dragId := by
  unfold srcSibsOf getSiblings
  rw [mem_sortFilter_iff]
  simp

theorem srcSibs_ids_nodup (docs : List Doc) (dragId : List Char)
    (srcP : Option (List Char)) (hnd : (docs.map Doc.id).Nodup) :
    ((srcSibsOf docs dragId srcP).map Doc.id).Nodup := by
  unfold srcSibsOf getSiblings
  exact sortFilter_ids_nodup docs _ _ hnd

theorem id_mem_srcSibs_iff (docs : List Doc) (dragId : List Char)
    (srcP : Option (List Char)) (hnd : (docs.map Doc.id).Nodup) (d : Doc)
    (hd : d ∈ docs) :
    d.id ∈ (srcSibsOf docs dragId srcP).map Doc.id ↔
      d.parentId = srcP ∧ d.id ≠ dragId := by
  constructor
  · intro hin
    obtain ⟨e, he, heid⟩ := List.mem_map.mp hin
    obtain ⟨hedocs, hep, hene⟩ := (mem_srcSibs_iff docs dragId srcP e).mp he
    obtain rfl : e = d := eq_of_mem_of_id_eq hnd hedocs hd heid
    exact ⟨hep, hene⟩
  · intro ⟨hp, hne2⟩
    exact List.mem_map_of_mem Doc.id
      ((mem_srcSibs_iff docs dragId srcP d).mpr ⟨hd, hp, hne2⟩)

theorem applyFn_dest
    (docs : List Doc) (dragId : List Char) (destP srcP : Option (List Char))
    (destSibs : List Doc)
    (hndocs : (docs.map Doc.id).Nodup)
    (hne : ∀ d ∈ docs, d.id ≠ [])
    (hdragne : dragId ≠ [])
    (hsibnd : (destSibs.map Doc.id).Nodup)
    (hoth : ∀ e ∈ destSibs, e.id ≠ dragId → e ∈ docs ∧ e.parentId = destP)
    (hmv : ∀ e ∈ destSibs, e.id = dragId →
      ∃ d0 ∈ docs, d0.id = dragId ∧ e = { d0 with parentId := destP })
    (d : Doc) (hd : d ∈ docs) (hin : d.id ∈ destSibs.map Doc.id) :
    applyFn (enginePatches docs dragId destP srcP destSibs) d =
      updDoc destP (destSibs.findIdx (fun x => x.id = d.id)) d := by
  obtain ⟨e, he, heid⟩ := List.mem_map.mp hin
  have hfindDest := find?_patchList_mem dragId destP destSibs 0 e hsibnd he
  rw [heid] at hfindDest
  rw [Nat.zero_add] at hfindDest
  by_cases hdragcase : e.id = dragId
  · have hpf : patchFor dragId destP
        (destSibs.findIdx (fun x => x.id = d.id)) e =
        some ⟨some destP,
          some ((destSibs.findIdx (fun x => x.id = d.id) : Nat) : Int)⟩ := by
      unfold patchFor
      rw [if_neg (by rw [hdragcase]; exact hdragne), if_pos hdragcase]
    rw [hpf] at hfindDest
    have hfindU : (enginePatches docs dragId destP srcP destSibs).find?
        (fun x => x.1 = d.id) =
        some (d.id, ⟨some destP,
          some ((destSibs.findIdx (fun x => x.id = d.id) : Nat) : Int)⟩) := by
      unfold enginePatches
      rw [List.find?_append, hfindDest]
      simp [Option.or]
    rw [applyFn_of_some _ _ _ _ hfindU]
    rfl
  · obtain rfl : e = d :=
      eq_of_mem_of_id_eq hndocs (hoth e he hdragcase).1 hd heid
    have hpd : e.parentId = destP := (hoth e he hdragcase).2
    by_cases hord : e.order ≠
        some ((destSibs.findIdx (fun x => x.id = e.id) : Nat) : Int)
    · have hpf : patchFor dragId destP
          (destSibs.findIdx (fun x => x.id = e.id)) e =
          some ⟨none,
            some ((destSibs.findIdx (fun x => x.id = e.id) : Nat) : Int)⟩ := by
        unfold patchFor
        rw [if_neg (hne e hd), if_neg hdragcase, if_pos hord]
      rw [hpf] at hfindDest
      have hfindU : (enginePatches docs dragId destP srcP destSibs).find?
          (fun x => x.1 = e.id) =
          some (e.id, ⟨none,
            some ((destSibs.findIdx (fun x => x.id = e.id) : Nat) : Int)⟩) := by
        unfold enginePatches
        rw [List.find?_append, hfindDest]
        simp [Option.or]
      rw [applyFn_of_some _ _ _ _ hfindU]
      cases e with
      | mk i t p o =>
          simp only at hpd
          simp [updDoc, hpd]
    · have hpf : patchFor dragId destP
          (destSibs.findIdx (fun x => x.id = e.id)) e = none := by
        unfold patchFor
        rw [if_neg (hne e hd), if_neg hdragcase, if_neg hord]
      rw [hpf] at hfindDest
      have hfindU : (enginePatches docs dragId destP srcP destSibs).find?
          (fun x => x.1 = e.id) = none := by
        unfold enginePatches
        rw [List.find?_append, hfindDest]
        simp only [Option.map_none', Option.none_or]
        by_cases hdp : destP ≠ srcP
        · rw [if_pos hdp]
          refine find?_patchList_not_mem dragId srcP _ 0 e.id ?_
          intro hcon
          rw [id_mem_srcSibs_iff docs dragId srcP hndocs e hd] at hcon
          rw [hpd] at hcon
          exact hdp hcon.1
        · rw [if_neg hdp]
          rfl
      rw [applyFn_of_none _ _ hfindU]
      push_neg at hord
      cases e with
      | mk i t p o =>
          simp only at hpd hord
          simp [updDoc, hpd, hord]

theorem updDoc_self {d : Doc} {P : Option (List Char)} {n : Nat}
    (hp : d.parentId = P) (ho : d.order = some (n : Int)) :
    updDoc P n d = d := by
  cases d with
  | mk i t p o =>
      simp only at hp ho
      simp [updDoc, hp, ho]

theorem updDoc_eq_set_order {d : Doc} {P : Option (List Char)} {n : Nat}
    (hp : d.parentId = P) :
    updDoc P n d = { d with order := some (n : Int) } := by
  cases d with
  | mk i t p o =>
      simp only at hp
      simp [updDoc, hp]

theorem applyFn_src
    (docs : List Doc) (dragId : List Char) (destP srcP : Option (List Char))
    (destSibs : List Doc)
    (hndocs : (docs.map Doc.id).Nodup)
    (hne : ∀ d ∈ docs, d.id ≠ [])
    (hdp : destP ≠ srcP)
    (d : Doc) (hd : d ∈ docs)
    (hnin : d.id ∉ destSibs.map Doc.id)
    (hin : d.id ∈ (srcSibsOf docs dragId srcP).map Doc.id) :
    applyFn (enginePatches docs dragId destP srcP destSibs) d =
      updDoc srcP
        ((srcSibsOf docs dragId srcP).findIdx (fun x => x.id = d.id)) d := by
  have hchar := (id_mem_srcSibs_iff docs dragId srcP hndocs d hd).mp hin
  have hdsrc : d ∈ srcSibsOf docs dragId srcP :=
    (mem_srcSibs_iff docs dragId srcP d).mpr ⟨hd, hchar.1, hchar.2⟩
  have hsrcnd := srcSibs_ids_nodup docs dragId srcP hndocs
  have hfindSrc := find?_patchList_mem dragId srcP
    (srcSibsOf docs dragId srcP) 0 d hsrcnd hdsrc
  rw [Nat.zero_add] at hfindSrc
  have hfindDest : (patchList dragId destP 0 destSibs).find?
      (fun x => x.1 = d.id) = none :=
    find?_patchList_not_mem dragId destP destSibs 0 d.id hnin
  by_cases hord : d.order ≠
      some (((srcSibsOf docs dragId srcP).findIdx
        (fun x => x.id = d.id) : Nat) : Int)
  · have hpf : patchFor dragId srcP
        ((srcSibsOf docs dragId srcP).findIdx (fun x => x.id = d.id)) d =
        some ⟨none,
          some (((srcSibsOf docs dragId srcP).findIdx
            (fun x => x.id = d.id) : Nat) : Int)⟩ := by
      unfold patchFor
      rw [if_neg (hne d hd), if_neg hchar.2, if_pos hord]
    rw [hpf] at hfindSrc
    have hfindU : (enginePatches docs dragId destP srcP destSibs).find?
        (fun x => x.1 = d.id) =
        some (d.id, ⟨none,
          some (((srcSibsOf docs dragId srcP).findIdx
            (fun x => x.id = d.id) : Nat) : Int)⟩) := by
      unfold enginePatches
      rw [List.find?_append, hfindDest]
      rw [if_pos hdp, hfindSrc]
      simp [Option.or]
    rw [applyFn_of_some _ _ _ _ hfindU, updDoc_eq_set_order hchar.1]
    rfl
  · have hpf : patchFor dragId srcP
        ((srcSibsOf docs dragId srcP).findIdx (fun x => x.id = d.id)) d =
        none := by
      unfold patchFor
      rw [if_neg (hne d hd), if_neg hchar.2, if_neg hord]
    rw [hpf] at hfindSrc
    have hfindU : (enginePatches docs dragId destP srcP destSibs).find?
        (fun x => x.1 = d.id) = none := by
      unfold enginePatches
      rw [List.find?_append, hfindDest]
      rw [if_pos hdp, hfindSrc]
      rfl
    rw [applyFn_of_none _ _ hfindU]
    push_neg at hord
    exact (updDoc_self hchar.1 hord).symm

theorem applyFn_other
    (docs : List Doc) (dragId : List Char) (destP srcP : Option (List Char))
    (destSibs : List Doc)
    (d : Doc)
    (hnin : d.id ∉ destSibs.map Doc.id)
    (hnin2 : destP ≠ srcP → d.id ∉ (srcSibsOf docs dragId srcP).map Doc.id) :
    applyFn (enginePatches docs dragId destP srcP destSibs) d = d := by
  have hfindDest : (patchList dragId destP 0 destSibs).find?
      (fun x => x.1 = d.id) = none :=
    find?_patchList_not_mem dragId destP destSibs 0 d.id hnin
  have hfindU : (enginePatches docs dragId destP srcP destSibs).find?
      (fun x => x.1 = d.id) = none := by
    unfold enginePatches
    rw [List.find?_append, hfindDest]
    by_cases hdp : destP ≠ srcP
    · rw [if_pos hdp]
      rw [find?_patchList_not_mem dragId srcP _ 0 d.id (hnin2 hdp)]
      rfl
    · rw [if_neg hdp]
      rfl
  exact applyFn_of_none _ _ hfindU

theorem group_dest_perm
    (docs : List Doc) (dragId : List Char) (destP srcP : Option (List Char))
    (destSibs : List Doc)
    (hndocs : (docs.map Doc.id).Nodup)
    (hne : ∀ d ∈ docs, d.id ≠ [])
    (hdragne : dragId ≠ [])
    (hsibnd : (destSibs.map Doc.id).Nodup)
    (hdragmem : dragId ∈ destSibs.map Doc.id)
    (hoth : ∀ e ∈ destSibs, e.id ≠ dragId → e ∈ docs ∧ e.parentId = destP)
    (hcov : ∀ d ∈ docs, d.parentId = destP → d.id ≠ dragId →
      d.id ∈ destSibs.map Doc.id)
    (hmv : ∀ e ∈ destSibs, e.id = dragId →
      ∃ d0 ∈ docs, d0.id = dragId ∧ e = { d0 with parentId := destP }) :
    ((applyPatches docs (enginePatches docs dragId destP srcP destSibs)).filter
        (fun d => d.parentId = destP)).Perm
      (finalGroup destP 0 destSibs) := by
  have htitle : ∀ e ∈ destSibs, ∀ d ∈ docs, d.id = e.id →
      d.title = e.title ∧ d.id = e.id := by
    intro e he d hd hid
    by_cases hce : e.id = dragId
    · obtain ⟨d0, hd0, hd0id, he0⟩ := hmv e he hce
      have hdd0 : d = d0 :=
        eq_of_mem_of_id_eq hndocs hd hd0 (by rw [hid, hce, hd0id])
      subst hdd0
      rw [he0]
      exact ⟨rfl, rfl⟩
    · have hed : e = d :=
        eq_of_mem_of_id_eq hndocs (hoth e he hce).1 hd hid.symm
      rw [hed]
      exact ⟨rfl, rfl⟩
  have hXeq : (applyPatches docs
      (enginePatches docs dragId destP srcP destSibs)).filter
      (fun d => d.parentId = destP) =
      (docs.filter (fun d =>
        decide ((applyFn (enginePatches docs dragId destP srcP destSibs)
          d).parentId = destP))).map
        (applyFn (enginePatches docs dragId destP srcP destSibs)) := by
    unfold applyPatches
    rw [List.filter_map]
    rfl
  rw [hXeq]
  have hXnodup : (((docs.filter (fun d =>
      decide ((applyFn (enginePatches docs dragId destP srcP destSibs)
        d).parentId = destP))).map
      (applyFn (enginePatches docs dragId destP srcP destSibs))).map
      Doc.id).Nodup := by
    rw [List.map_map]
    have h1 : ((docs.filter (fun d =>
        decide ((applyFn (enginePatches docs dragId destP srcP destSibs)
          d).parentId = destP))).map
        (Doc.id ∘ applyFn (enginePatches docs dragId destP srcP destSibs))) =
        ((docs.filter (fun d =>
          decide ((applyFn (enginePatches docs dragId destP srcP destSibs)
            d).parentId = destP))).map Doc.id) := by
      refine List.map_congr_left ?_
      intro a _
      exact applyFn_id _ a
    rw [h1]
    exact ((List.filter_sublist docs).map Doc.id).nodup hndocs
  have hFnodup : ((finalGroup destP 0 destSibs).map Doc.id).Nodup := by
    rw [finalGroup_map_id]
    exact hsibnd
  refine (List.perm_ext_iff_of_nodup (List.Nodup.of_map _ hXnodup)
    (List.Nodup.of_map _ hFnodup)).mpr ?_
  intro x
  constructor
  · intro hx
    obtain ⟨d, hdfil, rfl⟩ := List.mem_map.mp hx
    have hd : d ∈ docs := (List.mem_filter.mp hdfil).1
    have hq : (applyFn (enginePatches docs dragId destP srcP destSibs)
        d).parentId = destP := by
      have := (List.mem_filter.mp hdfil).2
      simpa using this
    by_cases hin : d.id ∈ destSibs.map Doc.id
    · have happ := applyFn_dest docs dragId destP srcP destSibs hndocs hne
        hdragne hsibnd hoth hmv d hd hin
      rw [happ]
      have hlt : destSibs.findIdx (fun x => x.id = d.id) <
          destSibs.length := findIdx_id_lt hin
      have hsome : destSibs[destSibs.findIdx (fun x => x.id = d.id)]? =
          some (destSibs[destSibs.findIdx (fun x => x.id = d.id)]) :=
        List.getElem?_eq_getElem hlt
      have heid : (destSibs[destSibs.findIdx
          (fun x => x.id = d.id)]).id = d.id := by
        have := List.findIdx_getElem (w := hlt)
        simpa using this
      refine (mem_finalGroup_iff destP destSibs 0 _).mpr
        ⟨destSibs.findIdx (fun x => x.id = d.id),
         destSibs[destSibs.findIdx (fun x => x.id = d.id)], hsome, ?_⟩
      rw [Nat.zero_add]
      have hmem2 : destSibs[destSibs.findIdx (fun x => x.id = d.id)] ∈
          destSibs := List.getElem_mem hlt
      obtain ⟨ht, hid2⟩ := htitle _ hmem2 d hd heid.symm
      exact updDoc_congr destP _ hid2 ht
    · exfalso
      by_cases hsrcin : destP ≠ srcP ∧
          d.id ∈ (srcSibsOf docs dragId srcP).map Doc.id
      · have happ := applyFn_src docs dragId destP srcP destSibs hndocs hne
          hsrcin.1 d hd hin hsrcin.2
        rw [happ] at hq
        rw [show (updDoc srcP ((srcSibsOf docs dragId srcP).findIdx
          (fun x => x.id = d.id)) d).parentId = srcP from rfl] at hq
        exact hsrcin.1 hq.symm
      · have hnin2 : destP ≠ srcP →
            d.id ∉ (srcSibsOf docs dragId srcP).map Doc.id := by
          intro hdp hcon
          exact hsrcin ⟨hdp, hcon⟩
        have happ := applyFn_other docs dragId destP srcP destSibs d hin hnin2
        rw [happ] at hq
        by_cases hddrag : d.id = dragId
        · exact hin (hddrag ▸ hdragmem)
        · exact hin (hcov d hd hq hddrag)
  · intro hx
    obtain ⟨j, e, hj, rfl⟩ := (mem_finalGroup_iff destP destSibs 0 _).mp hx
    have he : e ∈ destSibs := mem_of_getElem?_doc hj
    have hfi : destSibs.findIdx (fun x => x.id = e.id) = j :=
      findIdx_id_unique destSibs hsibnd j e hj
    have heid : e.id ∈ destSibs.map Doc.id := List.mem_map_of_mem Doc.id he
    obtain ⟨d, hd, hdid, hdtitle⟩ : ∃ d ∈ docs, d.id = e.id ∧
        d.title = e.title := by
      by_cases hce : e.id = dragId
      · obtain ⟨d0, hd0, hd0id, he0⟩ := hmv e he hce
        exact ⟨d0, hd0, by rw [hd0id, hce], by rw [he0]⟩
      · exact ⟨e, (hoth e he hce).1, rfl, rfl⟩
    have hin : d.id ∈ destSibs.map Doc.id := hdid ▸ heid
    have happ := applyFn_dest docs dragId destP srcP destSibs hndocs hne
      hdragne hsibnd hoth hmv d hd hin
    have hfi2 : destSibs.findIdx (fun x => x.id = d.id) = j := by
      simp only [hdid]
      exact hfi
    rw [hfi2] at happ
    refine List.mem_map.mpr ⟨d, ?_, ?_⟩
    · refine List.mem_filter.mpr ⟨hd, ?_⟩
      rw [happ]
      simp [updDoc]
    · rw [happ, Nat.zero_add]
      exact updDoc_congr destP j hdid hdtitle

theorem group_src_perm
    (docs : List Doc) (dragId : List Char) (destP srcP : Option (List Char))
    (destSibs : List Doc)
    (hndocs : (docs.map Doc.id).Nodup)
    (hne : ∀ d ∈ docs, d.id ≠ [])
    (hdragne : dragId ≠ [])
    (hsibnd : (destSibs.map Doc.id).Nodup)
    (hdragmem : dragId ∈ destSibs.map Doc.id)
    (hoth : ∀ e ∈ destSibs, e.id ≠ dragId → e ∈ docs ∧ e.parentId = destP)
    (hmv : ∀ e ∈ destSibs, e.id = dragId →
      ∃ d0 ∈ docs, d0.id = dragId ∧ e = { d0 with parentId := destP })
    (hdp : destP ≠ srcP) :
    ((applyPatches docs (enginePatches docs dragId destP srcP destSibs)).filter
        (fun d => d.parentId = srcP)).Perm
      (finalGroup srcP 0 (srcSibsOf docs dragId srcP)) := by
  have hsrcnd := srcSibs_ids_nodup docs dragId srcP hndocs
  have hnotdest : ∀ e ∈ srcSibsOf docs dragId srcP,
      e.id ∉ destSibs.map Doc.id := by
    intro e he hcon
    obtain ⟨hedocs, hep, hene⟩ := (mem_srcSibs_iff docs dragId srcP e).mp he
    obtain ⟨a, ha, haid⟩ := List.mem_map.mp hcon
    by_cases hadrag : a.id = dragId
    · exact hene (haid ▸ hadrag)
    · obtain ⟨hadocs, hap⟩ := hoth a ha hadrag
      obtain rfl : a = e := eq_of_mem_of_id_eq hndocs hadocs hedocs haid
      rw [hep] at hap
      exact hdp hap.symm
  have hXeq : (applyPatches docs
      (enginePatches docs dragId destP srcP destSibs)).filter
      (fun d => d.parentId = srcP) =
      (docs.filter (fun d =>
        decide ((applyFn (enginePatches docs dragId destP srcP destSibs)
          d).parentId = srcP))).map
        (applyFn (enginePatches docs dragId destP srcP destSibs)) := by
    unfold applyPatches
    rw [List.filter_map]
    rfl
  rw [hXeq]
  have hXnodup : (((docs.filter (fun d =>
      decide ((applyFn (enginePatches docs dragId destP srcP destSibs)
        d).parentId = srcP))).map
      (applyFn (enginePatches docs dragId destP srcP destSibs))).map
      Doc.id).Nodup := by
    rw [List.map_map]
    have h1 : ((docs.filter (fun d =>
        decide ((applyFn (enginePatches docs dragId destP srcP destSibs)
          d).parentId = srcP))).map
        (Doc.id ∘ applyFn (enginePatches docs dragId destP srcP destSibs))) =
        ((docs.filter (fun d =>
          decide ((applyFn (enginePatches docs dragId destP srcP destSibs)
            d).parentId = srcP))).map Doc.id) := by
      refine List.map_congr_left ?_
      intro a _
      exact applyFn_id _ a
    rw [h1]
    exact ((List.filter_sublist docs).map Doc.id).nodup hndocs
  have hFnodup : ((finalGroup srcP 0 (srcSibsOf docs dragId srcP)).map
      Doc.id).Nodup := by
    rw [finalGroup_map_id]
    exact hsrcnd
  refine (List.perm_ext_iff_of_nodup (List.Nodup.of_map _ hXnodup)
    (List.Nodup.of_map _ hFnodup)).mpr ?_
  intro x
  constructor
  · intro hx
    obtain ⟨d, hdfil, rfl⟩ := List.mem_map.mp hx
    have hd : d ∈ docs := (List.mem_filter.mp hdfil).1
    have hq : (applyFn (enginePatches docs dragId destP srcP destSibs)
        d).parentId = srcP := by
      have := (List.mem_filter.mp hdfil).2
      simpa using this
    by_cases hin : d.id ∈ destSibs.map Doc.id
    · exfalso
      have happ := applyFn_dest docs dragId destP srcP destSibs hndocs hne
        hdragne hsibnd hoth hmv d hd hin
      rw [happ] at hq
      rw [show (updDoc destP (destSibs.findIdx
        (fun x => x.id = d.id)) d).parentId = destP from rfl] at hq
      exact hdp hq
    · by_cases hsrc : d.id ∈ (srcSibsOf docs dragId srcP).map Doc.id
      · have happ := applyFn_src docs dragId destP srcP destSibs hndocs hne
          hdp d hd hin hsrc
        rw [happ]
        have hlt : (srcSibsOf docs dragId srcP).findIdx
            (fun x => x.id = d.id) < (srcSibsOf docs dragId srcP).length :=
          findIdx_id_lt hsrc
        have hsome : (srcSibsOf docs dragId srcP)[(srcSibsOf docs dragId
            srcP).findIdx (fun x => x.id = d.id)]? =
            some ((srcSibsOf docs dragId srcP)[(srcSibsOf docs dragId
              srcP).findIdx (fun x => x.id = d.id)]) :=
          List.getElem?_eq_getElem hlt
        have heid : ((srcSibsOf docs dragId srcP)[(srcSibsOf docs dragId
            srcP).findIdx (fun x => x.id = d.id)]).id = d.id := by
          have := List.findIdx_getElem (w := hlt)
          simpa using this
        have hmem2 : (srcSibsOf docs dragId srcP)[(srcSibsOf docs dragId
            srcP).findIdx (fun x => x.id = d.id)] ∈
            srcSibsOf docs dragId srcP := List.getElem_mem hlt
        have hedocs : (srcSibsOf docs dragId srcP)[(srcSibsOf docs dragId
            srcP).findIdx (fun x => x.id = d.id)] ∈ docs :=
          ((mem_srcSibs_iff docs dragId srcP _).mp hmem2).1
        have hed : (srcSibsOf docs dragId srcP)[(srcSibsOf docs dragId
            srcP).findIdx (fun x => x.id = d.id)] = d :=
          eq_of_mem_of_id_eq hndocs hedocs hd heid
        refine (mem_finalGroup_iff srcP (srcSibsOf docs dragId srcP) 0
          _).mpr ⟨(srcSibsOf docs dragId srcP).findIdx
            (fun x => x.id = d.id), _, hsome, ?_⟩
        rw [Nat.zero_add, hed]
      · exfalso
        have happ := applyFn_other docs dragId destP srcP destSibs d hin
          (fun _ => hsrc)
        rw [happ] at hq
        by_cases hddrag : d.id = dragId
        · exact hin (hddrag ▸ hdragmem)
        · exact hsrc ((id_mem_srcSibs_iff docs dragId srcP hndocs d hd).mpr
            ⟨hq, hddrag⟩)
  · intro hx
    obtain ⟨j, e, hj, rfl⟩ :=
      (mem_finalGroup_iff srcP (srcSibsOf docs dragId srcP) 0 _).mp hx
    have he : e ∈ srcSibsOf docs dragId srcP := mem_of_getElem?_doc hj
    obtain ⟨hedocs, hep, hene⟩ := (mem_srcSibs_iff docs dragId srcP e).mp he
    have hfi : (srcSibsOf docs dragId srcP).findIdx
        (fun x => x.id = e.id) = j :=
      findIdx_id_unique _ hsrcnd j e hj
    have hnin : e.id ∉ destSibs.map Doc.id := hnotdest e he
    have hsrc : e.id ∈ (srcSibsOf docs dragId srcP).map Doc.id :=
      List.mem_map_of_mem Doc.id he
    have happ := applyFn_src docs dragId destP srcP destSibs hndocs hne
      hdp e hedocs hnin hsrc
    rw [hfi] at happ
    refine List.mem_map.mpr ⟨e, ?_, ?_⟩
    · refine List.mem_filter.mpr ⟨hedocs, ?_⟩
      rw [happ]
      simp [updDoc]
    · rw [happ, Nat.zero_add]

theorem insertIdx_perm_cons :
    ∀ (n : Nat) (l : List Doc) (a : Doc), n ≤ l.length →
      (l.insertIdx n a).Perm (a :: l) := by
  intro n
  induction n with
  | zero =>
      intro l a _
      rw [List.insertIdx_zero]
  | succ m ih =>
      intro l a h
      cases l with
      | nil => exact absurd h (by simp)
      | cons b t =>
          rw [List.insertIdx_succ_cons]
          exact ((ih t a (Nat.le_of_succ_le_succ h)).cons b).trans
            (List.Perm.swap a b t)

theorem spliceInsert_perm (l : List Doc) (n : Nat) (a : Doc) :
    (spliceInsert l n a).Perm (a :: l) := by
  unfold spliceInsert
  by_cases h : l.length ≤ n
  · rw [if_pos h]
    exact List.perm_append_singleton a l
  · rw [if_neg h]
    exact insertIdx_perm_cons n l a (Nat.le_of_lt (Nat.lt_of_not_le h))

theorem spliceInsert_eq_append (l : List Doc) (a : Doc) :
    spliceInsert l l.length a = l ++ [a] := by
  unfold spliceInsert
  rw [if_pos (Nat.le_refl _)]

theorem srcSibsOf_def (docs : List Doc) (dragId : List Char)
    (P : Option (List Char)) :
    (getSiblings docs P).filter (fun d => d.id ≠ dragId) =
      srcSibsOf docs dragId P := rfl

theorem destSibsOf_def (docs : List Doc) (dragId : List Char)
    (destP : Option (List Char)) (idx : Nat) (movingDoc : Doc) :
    spliceInsert ((getSiblings docs destP).filter (fun d => d.id ≠ dragId))
        idx { movingDoc with parentId := destP } =
      destSibsOf docs dragId destP idx movingDoc := rfl

theorem find?_id_facts (docs : List Doc) (dragId : List Char)
    (movingDoc : Doc)
    (hfind : docs.find? (fun d => d.id = dragId) = some movingDoc) :
    movingDoc ∈ docs ∧ movingDoc.id = dragId := by
  refine ⟨List.mem_of_find?_eq_some hfind, ?_⟩
  have h := List.find?_some hfind
  simpa using h

theorem destSibs_perm (docs : List Doc) (dragId : List Char)
    (destP : Option (List Char)) (idx : Nat) (movingDoc : Doc) :
    (destSibsOf docs dragId destP idx movingDoc).Perm
      ({ movingDoc with parentId := destP } ::
        srcSibsOf docs dragId destP) :=
  spliceInsert_perm _ _ _

theorem destSibs_ids_nodup (docs : List Doc) (dragId : List Char)
    (destP : Option (List Char)) (idx : Nat) (movingDoc : Doc)
    (hndocs : (docs.map Doc.id).Nodup) (hmvid : movingDoc.id = dragId) :
    ((destSibsOf docs dragId destP idx movingDoc).map Doc.id).Nodup := by
  have hperm := (destSibs_perm docs dragId destP idx movingDoc).map Doc.id
  rw [hperm.nodup_iff]
  simp only [List.map_cons]
  rw [List.nodup_cons]
  constructor
  · intro hcon
    obtain ⟨e, he, heid⟩ := List.mem_map.mp hcon
    have hene := ((mem_srcSibs_iff docs dragId destP e).mp he).2.2
    exact hene (heid.trans hmvid)
  · exact srcSibs_ids_nodup docs dragId destP hndocs

theorem dragId_mem_destSibs (docs : List Doc) (dragId : List Char)
    (destP : Option (List Char)) (idx : Nat) (movingDoc : Doc)
    (hmvid : movingDoc.id = dragId) :
    dragId ∈ (destSibsOf docs dragId destP idx movingDoc).map Doc.id := by
  have hperm := (destSibs_perm docs dragId destP idx movingDoc).map Doc.id
  rw [hperm.mem_iff]
  simp only [List.map_cons, List.mem_cons]
  left
  exact hmvid.symm

theorem destSibs_oth (docs : List Doc) (dragId : List Char)
    (destP : Option (List Char)) (idx : Nat) (movingDoc : Doc)
    (hmvid : movingDoc.id = dragId) :
    ∀ e ∈ destSibsOf docs dragId destP idx movingDoc, e.id ≠ dragId →
      e ∈ docs ∧ e.parentId = destP := by
  intro e he hne2
  rw [(destSibs_perm docs dragId destP idx movingDoc).mem_iff] at he
  rcases List.mem_cons.mp he with rfl | he2
  · exact absurd hmvid hne2
  · obtain ⟨h1, h2, _⟩ := (mem_srcSibs_iff docs dragId destP e).mp he2
    exact ⟨h1, h2⟩

theorem destSibs_cov (docs : List Doc) (dragId : List Char)
    (destP : Option (List Char)) (idx : Nat) (movingDoc : Doc) :
    ∀ d ∈ docs, d.parentId = destP → d.id ≠ dragId →
      d.id ∈ (destSibsOf docs dragId destP idx movingDoc).map Doc.id := by
  intro d hd hp hne2
  have hmem : d ∈ srcSibsOf docs dragId destP :=
    (mem_srcSibs_iff docs dragId destP d).mpr ⟨hd, hp, hne2⟩
  exact List.mem_map_of_mem Doc.id
    ((destSibs_perm docs dragId destP idx movingDoc).mem_iff.mpr
      (List.mem_cons_of_mem _ hmem))

theorem destSibs_mv (docs : List Doc) (dragId : List Char)
    (destP : Option (List Char)) (idx : Nat) (movingDoc : Doc)
    (hmvmem : movingDoc ∈ docs) (hmvid : movingDoc.id = dragId) :
    ∀ e ∈ destSibsOf docs dragId destP idx movingDoc, e.id = dragId →
      ∃ d0 ∈ docs, d0.id = dragId ∧ e = { d0 with parentId := destP } := by
  intro e he heq
  rw [(destSibs_perm docs dragId destP idx movingDoc).mem_iff] at he
  rcases List.mem_cons.mp he with rfl | he2
  · exact ⟨movingDoc, hmvmem, hmvid, rfl⟩
  · exact absurd heq ((mem_srcSibs_iff docs dragId destP e).mp he2).2.2

theorem srcSibs_notin_destSibs (docs : List Doc) (dragId : List Char)
    (destP srcP : Option (List Char)) (idx : Nat) (movingDoc : Doc)
    (hndocs : (docs.map Doc.id).Nodup) (hmvid : movingDoc.id = dragId)
    (hdp : destP ≠ srcP) :
    ∀ e ∈ srcSibsOf docs dragId srcP,
      e.id ∉ (destSibsOf docs dragId destP idx movingDoc).map Doc.id := by
  intro e he hcon
  obtain ⟨hedocs, hep, hene⟩ := (mem_srcSibs_iff docs dragId srcP e).mp he
  obtain ⟨a, ha, haid⟩ := List.mem_map.mp hcon
  rw [(destSibs_perm docs dragId destP idx movingDoc).mem_iff] at ha
  rcases List.mem_cons.mp ha with rfl | ha2
  · exact hene (haid ▸ hmvid)
  · obtain ⟨hadocs, hap, _⟩ := (mem_srcSibs_iff docs dragId destP a).mp ha2
    obtain rfl : a = e := eq_of_mem_of_id_eq hndocs hadocs hedocs haid
    rw [hep] at hap
    exact hdp hap.symm

theorem handleDragEnd_list_eq (docs : List Doc) (result : DropResult)
    (dest : DropLocation) (movingDoc : Doc)
    (hdest : result.destination = some dest)
    (hfind : docs.find? (fun d => d.id = result.draggableId) =
      some movingDoc)
    (hninto : leadsWith "into:".data dest.droppableId = false)
    (hlist : leadsWith "list:".data dest.droppableId = true)
    (hnosc : ¬(dest.droppableId = result.source.droppableId ∧
        dest.index = result.source.index ∧
        parseListParentId dest.droppableId =
          parseListParentId result.source.droppableId))
    (hnodesc : (match parseListParentId dest.droppableId with
        | some p => isDescendant docs (some p) result.draggableId
        | none => false) = false)
    (hndocs : (docs.map Doc.id).Nodup)
    (hdragne : result.draggableId ≠ []) :
    handleDragEnd docs result =
      enginePatches docs result.draggableId
        (parseListParentId dest.droppableId)
        (parseListParentId result.source.droppableId)
        (destSibsOf docs result.draggableId
          (parseListParentId dest.droppableId) dest.index movingDoc) := by
  have hmvid : movingDoc.id = result.draggableId :=
    (find?_id_facts docs result.draggableId movingDoc hfind).2
  simp only [handleDragEnd, hdest, hfind, hninto, hlist, Bool.false_eq_true,
    if_false, if_true]
  rw [if_neg hnosc, hnodesc]
  rw [if_neg (by simp)]
  rw [destSibsOf_def docs result.draggableId
    (parseListParentId dest.droppableId) dest.index movingDoc]
  rw [srcSibsOf_def docs result.draggableId
    (parseListParentId result.source.droppableId)]
  have hsibnd := destSibs_ids_nodup docs result.draggableId
    (parseListParentId dest.droppableId) dest.index movingDoc hndocs hmvid
  rw [reindexSiblings_eq result.draggableId
    (parseListParentId dest.droppableId)
    (destSibsOf docs result.draggableId (parseListParentId dest.droppableId)
      dest.index movingDoc) [] hsibnd (by
        intro d hd
        show d.id ∉ ([] : List (List Char × UpdateDto)).map Prod.fst
        simp)]
  rw [List.nil_append]
  unfold enginePatches
  by_cases hdp : parseListParentId dest.droppableId ≠
      parseListParentId result.source.droppableId
  · rw [if_pos hdp, if_pos hdp]
    rw [reindexSiblings_eq result.draggableId
      (parseListParentId result.source.droppableId)
      (srcSibsOf docs result.draggableId
        (parseListParentId result.source.droppableId))
      _ (srcSibs_ids_nodup docs result.draggableId _ hndocs) ?_]
    intro d hd hcon
    exact srcSibs_notin_destSibs docs result.draggableId
      (parseListParentId dest.droppableId)
      (parseListParentId result.source.droppableId) dest.index movingDoc
      hndocs hmvid hdp d hd
      (patchList_keys_sub result.draggableId
        (parseListParentId dest.droppableId) _ 0 d.id hcon)
  · rw [if_neg hdp, if_neg hdp, List.append_nil]

theorem handleDragEnd_into_eq (docs : List Doc) (result : DropResult)
    (dest : DropLocation) (movingDoc : Doc)
    (hdest : result.destination = some dest)
    (hfind : docs.find? (fun d => d.id = result.draggableId) =
      some movingDoc)
    (hinto : leadsWith "into:".data dest.droppableId = true)
    (hne1 : ¬(dest.droppableId.drop 5 = [] ∨
        dest.droppableId.drop 5 = result.draggableId))
    (hnodesc : isDescendant docs (some (dest.droppableId.drop 5))
        result.draggableId = false)
    (hndocs : (docs.map Doc.id).Nodup) :
    handleDragEnd docs result =
      enginePatches docs result.draggableId
        (some (dest.droppableId.drop 5))
        (parseListParentId result.source.droppableId)
        (destSibsOf docs result.draggableId (some (dest.droppableId.drop 5))
          (srcSibsOf docs result.draggableId
            (some (dest.droppableId.drop 5))).length movingDoc) := by
  have hmvid : movingDoc.id = result.draggableId :=
    (find?_id_facts docs result.draggableId movingDoc hfind).2
  simp only [handleDragEnd, hdest, hfind, hinto, if_true]
  rw [if_neg hne1, hnodesc]
  rw [if_neg (by simp)]
  rw [← spliceInsert_eq_append
    ((getSiblings docs (some (dest.droppableId.drop 5))).filter
      (fun d => d.id ≠ result.draggableId))
    { movingDoc with parentId := some (dest.droppableId.drop 5) }]
  rw [destSibsOf_def docs result.draggableId
    (some (dest.droppableId.drop 5))
    ((getSiblings docs (some (dest.droppableId.drop 5))).filter
      (fun d => d.id ≠ result.draggableId)).length movingDoc]
  rw [srcSibsOf_def docs result.draggableId (some (dest.droppableId.drop 5))]
  rw [srcSibsOf_def docs result.draggableId
    (parseListParentId result.source.droppableId)]
  have hsibnd := destSibs_ids_nodup docs result.draggableId
    (some (dest.droppableId.drop 5))
    (srcSibsOf docs result.draggableId
      (some (dest.droppableId.drop 5))).length movingDoc hndocs hmvid
  rw [reindexSiblings_eq result.draggableId
    (some (dest.droppableId.drop 5))
    (destSibsOf docs result.draggableId (some (dest.droppableId.drop 5))
      (srcSibsOf docs result.draggableId
        (some (dest.droppableId.drop 5))).length movingDoc) [] hsibnd (by
      intro d hd
      show d.id ∉ ([] : List (List Char × UpdateDto)).map Prod.fst
      simp)]
  rw [List.nil_append]
  unfold enginePatches
  by_cases hdp : (some (dest.droppableId.drop 5) : Option (List Char)) ≠
      parseListParentId result.source.droppableId
  · rw [if_pos (Ne.symm hdp), if_pos hdp]
    rw [reindexSiblings_eq result.draggableId
      (parseListParentId result.source.droppableId)
      (srcSibsOf docs result.draggableId
        (parseListParentId result.source.droppableId))
      _ (srcSibs_ids_nodup docs result.draggableId _ hndocs) ?_]
    intro d hd hcon
    exact srcSibs_notin_destSibs docs result.draggableId
      (some (dest.droppableId.drop 5))
      (parseListParentId result.source.droppableId)
      (srcSibsOf docs result.draggableId
        (some (dest.droppableId.drop 5))).length movingDoc
      hndocs hmvid hdp d hd
      (patchList_keys_sub result.draggableId
        (some (dest.droppableId.drop 5)) _ 0 d.id hcon)
  · rw [if_neg (fun h => h (not_ne_iff.mp hdp).symm), if_neg hdp,
      List.append_nil]

/-- The engine renumbering fact shared by both drag branches: applying
the patch set computed for any destination sibling list of the canonical
shape (the sorted destination group without the dragged document, with
the retargeted copy spliced in at some index) leaves the destination
group with orders exactly 0..n-1, and the source group likewise when the
parent changed. -/
theorem engine_renumbers_groups
    (docs : List Doc) (dragId : List Char) (destP srcP : Option (List Char))
    (idx : Nat) (movingDoc : Doc)
    (hndocs : (docs.map Doc.id).Nodup)
    (hne : ∀ d ∈ docs, d.id ≠ [])
    (hdragne : dragId ≠ [])
    (hmvmem : movingDoc ∈ docs) (hmvid : movingDoc.id = dragId) :
    (((applyPatches docs (enginePatches docs dragId destP srcP
        (destSibsOf docs dragId destP idx movingDoc))).filter
        (fun d => d.parentId = destP)).map Doc.order).Perm
      (List.map (fun k : Nat => some (k : Int))
        (List.range ((srcSibsOf docs dragId destP).length + 1))) ∧
    (destP ≠ srcP →
      (((applyPatches docs (enginePatches docs dragId destP srcP
          (destSibsOf docs dragId destP idx movingDoc))).filter
          (fun d => d.parentId = srcP)).map Doc.order).Perm
        (List.map (fun k : Nat => some (k : Int))
          (List.range (srcSibsOf docs dragId srcP).length))) := by
  have hsibnd := destSibs_ids_nodup docs dragId destP idx movingDoc
    hndocs hmvid
  have hdragmem := dragId_mem_destSibs docs dragId destP idx movingDoc hmvid
  have hoth := destSibs_oth docs dragId destP idx movingDoc hmvid
  have hcov := destSibs_cov docs dragId destP idx movingDoc
  have hmv := destSibs_mv docs dragId destP idx movingDoc hmvmem hmvid
  have hlen : (destSibsOf docs dragId destP idx movingDoc).length =
      (srcSibsOf docs dragId destP).length + 1 := by
    rw [(destSibs_perm docs dragId destP idx movingDoc).length_eq]
    rfl
  constructor
  · have hperm := (group_dest_perm docs dragId destP srcP
      (destSibsOf docs dragId destP idx movingDoc)
      hndocs hne hdragne hsibnd hdragmem hoth hcov hmv).map Doc.order
    rw [finalGroup_map_order, hlen] at hperm
    rw [List.range_eq_range']
    exact hperm
  · intro hdp
    have hperm := (group_src_perm docs dragId destP srcP
      (destSibsOf docs dragId destP idx movingDoc)
      hndocs hne hdragne hsibnd hdragmem hoth hmv hdp).map Doc.order
    rw [finalGroup_map_order] at hperm
    rw [List.range_eq_range']
    exact hperm

/-- C2. For every drag accepted by the primary drag handler, through
either branch (a drop at an index in a sibling list, or a nest-inside
drop), applying the emitted patch set leaves the destination group with
order values that are exactly 0..n-1, and the source group likewise when
the parent changed. The claim also covers the move dialog, where it
fails; see the counterexample. -/
theorem c2_drag_renumbers_touched_groups
    (docs : List Doc) (result : DropResult) (dest : DropLocation)
    (movingDoc : Doc) (destP srcP : Option (List Char))
    (hdest : result.destination = some dest)
    (hfind : docs.find? (fun d => d.id = result.draggableId) =
      some movingDoc)
    (hndocs : (docs.map Doc.id).Nodup)
    (hne : ∀ d ∈ docs, d.id ≠ [])
    (hdragne : result.draggableId ≠ [])
    (hsP : parseListParentId result.source.droppableId = srcP)
    (hbr :
      (leadsWith "into:".data dest.droppableId = true ∧
        ¬(dest.droppableId.drop 5 = [] ∨
          dest.droppableId.drop 5 = result.draggableId) ∧
        isDescendant docs (some (dest.droppableId.drop 5))
          result.draggableId = false ∧
        some (dest.droppableId.drop 5) = destP) ∨
      (leadsWith "into:".data dest.droppableId = false ∧
        leadsWith "list:".data dest.droppableId = true ∧
        ¬(dest.droppableId = result.source.droppableId ∧
          dest.index = result.source.index ∧
          parseListParentId dest.droppableId =
            parseListParentId result.source.droppableId) ∧
        (match parseListParentId dest.droppableId with
          | some p => isDescendant docs (some p) result.draggableId
          | none => false) = false ∧
        parseListParentId dest.droppableId = destP)) :
    (((applyPatches docs (handleDragEnd docs result)).filter
        (fun d => d.parentId = destP)).map Doc.order).Perm
      (List.map (fun k : Nat => some (k : Int))
        (List.range
          ((srcSibsOf docs result.draggableId destP).length + 1))) ∧
    (destP ≠ srcP →
      (((applyPatches docs (handleDragEnd docs result)).filter
          (fun d => d.parentId = srcP)).map Doc.order).Perm
        (List.map (fun k : Nat => some (k : Int))
          (List.range (srcSibsOf docs result.draggableId srcP).length))) := by
  obtain ⟨hmvmem, hmvid⟩ := find?_id_facts docs result.draggableId
    movingDoc hfind
  rcases hbr with ⟨hinto, hne1, hnodesc, hdP⟩ |
    ⟨hninto, hlist, hnosc, hnodesc, hdP⟩
  · subst hdP hsP
    rw [handleDragEnd_into_eq docs result dest movingDoc hdest hfind hinto
      hne1 hnodesc hndocs]
    exact engine_renumbers_groups docs result.draggableId _ _ _ movingDoc
      hndocs hne hdragne hmvmem hmvid
  · subst hdP hsP
    rw [handleDragEnd_list_eq docs result dest movingDoc hdest hfind hninto
      hlist hnosc hnodesc hndocs hdragne]
    exact engine_renumbers_groups docs result.draggableId _ _ _ movingDoc
      hndocs hne hdragne hmvmem hmvid

/-- Witness for C2, exercising both branches on one three-document
collection: dragging B from the root list to the front of the child list
of A renumbers the destination group of A to orders 0 and 1, and nesting
B onto A does the same. -/
theorem c2_drag_renumbers_touched_groups_witness :
    (([⟨['A'], "a", none, some 0⟩, ⟨['B'], "b", none, some 1⟩,
        ⟨['C'], "c", some ['A'], some 0⟩] : List Doc).map Doc.id).Nodup ∧
    (((applyPatches
        [⟨['A'], "a", none, some 0⟩, ⟨['B'], "b", none, some 1⟩,
         ⟨['C'], "c", some ['A'], some 0⟩]
        (handleDragEnd
          [⟨['A'], "a", none, some 0⟩, ⟨['B'], "b", none, some 1⟩,
           ⟨['C'], "c", some ['A'], some 0⟩]
          ⟨['B'], ⟨"list:root".data, 1⟩,
            some ⟨"list:".data ++ ['A'], 0⟩⟩)).filter
        (fun d => d.parentId = some ['A'])).map Doc.order).Perm
      (List.map (fun k : Nat => some (k : Int))
        (List.range
          ((srcSibsOf
            [⟨['A'], "a", none, some 0⟩, ⟨['B'], "b", none, some 1⟩,
             ⟨['C'], "c", some ['A'], some 0⟩] ['B']
            (some ['A'])).length + 1))) ∧
    (((applyPatches
        [⟨['A'], "a", none, some 0⟩, ⟨['B'], "b", none, some 1⟩,
         ⟨['C'], "c", some ['A'], some 0⟩]
        (handleDragEnd
          [⟨['A'], "a", none, some 0⟩, ⟨['B'], "b", none, some 1⟩,
           ⟨['C'], "c", some ['A'], some 0⟩]
          ⟨['B'], ⟨"list:root".data, 1⟩,
            some ⟨"into:".data ++ ['A'], 0⟩⟩)).filter
        (fun d => d.parentId = some ['A'])).map Doc.order).Perm
      (List.map (fun k : Nat => some (k : Int))
        (List.range
          ((srcSibsOf
            [⟨['A'], "a", none, some 0⟩, ⟨['B'], "b", none, some 1⟩,
             ⟨['C'], "c", some ['A'], some 0⟩] ['B']
            (some ['A'])).length + 1))) :=
  ⟨by decide,
   (c2_drag_renumbers_touched_groups
    [⟨['A'], "a", none, some 0⟩, ⟨['B'], "b", none, some 1⟩,
     ⟨['C'], "c", some ['A'], some 0⟩]
    ⟨['B'], ⟨"list:root".data, 1⟩, some ⟨"list:".data ++ ['A'], 0⟩⟩
    ⟨"list:".data ++ ['A'], 0⟩ ⟨['B'], "b", none, some 1⟩
    (some ['A']) none rfl (by decide) (by decide) (by decide) (by decide)
    (by decide) (by decide)).1,
   (c2_drag_renumbers_touched_groups
    [⟨['A'], "a", none, some 0⟩, ⟨['B'], "b", none, some 1⟩,
     ⟨['C'], "c", some ['A'], some 0⟩]
    ⟨['B'], ⟨"list:root".data, 1⟩, some ⟨"into:".data ++ ['A'], 0⟩⟩
    ⟨"into:".data ++ ['A'], 0⟩ ⟨['B'], "b", none, some 1⟩
    (some ['A']) none rfl (by decide) (by decide) (by decide) (by decide)
    (by decide) (by decide)).1⟩

/-- Counterexample to C2 as stated: the move dialog of the third sidebar
variant is an accepted move, yet its single emitted patch never renumbers
the source group. Moving X from the root into P leaves the root group
with orders 1 and 2: not the contiguous range 0..1 the claim requires for
a touched group. -/
theorem c2_counterexample_dialog_move_leaves_gap :
    handleMove
      [⟨['X'], "x", none, some 0⟩, ⟨['A'], "a", none, some 1⟩,
       ⟨['P'], "p", none, some 2⟩] ['X'] (some ['P']) =
      [(['X'], ⟨some (some ['P']), some 0⟩)] ∧
    ((applyPatches
        [⟨['X'], "x", none, some 0⟩, ⟨['A'], "a", none, some 1⟩,
         ⟨['P'], "p", none, some 2⟩]
        (handleMove
          [⟨['X'], "x", none, some 0⟩, ⟨['A'], "a", none, some 1⟩,
           ⟨['P'], "p", none, some 2⟩] ['X'] (some ['P']))).filter
      (fun d => d.parentId = none)).map Doc.order = [some 1, some 2] ∧
    ¬ (((applyPatches
        [⟨['X'], "x", none, some 0⟩, ⟨['A'], "a", none, some 1⟩,
         ⟨['P'], "p", none, some 2⟩]
        (handleMove
          [⟨['X'], "x", none, some 0⟩, ⟨['A'], "a", none, some 1⟩,
           ⟨['P'], "p", none, some 2⟩] ['X'] (some ['P']))).filter
      (fun d => d.parentId = none)).map Doc.order).Perm
      (List.map (fun k : Nat => some (k : Int)) (List.range 2)) := by
  refine ⟨by decide, by decide, ?_⟩
  intro hcon
  have hmem : (some 0 : Option Int) ∈
      List.map (fun k : Nat => some (k : Int)) (List.range 2) := by decide
  rw [← hcon.mem_iff] at hmem
  have h2 : ((applyPatches
      [⟨['X'], "x", none, some 0⟩, ⟨['A'], "a", none, some 1⟩,
       ⟨['P'], "p", none, some 2⟩]
      (handleMove
        [⟨['X'], "x", none, some 0⟩, ⟨['A'], "a", none, some 1⟩,
         ⟨['P'], "p", none, some 2⟩] ['X'] (some ['P']))).filter
    (fun d => d.parentId = none)).map Doc.order = [some 1, some 2] := by
    decide
  rw [h2] at hmem
  simp at hmem

theorem findIdx_append_of_not (p : Doc → Bool) :
    ∀ (l t : List Doc), (∀ x ∈ l, ¬ p x = true) →
      (l ++ t).findIdx p = l.length + t.findIdx p := by
  intro l
  induction l with
  | nil => intro t _; simp
  | cons a l ih =>
      intro t h
      rw [List.cons_append, List.findIdx_cons]
      have hpa : p a = false :=
        Bool.eq_false_iff.mpr (h a (List.mem_cons_self a l))
      rw [hpa]
      simp only [cond_false, List.length_cons]
      rw [ih t (fun x hx => h x (List.mem_cons_of_mem a hx))]
      omega

theorem findIdx_insertIdx_of_not (p : Doc → Bool) (a : Doc)
    (ha : p a = true) :
    ∀ (n : Nat) (l : List Doc), n < l.length → (∀ x ∈ l, ¬ p x = true) →
      (l.insertIdx n a).findIdx p = n := by
  intro n
  induction n with
  | zero =>
      intro l _ _
      rw [List.insertIdx_zero, List.findIdx_cons, ha]
      rfl
  | succ m ih =>
      intro l hlen h
      cases l with
      | nil => simp at hlen
      | cons b t =>
          rw [List.insertIdx_succ_cons, List.findIdx_cons]
          have hpb : p b = false :=
            Bool.eq_false_iff.mpr (h b (List.mem_cons_self b t))
          rw [hpb]
          simp only [cond_false]
          rw [ih t (by simpa using hlen)
            (fun x hx => h x (List.mem_cons_of_mem b hx))]

theorem findIdx_spliceInsert (p : Doc → Bool) (l : List Doc) (idx : Nat)
    (a : Doc) (hl : ∀ x ∈ l, ¬ p x = true) (ha : p a = true)
    (hidx : idx ≤ l.length) :
    (spliceInsert l idx a).findIdx p = idx := by
  unfold spliceInsert
  by_cases h : l.length ≤ idx
  · rw [if_pos h]
    rw [findIdx_append_of_not p l [a] hl]
    simp only [List.findIdx_cons, ha, cond_true]
    omega
  · rw [if_neg h]
    exact findIdx_insertIdx_of_not p a ha idx l (Nat.lt_of_not_le h) hl

theorem enginePatches_find_drag (docs : List Doc) (dragId : List Char)
    (destP srcP : Option (List Char)) (idx : Nat) (movingDoc : Doc)
    (hndocs : (docs.map Doc.id).Nodup)
    (hmvid : movingDoc.id = dragId) (hdragne : dragId ≠ [])
    (hidx : idx ≤ (srcSibsOf docs dragId destP).length) :
    (enginePatches docs dragId destP srcP
        (destSibsOf docs dragId destP idx movingDoc)).find?
      (fun e => e.1 = dragId) =
      some (dragId, ⟨some destP, some (idx : Int)⟩) := by
  have hcid : ({ movingDoc with parentId := destP } : Doc).id = dragId :=
    hmvid
  have hpred : (fun e : List Char × UpdateDto => decide (e.1 = dragId)) =
      (fun e : List Char × UpdateDto =>
        decide (e.1 = ({ movingDoc with parentId := destP } : Doc).id)) := by
    rw [hcid]
  have hcelem : ({ movingDoc with parentId := destP } : Doc) ∈
      destSibsOf docs dragId destP idx movingDoc :=
    (destSibs_perm docs dragId destP idx movingDoc).mem_iff.mpr
      (List.mem_cons_self _ _)
  have hfi : (destSibsOf docs dragId destP idx movingDoc).findIdx
      (fun x => x.id = ({ movingDoc with parentId := destP } : Doc).id) =
      idx := by
    refine findIdx_spliceInsert _ _ idx _ ?_ ?_ hidx
    · intro x hx hcon
      have hxne := ((mem_srcSibs_iff docs dragId destP x).mp hx).2.2
      simp only [decide_eq_true_eq] at hcon
      exact hxne (hcon.trans hcid)
    · simp
  have hsibnd2 := destSibs_ids_nodup docs dragId destP idx movingDoc
    hndocs hmvid
  unfold enginePatches
  rw [List.find?_append]
  rw [hpred]
  rw [find?_patchList_mem dragId destP _ 0 _ hsibnd2 hcelem]
  rw [Nat.zero_add, hfi]
  have hpf : patchFor dragId destP idx
      ({ movingDoc with parentId := destP } : Doc) =
      some ⟨some destP, some (idx : Int)⟩ := by
    unfold patchFor
    rw [if_neg (by rw [hcid]; exact hdragne), if_pos hcid]
  rw [hpf]
  simp only [Option.map_some']
  simp only [Option.or]
  rw [hmvid]

/-- C5. For the primary sidebar drag handler, the claim holds: a nest
drop queues for the dragged document the destination parent together with
an order equal to the number of the destination's existing children
excluding the dragged document itself (the append position), and the
drop's destination index has no effect on the emitted patch set. The
claim fails for the fourth sidebar variant; see the counterexample. -/
theorem c5_nest_appends_at_end_ignoring_index
    (docs : List Doc) (result : DropResult) (dest : DropLocation)
    (movingDoc : Doc)
    (hdest : result.destination = some dest)
    (hfind : docs.find? (fun d => d.id = result.draggableId) =
      some movingDoc)
    (hinto : leadsWith "into:".data dest.droppableId = true)
    (hne1 : ¬(dest.droppableId.drop 5 = [] ∨
        dest.droppableId.drop 5 = result.draggableId))
    (hnodesc : isDescendant docs (some (dest.droppableId.drop 5))
        result.draggableId = false)
    (hndocs : (docs.map Doc.id).Nodup)
    (hdragne : result.draggableId ≠ []) :
    (handleDragEnd docs result).find?
      (fun e => e.1 = result.draggableId) =
      some (result.draggableId,
        ⟨some (some (dest.droppableId.drop 5)),
         some ((srcSibsOf docs result.draggableId
           (some (dest.droppableId.drop 5))).length : Int)⟩) ∧
    ∀ i : Nat, handleDragEnd docs
        { result with destination := some { dest with index := i } } =
      handleDragEnd docs result := by
  have hmvid : movingDoc.id = result.draggableId :=
    (find?_id_facts docs result.draggableId movingDoc hfind).2
  have hL := handleDragEnd_into_eq docs result dest movingDoc hdest hfind
    hinto hne1 hnodesc hndocs
  constructor
  · rw [hL]
    exact enginePatches_find_drag docs result.draggableId
      (some (dest.droppableId.drop 5))
      (parseListParentId result.source.droppableId)
      (srcSibsOf docs result.draggableId
        (some (dest.droppableId.drop 5))).length movingDoc hndocs hmvid
      hdragne (Nat.le_refl _)
  · intro i
    rw [handleDragEnd_into_eq docs
      { result with destination := some { dest with index := i } }
      { dest with index := i } movingDoc rfl hfind hinto hne1 hnodesc
      hndocs, hL]

/-- Witness for C5: nesting X onto P, which already has the single child
C, queues X with parent P and order 1, and changing the drop's
destination index from 0 to 7 leaves the patch set unchanged. -/
theorem c5_nest_appends_at_end_ignoring_index_witness :
    (([⟨['P'], "p", none, some 0⟩, ⟨['C'], "c", some ['P'], some 0⟩,
        ⟨['X'], "x", none, some 1⟩] : List Doc).map Doc.id).Nodup ∧
    (handleDragEnd
        [⟨['P'], "p", none, some 0⟩, ⟨['C'], "c", some ['P'], some 0⟩,
         ⟨['X'], "x", none, some 1⟩]
        ⟨['X'], ⟨"list:root".data, 1⟩,
          some ⟨"into:".data ++ ['P'], 0⟩⟩).find?
      (fun e => e.1 = ['X']) =
      some (['X'],
        ⟨some (some (("into:".data ++ ['P']).drop 5)),
         some ((srcSibsOf
           [⟨['P'], "p", none, some 0⟩, ⟨['C'], "c", some ['P'], some 0⟩,
            ⟨['X'], "x", none, some 1⟩] ['X']
           (some (("into:".data ++ ['P']).drop 5))).length : Int)⟩) ∧
    handleDragEnd
        [⟨['P'], "p", none, some 0⟩, ⟨['C'], "c", some ['P'], some 0⟩,
         ⟨['X'], "x", none, some 1⟩]
        ⟨['X'], ⟨"list:root".data, 1⟩,
          some ⟨"into:".data ++ ['P'], 7⟩⟩ =
      handleDragEnd
        [⟨['P'], "p", none, some 0⟩, ⟨['C'], "c", some ['P'], some 0⟩,
         ⟨['X'], "x", none, some 1⟩]
        ⟨['X'], ⟨"list:root".data, 1⟩,
          some ⟨"into:".data ++ ['P'], 0⟩⟩ :=
  ⟨by decide,
   (c5_nest_appends_at_end_ignoring_index
     [⟨['P'], "p", none, some 0⟩, ⟨['C'], "c", some ['P'], some 0⟩,
      ⟨['X'], "x", none, some 1⟩]
     ⟨['X'], ⟨"list:root".data, 1⟩, some ⟨"into:".data ++ ['P'], 0⟩⟩
     ⟨"into:".data ++ ['P'], 0⟩ ⟨['X'], "x", none, some 1⟩
     rfl (by decide) (by decide) (by decide) (by decide) (by decide)
     (by decide)).1,
   (c5_nest_appends_at_end_ignoring_index
     [⟨['P'], "p", none, some 0⟩, ⟨['C'], "c", some ['P'], some 0⟩,
      ⟨['X'], "x", none, some 1⟩]
     ⟨['X'], ⟨"list:root".data, 1⟩, some ⟨"into:".data ++ ['P'], 0⟩⟩
     ⟨"into:".data ++ ['P'], 0⟩ ⟨['X'], "x", none, some 1⟩
     rfl (by decide) (by decide) (by decide) (by decide) (by decide)
     (by decide)).2 7⟩

/-- Counterexample to C5 as stated: in the fourth sidebar variant a nest
drop always sets order 0, the first-child position, not the append
position. Nesting X onto P, which already has one child, emits order 0
while the number of existing children excluding X is 1. -/
theorem c5_counterexample_variant_nest_sets_order_zero :
    handleDragEndP6
      [⟨['P'], "p", none, some 0⟩, ⟨['C'], "c", some ['P'], some 0⟩,
       ⟨['X'], "x", none, some 1⟩]
      ⟨['X'], ⟨"root".data, 1⟩, some ⟨"nest-".data ++ ['P'], 0⟩⟩ =
      [(['X'], ⟨some (some ['P']), some 0⟩)] ∧
    (srcSibsOf
      [⟨['P'], "p", none, some 0⟩, ⟨['C'], "c", some ['P'], some 0⟩,
       ⟨['X'], "x", none, some 1⟩] ['X'] (some ['P'])).length = 1 := by
  refine ⟨by decide, by decide⟩

theorem leadsWith_append : ∀ (q p i : List Char), q.length ≤ p.length →
    leadsWith q (p ++ i) = leadsWith q p := by
  intro q
  induction q with
  | nil => intro p i _; rfl
  | cons a as ih =>
      intro p i hlen
      cases p with
      | nil => simp at hlen
      | cons b bs =>
          rw [List.cons_append]
          show (decide (a = b) && leadsWith as (bs ++ i)) =
            (decide (a = b) && leadsWith as bs)
          rw [ih bs i (Nat.le_of_succ_le_succ hlen)]

theorem leadsWith_self_append : ∀ (q i : List Char),
    leadsWith q (q ++ i) = true := by
  intro q
  induction q with
  | nil => intro i; rfl
  | cons a as ih =>
      intro i
      rw [List.cons_append]
      show (decide (a = a) && leadsWith as (as ++ i)) = true
      rw [ih i]
      simp

theorem leadsWith_into_listDroppable (P : Option (List Char)) :
    leadsWith "into:".data (listDroppableId P) = false := by
  cases P with
  | none => decide
  | some i =>
      show leadsWith "into:".data ("list:".data ++ i) = false
      rw [leadsWith_append "into:".data "list:".data i (by decide)]
      decide

theorem leadsWith_list_listDroppable (P : Option (List Char)) :
    leadsWith "list:".data (listDroppableId P) = true := by
  cases P with
  | none => decide
  | some i => exact leadsWith_self_append "list:".data i

theorem parseListParentId_listDroppable (P : Option (List Char))
    (h1 : P ≠ some []) (h2 : P ≠ some "root".data) :
    parseListParentId (listDroppableId P) = P := by
  cases P with
  | none => decide
  | some i =>
      have hne : i ≠ [] := fun h => h1 (by rw [h])
      have hroot : i ≠ "root".data := fun h => h2 (by rw [h])
      show parseListParentId ("list:".data ++ i) = some i
      unfold parseListParentId
      rw [if_neg ?_, if_pos (leadsWith_self_append "list:".data i)]
      · show (if ("list:".data ++ i).drop 5 = [] then none
          else some (("list:".data ++ i).drop 5)) = some i
        have hdrop : ("list:".data ++ i).drop 5 = i := by
          have h5 : (5 : Nat) = ("list:".data).length := by decide
          rw [h5, List.drop_left]
        rw [hdrop, if_neg hne]
      · intro hcon
        have hcat : "list:".data ++ i = "list:".data ++ "root".data := by
          rw [hcon]
          decide
        exact hroot (List.append_cancel_left hcat)

theorem handleDragEnd_of_find_none (docs : List Doc) (result : DropResult)
    (dest : DropLocation) (hdest : result.destination = some dest)
    (hfind : docs.find? (fun d => d.id = result.draggableId) = none) :
    handleDragEnd docs result = [] := by
  simp only [handleDragEnd, hdest, hfind]

theorem handleDragEnd_list_sc (docs : List Doc) (result : DropResult)
    (dest : DropLocation) (movingDoc : Doc)
    (hdest : result.destination = some dest)
    (hfind : docs.find? (fun d => d.id = result.draggableId) =
      some movingDoc)
    (hninto : leadsWith "into:".data dest.droppableId = false)
    (hlist : leadsWith "list:".data dest.droppableId = true)
    (hsc : dest.droppableId = result.source.droppableId ∧
        dest.index = result.source.index ∧
        parseListParentId dest.droppableId =
          parseListParentId result.source.droppableId) :
    handleDragEnd docs result = [] := by
  simp only [handleDragEnd, hdest, hfind, hninto, hlist, Bool.false_eq_true,
    if_false, if_true]
  rw [if_pos hsc]

theorem handleDragEnd_list_desc (docs : List Doc) (result : DropResult)
    (dest : DropLocation) (movingDoc : Doc)
    (hdest : result.destination = some dest)
    (hfind : docs.find? (fun d => d.id = result.draggableId) =
      some movingDoc)
    (hninto : leadsWith "into:".data dest.droppableId = false)
    (hlist : leadsWith "list:".data dest.droppableId = true)
    (hnsc : ¬(dest.droppableId = result.source.droppableId ∧
        dest.index = result.source.index ∧
        parseListParentId dest.droppableId =
          parseListParentId result.source.droppableId))
    (hdesc : (match parseListParentId dest.droppableId with
        | some p => isDescendant docs (some p) result.draggableId
        | none => false) = true) :
    handleDragEnd docs result = [] := by
  simp only [handleDragEnd, hdest, hfind, hninto, hlist, Bool.false_eq_true,
    if_false, if_true]
  rw [if_neg hnsc, hdesc, if_pos rfl]

theorem applyPatches_nil (docs : List Doc) : applyPatches docs [] = docs := by
  unfold applyPatches
  rw [List.map_congr_left (fun d _ => applyFn_of_none [] d rfl)]
  exact List.map_id docs

theorem find?_applyPatches (docs : List Doc)
    (U : List (List Char × UpdateDto)) (x : List Char) :
    (applyPatches docs U).find? (fun d => d.id = x) =
      (docs.find? (fun d => d.id = x)).map (applyFn U) := by
  unfold applyPatches
  rw [List.find?_map]
  have hp : ((fun d : Doc => decide (d.id = x)) ∘ applyFn U) =
      (fun d : Doc => decide (d.id = x)) := by
    funext d
    simp [Function.comp, applyFn_id]
  rw [hp]

theorem finalGroup_findIdx_id (P : Option (List Char)) (x : List Char) :
    ∀ (sibs : List Doc) (n : Nat),
      (finalGroup P n sibs).findIdx (fun d => d.id = x) =
        sibs.findIdx (fun d => d.id = x) := by
  intro sibs
  induction sibs with
  | nil => intro n; rfl
  | cons d ds ih =>
      intro n
      rw [finalGroup_cons, List.findIdx_cons, List.findIdx_cons]
      rw [ih (n + 1)]
      rfl

theorem group_dest_sorted
    (docs : List Doc) (dragId : List Char) (destP srcP : Option (List Char))
    (destSibs : List Doc)
    (hndocs : (docs.map Doc.id).Nodup)
    (hne : ∀ d ∈ docs, d.id ≠ [])
    (hdragne : dragId ≠ [])
    (hsibnd : (destSibs.map Doc.id).Nodup)
    (hdragmem : dragId ∈ destSibs.map Doc.id)
    (hoth : ∀ e ∈ destSibs, e.id ≠ dragId → e ∈ docs ∧ e.parentId = destP)
    (hcov : ∀ d ∈ docs, d.parentId = destP → d.id ≠ dragId →
      d.id ∈ destSibs.map Doc.id)
    (hmv : ∀ e ∈ destSibs, e.id = dragId →
      ∃ d0 ∈ docs, d0.id = dragId ∧ e = { d0 with parentId := destP }) :
    sortDocumentsA
        ((applyPatches docs
          (enginePatches docs dragId destP srcP destSibs)).filter
          (fun d => d.parentId = destP)) =
      finalGroup destP 0 destSibs := by
  have hperm := group_dest_perm docs dragId destP srcP destSibs hndocs hne
    hdragne hsibnd hdragmem hoth hcov hmv
  have hp2 : (sortDocumentsA
      ((applyPatches docs
        (enginePatches docs dragId destP srcP destSibs)).filter
        (fun d => d.parentId = destP))).Perm
      (finalGroup destP 0 destSibs) :=
    (List.perm_insertionSort _ _).trans hperm
  refine sorted_unique_of_nodup_keys _ _ hp2
    (List.sorted_insertionSort _ _) (finalGroup_sorted destP destSibs 0) ?_
  exact ((hp2.map (orderKey 999999)).nodup_iff).mpr
    (finalGroup_keys_nodup destP destSibs 0)

/-- C3. The claim holds whenever the destination index does not exceed
the number of destination siblings excluding the moving document: after
the first application's patches are merged back, re-running the same
move intent finds the document already at the intended parent and index,
hits the true-no-op short-circuit, and emits nothing. For an index past
the end of the list the splice clamps and the claim fails; see the
counterexample. -/
theorem c3_reapplying_in_range_intent_emits_nothing
    (docs : List Doc) (dragId : List Char) (destP : Option (List Char))
    (idx : Nat)
    (hndocs : (docs.map Doc.id).Nodup)
    (hne : ∀ d ∈ docs, d.id ≠ [])
    (hdragne : dragId ≠ [])
    (hP1 : destP ≠ some [])
    (hP2 : destP ≠ some "root".data)
    (hidx : idx ≤ (srcSibsOf docs dragId destP).length) :
    handleDragEnd
      (applyPatches docs
        (handleDragEnd docs (moveIntent docs dragId destP idx)))
      (moveIntent
        (applyPatches docs
          (handleDragEnd docs (moveIntent docs dragId destP idx)))
        dragId destP idx) = [] := by
  have hparse : parseListParentId (listDroppableId destP) = destP :=
    parseListParentId_listDroppable destP hP1 hP2
  have hninto := leadsWith_into_listDroppable destP
  have hlist := leadsWith_list_listDroppable destP
  cases hfind : docs.find? (fun d => d.id = dragId) with
  | none =>
      have hD1 : handleDragEnd docs (moveIntent docs dragId destP idx) =
          [] :=
        handleDragEnd_of_find_none docs _ ⟨listDroppableId destP, idx⟩
          rfl hfind
      rw [hD1, applyPatches_nil]
      exact hD1
  | some movingDoc =>
      obtain ⟨hmvmem, hmvid⟩ := find?_id_facts docs dragId movingDoc hfind
      by_cases hsc : (listDroppableId destP =
            (moveIntent docs dragId destP idx).source.droppableId ∧
          idx = (moveIntent docs dragId destP idx).source.index ∧
          parseListParentId (listDroppableId destP) =
            parseListParentId
              (moveIntent docs dragId destP idx).source.droppableId)
      · have hD1 : handleDragEnd docs (moveIntent docs dragId destP idx) =
            [] :=
          handleDragEnd_list_sc docs _ ⟨listDroppableId destP, idx⟩
            movingDoc rfl hfind hninto hlist hsc
        rw [hD1, applyPatches_nil]
        exact hD1
      · by_cases hdesc : ((match parseListParentId (listDroppableId destP)
              with
            | some p => isDescendant docs (some p) dragId
            | none => false) = true)
        · have hD1 : handleDragEnd docs
              (moveIntent docs dragId destP idx) = [] :=
            handleDragEnd_list_desc docs _ ⟨listDroppableId destP, idx⟩
              movingDoc rfl hfind hninto hlist hsc hdesc
          rw [hD1, applyPatches_nil]
          exact hD1
        · have hdescF : (match parseListParentId (listDroppableId destP)
                with
              | some p => isDescendant docs (some p) dragId
              | none => false) = false := Bool.eq_false_iff.mpr hdesc
          have hL := handleDragEnd_list_eq docs
            (moveIntent docs dragId destP idx)
            ⟨listDroppableId destP, idx⟩ movingDoc rfl hfind hninto hlist
            hsc hdescF hndocs hdragne
          have hred2 : (moveIntent docs dragId destP idx).source.droppableId
              = listDroppableId movingDoc.parentId := by
            show listDroppableId (((docs.find?
              (fun d => d.id = dragId)).map Doc.parentId).getD none) = _
            rw [hfind]
            rfl
          rw [show (moveIntent docs dragId destP idx).draggableId = dragId
            from rfl] at hL
          rw [show (⟨listDroppableId destP, idx⟩ :
            DropLocation).droppableId = listDroppableId destP from rfl] at hL
          rw [show (⟨listDroppableId destP, idx⟩ : DropLocation).index = idx
            from rfl] at hL
          rw [hred2, hparse] at hL
          have hsibnd := destSibs_ids_nodup docs dragId destP idx movingDoc
            hndocs hmvid
          have hdragmem := dragId_mem_destSibs docs dragId destP idx
            movingDoc hmvid
          have hoth := destSibs_oth docs dragId destP idx movingDoc hmvid
          have hcov := destSibs_cov docs dragId destP idx movingDoc
          have hmv := destSibs_mv docs dragId destP idx movingDoc hmvmem
            hmvid
          have hfind2 : (applyPatches docs
              (enginePatches docs dragId destP
                (parseListParentId (listDroppableId movingDoc.parentId))
                (destSibsOf docs dragId destP idx movingDoc))).find?
              (fun d => d.id = dragId) =
              some (applyFn
                (enginePatches docs dragId destP
                  (parseListParentId (listDroppableId movingDoc.parentId))
                  (destSibsOf docs dragId destP idx movingDoc))
                movingDoc) := by
            rw [find?_applyPatches, hfind]
            rfl
          have happ := applyFn_dest docs dragId destP
            (parseListParentId (listDroppableId movingDoc.parentId))
            (destSibsOf docs dragId destP idx movingDoc) hndocs hne hdragne
            hsibnd hoth hmv movingDoc hmvmem
            (by rw [hmvid]; exact hdragmem)
          have hparent2 : (applyFn
              (enginePatches docs dragId destP
                (parseListParentId (listDroppableId movingDoc.parentId))
                (destSibsOf docs dragId destP idx movingDoc))
              movingDoc).parentId = destP := by
            rw [happ]
            rfl
          have hsort : getSiblings (applyPatches docs
              (enginePatches docs dragId destP
                (parseListParentId (listDroppableId movingDoc.parentId))
                (destSibsOf docs dragId destP idx movingDoc))) destP =
              finalGroup destP 0
                (destSibsOf docs dragId destP idx movingDoc) :=
            group_dest_sorted docs dragId destP
              (parseListParentId (listDroppableId movingDoc.parentId))
              (destSibsOf docs dragId destP idx movingDoc) hndocs hne
              hdragne hsibnd hdragmem hoth hcov hmv
          have hj2 : (getSiblings (applyPatches docs
              (enginePatches docs dragId destP
                (parseListParentId (listDroppableId movingDoc.parentId))
                (destSibsOf docs dragId destP idx movingDoc))) destP).findIdx
              (fun d => d.id = dragId) = idx := by
            rw [hsort, finalGroup_findIdx_id]
            rw [show destSibsOf docs dragId destP idx movingDoc =
              spliceInsert (srcSibsOf docs dragId destP) idx
                { movingDoc with parentId := destP } from rfl]
            refine findIdx_spliceInsert _ _ idx _ ?_ ?_ hidx
            · intro x hx hcon
              exact ((mem_srcSibs_iff docs dragId destP x).mp hx).2.2
                (by simpa using hcon)
            · simp only [decide_eq_true_eq]
              exact hmvid
          have hR2 : moveIntent (applyPatches docs
              (enginePatches docs dragId destP
                (parseListParentId (listDroppableId movingDoc.parentId))
                (destSibsOf docs dragId destP idx movingDoc)))
              dragId destP idx =
              ⟨dragId, ⟨listDroppableId destP, idx⟩,
                some ⟨listDroppableId destP, idx⟩⟩ := by
            unfold moveIntent
            rw [hfind2]
            simp only [Option.map_some', Option.getD_some]
            rw [hparent2, hj2]
          rw [hL, hR2]
          exact handleDragEnd_list_sc _ _ ⟨listDroppableId destP, idx⟩
            (applyFn
              (enginePatches docs dragId destP
                (parseListParentId (listDroppableId movingDoc.parentId))
                (destSibsOf docs dragId destP idx movingDoc))
              movingDoc)
            rfl hfind2 hninto hlist ⟨rfl, rfl, rfl⟩

/-- Witness for C3: moving Y to the front of the root list and then
replaying the same intent on the patched collection emits nothing. -/
theorem c3_reapplying_in_range_intent_emits_nothing_witness :
    0 ≤ (srcSibsOf [⟨['X'], "t", none, some 0⟩, ⟨['Y'], "u", none, some 1⟩]
      ['Y'] none).length ∧
    handleDragEnd
      (applyPatches [⟨['X'], "t", none, some 0⟩, ⟨['Y'], "u", none, some 1⟩]
        (handleDragEnd
          [⟨['X'], "t", none, some 0⟩, ⟨['Y'], "u", none, some 1⟩]
          (moveIntent
            [⟨['X'], "t", none, some 0⟩, ⟨['Y'], "u", none, some 1⟩]
            ['Y'] none 0)))
      (moveIntent
        (applyPatches
          [⟨['X'], "t", none, some 0⟩, ⟨['Y'], "u", none, some 1⟩]
          (handleDragEnd
            [⟨['X'], "t", none, some 0⟩, ⟨['Y'], "u", none, some 1⟩]
            (moveIntent
              [⟨['X'], "t", none, some 0⟩, ⟨['Y'], "u", none, some 1⟩]
              ['Y'] none 0)))
        ['Y'] none 0) = [] :=
  ⟨by decide,
   c3_reapplying_in_range_intent_emits_nothing
     [⟨['X'], "t", none, some 0⟩, ⟨['Y'], "u", none, some 1⟩] ['Y'] none 0
     (by decide) (by decide) (by decide) (by decide) (by decide)
     (by decide)⟩

/-- Counterexample to C3 as stated: with the single root document X and
the intent of moving X to root index 5, the splice clamps the out-of-range
index, X lands at index 0, and the replayed intent does not match the
recorded source index 0 against the requested destination index 5: the
second application emits the same one-entry patch set again instead of
nothing. -/
theorem c3_counterexample_out_of_range_index :
    handleDragEnd
      (applyPatches [⟨['X'], "t", none, some 0⟩]
        (handleDragEnd [⟨['X'], "t", none, some 0⟩]
          (moveIntent [⟨['X'], "t", none, some 0⟩] ['X'] none 5)))
      (moveIntent
        (applyPatches [⟨['X'], "t", none, some 0⟩]
          (handleDragEnd [⟨['X'], "t", none, some 0⟩]
            (moveIntent [⟨['X'], "t", none, some 0⟩] ['X'] none 5)))
        ['X'] none 5) = [(['X'], ⟨some none, some 0⟩)] ∧
    [(['X'], (⟨some none, some 0⟩ : UpdateDto))] ≠
      ([] : List (List Char × UpdateDto)) := by
  refine ⟨by decide, by decide⟩

theorem chainInv_subset (S : List Doc) (P0 : Option (List Char) → Prop) :
    ∀ (path : List Doc) (p : Option (List Char)), chainInv S P0 path p →
      ∀ x ∈ path, x ∈ S := by
  intro path
  induction path with
  | nil => intro p _ x hx; simp at hx
  | cons d rest ih =>
      intro p hinv x hx
      obtain ⟨_, hd, _, hrest⟩ := hinv
      rcases List.mem_cons.mp hx with rfl | hx2
      · exact hd
      · exact ih d.parentId hrest x hx2

theorem chainInv_nodup (S : List Doc) (P0 : Option (List Char) → Prop) :
    ∀ (path : List Doc) (p : Option (List Char)), chainInv S P0 path p →
      path.Nodup := by
  intro path
  induction path with
  | nil => intro p _; exact List.nodup_nil
  | cons d rest ih =>
      intro p hinv
      obtain ⟨_, _, hdr, hrest⟩ := hinv
      exact List.nodup_cons.mpr ⟨hdr, ih d.parentId hrest⟩

theorem chainInv_length (S : List Doc) (P0 : Option (List Char) → Prop)
    (path : List Doc) (p : Option (List Char))
    (h : chainInv S P0 path p) : path.length ≤ S.length :=
  (List.subperm_of_subset (chainInv_nodup S P0 path p h)
    (fun x hx => chainInv_subset S P0 path p h x hx)).length_le

theorem chainInv_parent_shape (S : List Doc)
    (P0 : Option (List Char) → Prop) :
    ∀ (path : List Doc) (p : Option (List Char)), chainInv S P0 path p →
      ∀ e ∈ path, P0 e.parentId ∨ ∃ f ∈ path, e.parentId = some f.id := by
  intro path
  induction path with
  | nil => intro p _ e he; simp at he
  | cons d rest ih =>
      intro p hinv e he
      obtain ⟨hp, hd, hdr, hrest⟩ := hinv
      rcases List.mem_cons.mp he with rfl | he2
      · cases rest with
        | nil => exact Or.inl hrest
        | cons f r =>
            obtain ⟨hpf, hf, _, _⟩ := hrest
            exact Or.inr ⟨f, List.mem_cons_of_mem _ (List.mem_cons_self f r),
              hpf⟩
      · rcases ih d.parentId hrest e he2 with h | ⟨f, hf, hpf⟩
        · exact Or.inl h
        · exact Or.inr ⟨f, List.mem_cons_of_mem _ hf, hpf⟩

theorem chainInv_not_mem (S : List Doc) (P0 : Option (List Char) → Prop)
    (hS : (S.map Doc.id).Nodup)
    (hP0 : ∀ d ∈ S, ¬ P0 (some d.id)) :
    ∀ (path : List Doc) (p : Option (List Char)), chainInv S P0 path p →
      ∀ e ∈ S, e.parentId = p → e ∉ path := by
  intro path
  cases path with
  | nil => intro p _ e _ _ h; simp at h
  | cons d rest =>
      intro p hinv e heS hep hecon
      obtain ⟨hp, hd, hdr, hrest⟩ := hinv
      subst hp
      rcases List.mem_cons.mp hecon with rfl | he2
      · rw [hep] at hrest
        cases rest with
        | nil => exact hP0 e hd hrest
        | cons f r =>
            obtain ⟨hpf, hfS, _, _⟩ := hrest
            have hef : e = f := eq_of_mem_of_id_eq hS hd hfS
              (by injection hpf)
            exact hdr (hef ▸ List.mem_cons_self f r)
      · rcases chainInv_parent_shape S P0 rest d.parentId hrest e he2 with
          h | ⟨f, hf, hpf⟩
        · rw [hep] at h
          exact hP0 d hd h
        · rw [hep] at hpf
          have hfS : f ∈ S := chainInv_subset S P0 rest d.parentId hrest f hf
          have hdf : d = f := eq_of_mem_of_id_eq hS hd hfS
            (by injection hpf)
          exact hdr (hdf ▸ hf)

/-- The recursive tree builder stabilizes: along any simple chain, two
depth budgets that both exceed the number of remaining documents give
the same forest. -/
theorem buildDocumentTreeRec_stab (sortFn : List Doc → List Doc)
    (hsort : ∀ (l : List Doc) (d : Doc), d ∈ sortFn l → d ∈ l)
    (docs : List Doc) (hnd : (docs.map Doc.id).Nodup) :
    ∀ (fuel₁ fuel₂ : Nat) (path : List Doc) (p : Option (List Char)),
      chainInv docs (fun q => q = none) path p →
      docs.length + 1 ≤ path.length + fuel₁ →
      docs.length + 1 ≤ path.length + fuel₂ →
      buildDocumentTreeRec sortFn fuel₁ docs p =
        buildDocumentTreeRec sortFn fuel₂ docs p := by
  intro fuel₁
  induction fuel₁ with
  | zero =>
      intro fuel₂ path p hinv h1 _
      have hlen := chainInv_length docs _ path p hinv
      omega
  | succ f ih =>
      intro fuel₂ path p hinv h1 h2
      cases fuel₂ with
      | zero =>
          have hlen := chainInv_length docs _ path p hinv
          omega
      | succ g =>
          show (sortFn (docs.filter (fun d => d.parentId = p))).map _ =
            (sortFn (docs.filter (fun d => d.parentId = p))).map _
          refine List.map_congr_left ?_
          intro d hd
          have hdfil := hsort _ d hd
          have hddocs : d ∈ docs := (List.mem_filter.mp hdfil).1
          have hdp : d.parentId = p := by
            have := (List.mem_filter.mp hdfil).2
            simpa using this
          have hnotmem : d ∉ path :=
            chainInv_not_mem docs (fun q => q = none) hnd
              (fun x _ hcon => Option.noConfusion hcon) path p hinv
              d hddocs hdp
          have hinv2 : chainInv docs (fun q => q = none) (d :: path)
              (some d.id) := ⟨rfl, hddocs, hnotmem, by rw [hdp]; exact hinv⟩
          exact congrArg (TreeNode.node d)
            (ih g (d :: path) (some d.id) hinv2
              (by simp only [List.length_cons]; omega)
              (by simp only [List.length_cons]; omega))

theorem v1MapDocs_facts (docs : List Doc)
    (hnd : (docs.map Doc.id).Nodup) :
    ((v1MapDocs docs).map Doc.id).Nodup ∧
    (∀ d ∈ v1MapDocs docs, d.id ≠ []) ∧
    (v1MapDocs docs).length ≤ docs.length := by
  rw [v1MapDocs_eq_of_nodup hnd]
  have hperm : (sortDocumentsA docs).Perm docs := List.perm_insertionSort _ _
  have hsnd : ((sortDocumentsA docs).map Doc.id).Nodup :=
    ((hperm.map Doc.id).nodup_iff).mpr hnd
  refine ⟨((List.filter_sublist _).map Doc.id).nodup hsnd, ?_, ?_⟩
  · intro d hd
    have := (List.mem_filter.mp hd).2
    simpa using this
  · calc ((sortDocumentsA docs).filter _).length
        ≤ (sortDocumentsA docs).length := List.length_filter_le _ _
      _ = docs.length := hperm.length_eq

/-- The unfolding of the map builder object graph stabilizes along any
simple chain of map entries. -/
theorem v1Unfold_stab (docs : List Doc)
    (hnd : (docs.map Doc.id).Nodup) :
    ∀ (fuel₁ fuel₂ : Nat) (path : List Doc) (d : Doc),
      chainInv (v1MapDocs docs) (rootCondV1 docs) (d :: path) (some d.id) →
      (v1MapDocs docs).length + 1 ≤ (d :: path).length + fuel₁ →
      (v1MapDocs docs).length + 1 ≤ (d :: path).length + fuel₂ →
      v1Unfold docs fuel₁ d = v1Unfold docs fuel₂ d := by
  obtain ⟨hSnd, hSne, _⟩ := v1MapDocs_facts docs hnd
  have hP0 : ∀ e ∈ v1MapDocs docs, ¬ rootCondV1 docs (some e.id) := by
    intro e he hcon
    refine hcon ⟨?_, e, he, rfl⟩
    show qTruthy (some e.id) = true
    simp [qTruthy, hSne e he]
  intro fuel₁
  induction fuel₁ with
  | zero =>
      intro fuel₂ path d hinv h1 _
      have hlen := chainInv_length (v1MapDocs docs) _ (d :: path) _ hinv
      omega
  | succ f ih =>
      intro fuel₂ path d hinv h1 h2
      cases fuel₂ with
      | zero =>
          have hlen := chainInv_length (v1MapDocs docs) _ (d :: path) _ hinv
          omega
      | succ g =>
          show TreeNode.node d
              ((sortDocumentsA (v1ChildrenOf docs d.id)).map
                (v1Unfold docs f)) =
            TreeNode.node d
              ((sortDocumentsA (v1ChildrenOf docs d.id)).map
                (v1Unfold docs g))
          refine congrArg (TreeNode.node d) (List.map_congr_left ?_)
          intro e he
          have hech : e ∈ v1ChildrenOf docs d.id :=
            (List.perm_insertionSort _ _).mem_iff.mp he
          have heS : e ∈ v1MapDocs docs := (List.mem_filter.mp hech).1
          have hep : e.parentId = some d.id := by
            have := (List.mem_filter.mp hech).2
            simp only [Bool.and_eq_true, decide_eq_true_eq] at this
            exact this.2
          have hnotmem : e ∉ d :: path :=
            chainInv_not_mem (v1MapDocs docs) _ hSnd hP0 (d :: path)
              (some d.id) hinv e heS hep
          have hinv2 : chainInv (v1MapDocs docs) (rootCondV1 docs)
              (e :: d :: path) (some e.id) :=
            ⟨rfl, heS, hnotmem, by rw [hep]; exact hinv⟩
          exact ih g (d :: path) e hinv2
            (by simp only [List.length_cons] at h1 ⊢; omega)
            (by simp only [List.length_cons] at h2 ⊢; omega)

/-- The part_000 recursive builder stabilizes: any depth past the
collection size gives the canonical forest. -/
theorem buildDocumentTreeP0_stab (docs : List Doc)
    (hnd : (docs.map Doc.id).Nodup) (fuel₁ fuel₂ : Nat)
    (h1 : docs.length + 1 ≤ fuel₁) (h2 : docs.length + 1 ≤ fuel₂) :
    buildDocumentTreeP0 fuel₁ docs none =
      buildDocumentTreeP0 fuel₂ docs none := by
  unfold buildDocumentTreeP0
  refine buildDocumentTreeRec_stab sortDocumentsTB
    (fun l d hd => (List.perm_insertionSort _ l).mem_iff.mp hd) docs hnd
    fuel₁ fuel₂ [] none rfl ?_ ?_
  · simpa using h1
  · simpa using h2

/-- The part_000 map builder stabilizes: any depth at least the node map
size gives the canonical forest. -/
theorem buildDocumentTreeV1_stab (docs : List Doc)
    (hnd : (docs.map Doc.id).Nodup) (fuel₁ fuel₂ : Nat)
    (h1 : (v1MapDocs docs).length ≤ fuel₁)
    (h2 : (v1MapDocs docs).length ≤ fuel₂) :
    buildDocumentTreeV1 fuel₁ docs = buildDocumentTreeV1 fuel₂ docs := by
  unfold buildDocumentTreeV1
  refine List.map_congr_left ?_
  intro r hr
  have hroot : r ∈ v1Roots docs := (List.perm_insertionSort _ _).mem_iff.mp hr
  have hrS : r ∈ v1MapDocs docs := (List.mem_filter.mp hroot).1
  have hrcond : rootCondV1 docs r.parentId := by
    have hb := (List.mem_filter.mp hroot).2
    simp only [Bool.not_eq_true', Bool.and_eq_false_iff] at hb
    intro ⟨ht, x, hx, hxid⟩
    rcases hb with hb | hb
    · rw [show truthyParent r = qTruthy r.parentId from rfl, ht] at hb
      exact Bool.noConfusion hb
    · rw [List.any_eq_false] at hb
      have := hb x hx
      simp only [decide_eq_true_eq] at this
      exact this hxid
  have hinv : chainInv (v1MapDocs docs) (rootCondV1 docs) [r]
      (some r.id) := ⟨rfl, hrS, by simp, hrcond⟩
  exact v1Unfold_stab docs hnd fuel₁ fuel₂ [] r hinv
    (by simp only [List.length_cons, List.length_nil]; omega)
    (by simp only [List.length_cons, List.length_nil]; omega)

/-- C4. Tree building terminates on every collection with distinct ids
(ids key the collection): past a recursion depth tied to the collection
size, both part_000 builders return a forest that no longer changes as
the depth budget grows, the shallow form of termination of the source
recursions. On the two-document cycle both builders terminate with the
empty forest at every positive depth, so each cycle member appears in
the resulting forest exactly zero times, not once: the cycle is
unreachable from the roots and is silently dropped. -/
theorem c4_tree_building_terminates_and_drops_cycles
    (docs : List Doc) (hnd : (docs.map Doc.id).Nodup)
    (fuel : Nat) (hfuel : docs.length + 1 ≤ fuel)
    (ida idb : List Char) (ta tb : String) (oa ob : Option Int)
    (cfuel : Nat)
    (ha : ida ≠ []) (hb : idb ≠ []) (hab : ida ≠ idb) (hcf : 1 ≤ cfuel) :
    (buildDocumentTreeP0 fuel docs none =
       buildDocumentTreeP0 (docs.length + 1) docs none ∧
     buildDocumentTreeV1 fuel docs =
       buildDocumentTreeV1 (docs.length + 1) docs) ∧
    (buildDocumentTreeP0 cfuel
        [⟨ida, ta, some idb, oa⟩, ⟨idb, tb, some ida, ob⟩] none = [] ∧
     buildDocumentTreeV1 cfuel
        [⟨ida, ta, some idb, oa⟩, ⟨idb, tb, some ida, ob⟩] = []) := by
  obtain ⟨_, _, hmlen⟩ := v1MapDocs_facts docs hnd
  refine ⟨⟨buildDocumentTreeP0_stab docs hnd fuel _ hfuel (Nat.le_refl _),
    buildDocumentTreeV1_stab docs hnd fuel _ (by omega) (by omega)⟩, ?_⟩
  set da : Doc := ⟨ida, ta, some idb, oa⟩ with hda
  set db : Doc := ⟨idb, tb, some ida, ob⟩ with hdb
  constructor
  · obtain ⟨f, rfl⟩ : ∃ f, cfuel = f + 1 := ⟨cfuel - 1, by omega⟩
    show buildDocumentTreeRec sortDocumentsTB (f + 1) [da, db] none = []
    have hfil : ([da, db] : List Doc).filter
        (fun d => d.parentId = none) = [] := by
      simp [hda, hdb]
    simp [buildDocumentTreeRec, hfil, sortDocumentsTB, List.insertionSort]
  · have hnd2 : (([da, db] : List Doc).map Doc.id).Nodup := by
      simp [hda, hdb, hab]
    have hmapd : v1MapDocs [da, db] =
        (sortDocumentsA [da, db]).filter (fun d => decide (d.id ≠ [])) :=
      v1MapDocs_eq_of_nodup hnd2
    have hmem : ∀ x ∈ v1MapDocs [da, db], x = da ∨ x = db := by
      intro x hx
      have := mem_v1MapDocs hx
      simpa using this
    have hdbmem : db ∈ v1MapDocs [da, db] := by
      rw [hmapd]
      refine List.mem_filter.mpr ⟨?_, by simp [hdb, hb]⟩
      exact (List.perm_insertionSort (leOrd 999999) [da, db]).mem_iff.mpr
        (by simp)
    have hdamem : da ∈ v1MapDocs [da, db] := by
      rw [hmapd]
      refine List.mem_filter.mpr ⟨?_, by simp [hda, ha]⟩
      exact (List.perm_insertionSort (leOrd 999999) [da, db]).mem_iff.mpr
        (by simp)
    have hroots : v1Roots [da, db] = [] := by
      unfold v1Roots
      rw [List.filter_eq_nil_iff]
      intro x hx
      rcases hmem x hx with rfl | rfl
      · have h1 : truthyParent da = true := by simp [truthyParent, hda, hb]
        simp [h1, hda]
        exact ⟨db, hdbmem, by simp [hdb]⟩
      · have h1 : truthyParent db = true := by simp [truthyParent, hdb, ha]
        simp [h1, hdb]
        exact ⟨da, hdamem, by simp [hda]⟩
    unfold buildDocumentTreeV1
    rw [hroots]
    rfl

/-- Witness for C4: on the concrete two-document cycle, depth 5 already
equals the canonical depth-3 forest for both builders, and the depth-1
forest is empty for both. -/
theorem c4_tree_building_terminates_and_drops_cycles_witness :
    (([⟨['a'], "x", some ['b'], none⟩,
        ⟨['b'], "y", some ['a'], none⟩] : List Doc).map Doc.id).Nodup ∧
    ((buildDocumentTreeP0 5
        [⟨['a'], "x", some ['b'], none⟩, ⟨['b'], "y", some ['a'], none⟩]
        none =
      buildDocumentTreeP0 3
        [⟨['a'], "x", some ['b'], none⟩, ⟨['b'], "y", some ['a'], none⟩]
        none ∧
      buildDocumentTreeV1 5
        [⟨['a'], "x", some ['b'], none⟩, ⟨['b'], "y", some ['a'], none⟩] =
      buildDocumentTreeV1 3
        [⟨['a'], "x", some ['b'], none⟩, ⟨['b'], "y", some ['a'], none⟩]) ∧
     (buildDocumentTreeP0 1
        [⟨['a'], "x", some ['b'], none⟩, ⟨['b'], "y", some ['a'], none⟩]
        none = [] ∧
      buildDocumentTreeV1 1
        [⟨['a'], "x", some ['b'], none⟩, ⟨['b'], "y", some ['a'], none⟩] =
        [])) :=
  ⟨by decide,
   c4_tree_building_terminates_and_drops_cycles
    [⟨['a'], "x", some ['b'], none⟩, ⟨['b'], "y", some ['a'], none⟩]
    (by decide) 5 (by decide) ['a'] ['b'] "x" "y" none none 1
    (by decide) (by decide) (by decide) (by decide)⟩


theorem lookupGet_mem {docs : List Doc} {i : List Char} {d : Doc}
    (h : lookupGet docs i = some d) : d ∈ docs ∧ d.id = i := by
  unfold lookupGet at h
  have hmem := List.mem_of_find?_eq_some h
  have hpred := List.find?_some h
  simp only [decide_eq_true_eq] at hpred
  rw [List.mem_reverse] at hmem
  exact ⟨(List.mem_filter.mp hmem).1, hpred⟩

theorem lookupGet_eq {docs : List Doc} (hnd : (docs.map Doc.id).Nodup)
    (hne : ∀ d ∈ docs, d.id ≠ []) {d : Doc} (hd : d ∈ docs) :
    lookupGet docs d.id = some d := by
  cases hlk : lookupGet docs d.id with
  | none =>
      exfalso
      unfold lookupGet at hlk
      rw [List.find?_eq_none] at hlk
      refine hlk d ?_ (by simp)
      rw [List.mem_reverse]
      exact List.mem_filter.mpr ⟨hd, by simp [hne d hd]⟩
  | some e =>
      obtain ⟨heD, heid⟩ := lookupGet_mem hlk
      rw [eq_of_mem_of_id_eq hnd heD hd heid]

theorem parentStep_stepFun {docs : List Doc}
    (hnd : (docs.map Doc.id).Nodup) (hne : ∀ d ∈ docs, d.id ≠ [])
    {x b : List Char} :
    parentStep docs x b ↔ stepFun docs x = some b := by
  constructor
  · intro ⟨d, hd, hdi, hdp, hbne⟩
    have hlk : lookupGet docs x = some d := by
      rw [← hdi]
      exact lookupGet_eq hnd hne hd
    simp only [stepFun, hlk, Option.some_bind, hdp]
    rw [if_neg hbne]
  · intro h
    cases hlk : lookupGet docs x with
    | none => simp [stepFun, hlk] at h
    | some d =>
        obtain ⟨hdD, hdi⟩ := lookupGet_mem hlk
        cases hp : d.parentId with
        | none => simp [stepFun, hlk, hp] at h
        | some p =>
            simp only [stepFun, hlk, Option.some_bind, hp] at h
            by_cases hpe : p = []
            · rw [if_pos hpe] at h
              exact absurd h (by simp)
            · rw [if_neg hpe] at h
              injection h with h2
              exact ⟨d, hdD, hdi, by rw [hp, h2], h2 ▸ hpe⟩

theorem iterOpt_zero (docs : List Doc) (i : List Char) :
    iterOpt docs 0 i = some i := rfl

theorem iterOpt_succ_step {docs : List Doc} {i j : List Char} (n : Nat)
    (h : stepFun docs i = some j) :
    iterOpt docs (n + 1) i = iterOpt docs n j := by
  simp [iterOpt, h]

theorem iterOpt_succ_none {docs : List Doc} {i : List Char} (n : Nat)
    (h : stepFun docs i = none) :
    iterOpt docs (n + 1) i = none := by
  simp [iterOpt, h]

theorem iterOpt_succ_end (docs : List Doc) :
    ∀ (n : Nat) (i : List Char),
      iterOpt docs (n + 1) i = (iterOpt docs n i).bind (stepFun docs) := by
  intro n
  induction n with
  | zero =>
      intro i
      cases h : stepFun docs i with
      | none => rw [iterOpt_succ_none 0 h, iterOpt_zero, Option.some_bind, h]
      | some j => rw [iterOpt_succ_step 0 h, iterOpt_zero, iterOpt_zero,
          Option.some_bind, h]
  | succ m ih =>
      intro i
      cases h : stepFun docs i with
      | none =>
          rw [iterOpt_succ_none (m + 1) h, iterOpt_succ_none m h]
          rfl
      | some j =>
          rw [iterOpt_succ_step (m + 1) h, iterOpt_succ_step m h, ih j]

theorem iterOpt_prefix (docs : List Doc) :
    ∀ (n : Nat) (i a : List Char), iterOpt docs n i = some a →
      ∀ m, m ≤ n → ∃ b, iterOpt docs m i = some b := by
  intro n
  induction n with
  | zero =>
      intro i a h m hm
      have hm0 : m = 0 := by omega
      subst hm0
      exact ⟨i, rfl⟩
  | succ k ih =>
      intro i a h m hm
      have h2 := h
      rw [iterOpt_succ_end] at h2
      cases hk : iterOpt docs k i with
      | none => rw [hk] at h2; simp at h2
      | some b =>
          by_cases hmk : m ≤ k
          · exact ih i b hk m hmk
          · have hm2 : m = k + 1 := by omega
            subst hm2
            exact ⟨a, h⟩

theorem AncestorOf_front {docs : List Doc} {i c a : List Char}
    (h1 : parentStep docs i c) (h2 : AncestorOf docs c a) :
    AncestorOf docs i a := by
  induction h2 with
  | base hp => exact AncestorOf.step (AncestorOf.base h1) hp
  | step h hp ih => exact AncestorOf.step ih hp

theorem ancestorOf_iff_iterOpt {docs : List Doc}
    (hnd : (docs.map Doc.id).Nodup) (hne : ∀ d ∈ docs, d.id ≠ [])
    (i a : List Char) :
    AncestorOf docs i a ↔ ∃ n, 1 ≤ n ∧ iterOpt docs n i = some a := by
  constructor
  · intro h
    induction h with
    | base hp =>
        refine ⟨1, Nat.le_refl 1, ?_⟩
        rw [iterOpt_succ_end, iterOpt_zero, Option.some_bind]
        exact (parentStep_stepFun hnd hne).mp hp
    | step h hp ih =>
        obtain ⟨n, hn1, hit⟩ := ih
        refine ⟨n + 1, by omega, ?_⟩
        rw [iterOpt_succ_end, hit, Option.some_bind]
        exact (parentStep_stepFun hnd hne).mp hp
  · intro ⟨n, hn1, hit⟩
    obtain ⟨m, rfl⟩ : ∃ m, n = m + 1 := ⟨n - 1, by omega⟩
    clear hn1
    induction m generalizing i with
    | zero =>
        cases hs : stepFun docs i with
        | none => rw [iterOpt_succ_none 0 hs] at hit; exact absurd hit (by simp)
        | some j =>
            rw [iterOpt_succ_step 0 hs, iterOpt_zero] at hit
            injection hit with h2
            exact h2 ▸ AncestorOf.base ((parentStep_stepFun hnd hne).mpr hs)
    | succ m2 ih =>
        cases hs : stepFun docs i with
        | none =>
            rw [iterOpt_succ_none (m2 + 1) hs] at hit
            exact absurd hit (by simp)
        | some j =>
            rw [iterOpt_succ_step (m2 + 1) hs] at hit
            exact AncestorOf_front ((parentStep_stepFun hnd hne).mpr hs)
              (ih j hit)


theorem iterOpt_shift (docs : List Doc) (i : List Char) (j k : Nat)
    (hjk : iterOpt docs j i = iterOpt docs k i) :
    ∀ m, iterOpt docs (j + m) i = iterOpt docs (k + m) i := by
  intro m
  induction m with
  | zero => simpa using hjk
  | succ l ih =>
      rw [show j + (l + 1) = (j + l) + 1 from rfl,
        show k + (l + 1) = (k + l) + 1 from rfl]
      rw [iterOpt_succ_end, iterOpt_succ_end, ih]

theorem iterOpt_pos_mem (docs : List Doc) (j : Nat) (i b c : List Char)
    (hb : iterOpt docs j i = some b)
    (hc : iterOpt docs (j + 1) i = some c) : b ∈ docs.map Doc.id := by
  rw [iterOpt_succ_end, hb, Option.some_bind] at hc
  cases hlk : lookupGet docs b with
  | none => simp [stepFun, hlk] at hc
  | some d =>
      obtain ⟨hdD, hdi⟩ := lookupGet_mem hlk
      exact hdi ▸ List.mem_map_of_mem Doc.id hdD

theorem iterOpt_first (docs : List Doc) :
    ∀ (n : Nat) (i a : List Char), 1 ≤ n → iterOpt docs n i = some a →
      ∃ m, 1 ≤ m ∧ m ≤ docs.length ∧ iterOpt docs m i = some a := by
  intro n
  induction n using Nat.strong_induction_on with
  | _ n ih =>
      intro i a hn1 hit
      by_cases hsmall : n ≤ docs.length
      · exact ⟨n, hn1, hsmall, hit⟩
      · have hbig : docs.length + 1 ≤ n := by omega
        have hval : ∀ j : Nat, j ≤ n → ∃ b, iterOpt docs j i = some b :=
          fun j hj => iterOpt_prefix docs n i a hit j hj
        have hdocid : ∀ j : Nat, j < n →
            (iterOpt docs j i).getD [] ∈ docs.map Doc.id := by
          intro j hj
          obtain ⟨b, hb⟩ := hval j (by omega)
          obtain ⟨c, hc⟩ := hval (j + 1) (by omega)
          rw [hb, Option.getD_some]
          exact iterOpt_pos_mem docs j i b c hb hc
        have hmaplen : (docs.map Doc.id).length = docs.length :=
          List.length_map docs Doc.id
        have key : ∀ (j2 k2 : Nat), j2 < k2 → k2 ≤ docs.length →
            iterOpt docs j2 i = iterOpt docs k2 i →
            ∃ m, 1 ≤ m ∧ m ≤ docs.length ∧ iterOpt docs m i = some a := by
          intro j2 k2 hlt hk2 hiter
          have hshift := iterOpt_shift docs i j2 k2 hiter
          have hn2 : iterOpt docs (j2 + (n - k2)) i = some a := by
            rw [hshift (n - k2), show k2 + (n - k2) = n from by omega]
            exact hit
          exact ih (j2 + (n - k2)) (by omega) i a (by omega) hn2
        obtain ⟨j, k, hjk, heq⟩ :=
          Fintype.exists_ne_map_eq_of_card_lt
            (fun j : Fin (docs.length + 1) =>
              (⟨@List.indexOf (List Char) instBEqOfDecidableEq
                  ((iterOpt docs (j : Nat) i).getD []) (docs.map Doc.id),
                lt_of_lt_of_eq
                  (List.indexOf_lt_length.mpr
                    (hdocid (j : Nat) (by have := j.isLt; omega)))
                  hmaplen⟩ : Fin docs.length))
            (by simp)
        have hvals : (iterOpt docs (j : Nat) i).getD [] =
            (iterOpt docs (k : Nat) i).getD [] :=
          (List.indexOf_inj (hdocid (j : Nat) (by have := j.isLt; omega))
            (hdocid (k : Nat) (by have := k.isLt; omega))).mp
            (congrArg Fin.val heq)
        obtain ⟨bj, hbj⟩ := hval (j : Nat) (by have := j.isLt; omega)
        obtain ⟨bk, hbk⟩ := hval (k : Nat) (by have := k.isLt; omega)
        have hopt : iterOpt docs (j : Nat) i = iterOpt docs (k : Nat) i := by
          rw [hbj, hbk] at hvals ⊢
          simp only [Option.getD_some] at hvals
          rw [hvals]
        have hvne : (j : Nat) ≠ (k : Nat) := fun h => hjk (Fin.ext h)
        rcases Nat.lt_or_ge (j : Nat) (k : Nat) with hlt | hge
        · exact key (j : Nat) (k : Nat) hlt (by have := k.isLt; omega) hopt
        · have hlt2 : (k : Nat) < (j : Nat) := by omega
          exact key (k : Nat) (j : Nat) hlt2 (by have := j.isLt; omega)
            hopt.symm


theorem filter_id_eq_singleton :
    ∀ (docs : List Doc), (docs.map Doc.id).Nodup →
      ∀ (d0 : Doc), d0 ∈ docs →
        docs.filter (fun d => d.id = d0.id) = [d0] := by
  intro docs
  induction docs with
  | nil => intro _ d0 h; simp at h
  | cons x xs ih =>
      intro hnd d0 hd0
      simp only [List.map_cons, List.nodup_cons] at hnd
      by_cases hx : x.id = d0.id
      · have hxd : x = d0 := by
          rcases List.mem_cons.mp hd0 with rfl | h
          · rfl
          · exact absurd (by rw [hx]; exact List.mem_map_of_mem Doc.id h)
              hnd.1
        subst hxd
        rw [List.filter_cons_of_pos (by simp)]
        have htail : xs.filter (fun d => d.id = x.id) = [] := by
          rw [List.filter_eq_nil_iff]
          intro e he hcon
          simp only [decide_eq_true_eq] at hcon
          exact hnd.1 (by rw [← hcon]; exact List.mem_map_of_mem Doc.id he)
        rw [htail]
      · have hd0xs : d0 ∈ xs := by
          rcases List.mem_cons.mp hd0 with rfl | h
          · exact absurd rfl hx
          · exact h
        rw [List.filter_cons_of_neg (by simp [hx])]
        exact ih hnd.2 d0 hd0xs

theorem free_count_decrease (docs : List Doc)
    (hnd : (docs.map Doc.id).Nodup) (acc : List (List Char))
    (i : List Char) (hi : i ∈ docs.map Doc.id) (hia : i ∉ acc) :
    (docs.filter (fun d => d.id ∉ acc ++ [i])).length + 1 =
      (docs.filter (fun d => d.id ∉ acc)).length := by
  obtain ⟨d0, hd0, hd0i⟩ := List.mem_map.mp hi
  have h1 : docs.filter (fun d => d.id ∉ acc ++ [i]) =
      (docs.filter (fun d => d.id ∉ acc)).filter (fun d => d.id ≠ i) := by
    rw [List.filter_filter]
    refine (List.filter_congr ?_).symm
    intro d _
    by_cases hc1 : d.id = i
    · have hc2 : d.id ∉ acc := by rw [hc1]; exact hia
      simp [hc1, hc2, List.mem_append]
    · by_cases hc2 : d.id ∈ acc <;> simp [hc1, hc2, List.mem_append]
  have h2 : (docs.filter (fun d => d.id ∉ acc)).filter
      (fun d => !(decide (d.id ≠ i))) = docs.filter (fun d => d.id = i) := by
    rw [List.filter_filter]
    refine List.filter_congr ?_
    intro d _
    by_cases hc1 : d.id = i
    · simp [hc1, hia]
    · by_cases hc2 : d.id ∈ acc <;> simp [hc1, hc2]
  have h3 : docs.filter (fun d => d.id = i) = [d0] := by
    rw [← hd0i]
    exact filter_id_eq_singleton docs hnd d0 hd0
  have h4 : (docs.filter (fun d => d.id ∉ acc)).length =
      ((docs.filter (fun d => d.id ∉ acc)).filter
        (fun d => decide (d.id ≠ i))).length +
      ((docs.filter (fun d => d.id ∉ acc)).filter
        (fun d => !(decide (d.id ≠ i)))).length :=
    List.length_eq_length_filter_add _
  rw [h2, h3] at h4
  rw [h1]
  simp only [List.length_cons, List.length_nil] at h4
  omega


theorem includeAncestors_walk (docs : List Doc)
    (hnd : (docs.map Doc.id).Nodup) (hne : ∀ d ∈ docs, d.id ≠ [])
    (Ex : List Char → Prop) (root : List Char) :
    ∀ (fuel : Nat) (acc : List (List Char)) (cur : Option (List Char)),
      (∀ x ∈ acc, ∀ b, parentStep docs x b →
        b ∈ acc ∨ cur = some b ∨ Ex x) →
      (∀ i, cur = some i → i ∉ acc → i ≠ [] →
        (docs.filter (fun d => d.id ∉ acc)).length + 1 ≤ fuel) →
      (∀ i, cur = some i → i ≠ [] → AncestorOf docs root i) →
      (∀ x ∈ acc, x ∈ includeAncestors docs fuel acc cur) ∧
      (∀ x ∈ includeAncestors docs fuel acc cur, ∀ b,
        parentStep docs x b →
        b ∈ includeAncestors docs fuel acc cur ∨ Ex x) ∧
      (∀ x ∈ includeAncestors docs fuel acc cur,
        x ∈ acc ∨ AncestorOf docs root x) := by
  intro fuel
  induction fuel with
  | zero =>
      intro acc cur hCL hfuel hreach
      refine ⟨fun x hx => hx, ?_, fun x hx => Or.inl hx⟩
      intro x hx b hps
      rcases hCL x hx b hps with h | h | h
      · exact Or.inl h
      · by_cases hbacc : b ∈ acc
        · exact Or.inl hbacc
        · obtain ⟨_, _, _, _, hbne⟩ := hps
          have := hfuel b h hbacc hbne
          omega
      · exact Or.inr h
  | succ f ih =>
      intro acc cur hCL hfuel hreach
      cases cur with
      | none =>
          rw [includeAncestors_none]
          refine ⟨fun x hx => hx, ?_, fun x hx => Or.inl hx⟩
          intro x hx b hps
          rcases hCL x hx b hps with h | h | h
          · exact Or.inl h
          · exact absurd h (by simp)
          · exact Or.inr h
      | some i =>
          rw [includeAncestors_succ_some]
          by_cases hie : i = []
          · rw [if_pos hie]
            refine ⟨fun x hx => hx, ?_, fun x hx => Or.inl hx⟩
            intro x hx b hps
            rcases hCL x hx b hps with h | h | h
            · exact Or.inl h
            · obtain ⟨_, _, _, _, hbne⟩ := hps
              injection h with h2
              exact absurd (by rw [← h2]; exact hie) hbne
            · exact Or.inr h
          · rw [if_neg hie]
            by_cases hiacc : i ∈ acc
            · rw [if_pos hiacc]
              refine ⟨fun x hx => hx, ?_, fun x hx => Or.inl hx⟩
              intro x hx b hps
              rcases hCL x hx b hps with h | h | h
              · exact Or.inl h
              · injection h with h2
                exact Or.inl (by rw [← h2]; exact hiacc)
              · exact Or.inr h
            · rw [if_neg hiacc]
              have hCL2 : ∀ x ∈ acc ++ [i], ∀ b, parentStep docs x b →
                  b ∈ acc ++ [i] ∨
                  (lookupGet docs i).bind Doc.parentId = some b ∨ Ex x := by
                intro x hx b hps
                rcases List.mem_append.mp hx with hx2 | hx2
                · rcases hCL x hx2 b hps with h | h | h
                  · exact Or.inl (List.mem_append_left _ h)
                  · injection h with h2
                    exact Or.inl (List.mem_append_right _ (by simp [h2]))
                  · exact Or.inr (Or.inr h)
                · have hxi : x = i := by simpa using hx2
                  subst hxi
                  obtain ⟨d, hd, hdi, hdp, hbne⟩ := hps
                  have hlk : lookupGet docs x = some d := by
                    rw [← hdi]
                    exact lookupGet_eq hnd hne hd
                  rw [hlk, Option.some_bind, hdp]
                  exact Or.inr (Or.inl rfl)
              have hfuel2 : ∀ j,
                  (lookupGet docs i).bind Doc.parentId = some j →
                  j ∉ acc ++ [i] → j ≠ [] →
                  (docs.filter (fun d => d.id ∉ acc ++ [i])).length + 1 ≤
                    f := by
                intro j hj hjacc hjne
                cases hlk : lookupGet docs i with
                | none => rw [hlk] at hj; simp at hj
                | some d =>
                    obtain ⟨hdD, hdi⟩ := lookupGet_mem hlk
                    have hiid : i ∈ docs.map Doc.id := by
                      rw [← hdi]
                      exact List.mem_map_of_mem Doc.id hdD
                    have hdec := free_count_decrease docs hnd acc i hiid hiacc
                    have hf0 := hfuel i rfl hiacc hie
                    omega
              have hreach2 : ∀ j,
                  (lookupGet docs i).bind Doc.parentId = some j →
                  j ≠ [] → AncestorOf docs root j := by
                intro j hj hjne
                cases hlk : lookupGet docs i with
                | none => rw [hlk] at hj; simp at hj
                | some d =>
                    obtain ⟨hdD, hdi⟩ := lookupGet_mem hlk
                    rw [hlk, Option.some_bind] at hj
                    exact AncestorOf.step (hreach i rfl hie)
                      ⟨d, hdD, hdi, hj, hjne⟩
              obtain ⟨hmono2, hclosed2, hsound2⟩ :=
                ih (acc ++ [i]) _ hCL2 hfuel2 hreach2
              refine ⟨?_, hclosed2, ?_⟩
              · intro x hx
                exact hmono2 x (List.mem_append_left _ hx)
              · intro x hx
                rcases hsound2 x hx with h | h
                · rcases List.mem_append.mp h with h2 | h2
                  · exact Or.inl h2
                  · have hxi : x = i := by simpa using h2
                    exact Or.inr (by rw [hxi]; exact hreach i rfl hie)
                · exact Or.inr h


theorem mem_addSet {s : List (List Char)} {x y : List Char} :
    x ∈ addSet s y ↔ x ∈ s ∨ x = y := by
  unfold addSet
  by_cases h : y ∈ s
  · rw [if_pos h]
    constructor
    · exact Or.inl
    · intro hx
      rcases hx with hx | rfl
      · exact hx
      · exact h
  · rw [if_neg h]
    simp

theorem mem_matchBase (nq : List Char) :
    ∀ (l : List Doc) (acc : List (List Char)) (x : List Char),
      x ∈ l.foldl (fun acc d => if d.id = [] then acc
        else if titleMatch nq d then addSet acc d.id else acc) acc ↔
      x ∈ acc ∨ ∃ d ∈ l, d.id = x ∧ x ≠ [] ∧ titleMatch nq d = true := by
  intro l
  induction l with
  | nil => intro acc x; simp
  | cons d ds ih =>
      intro acc x
      rw [List.foldl_cons]
      by_cases h1 : d.id = []
      · simp only [if_pos h1]
        rw [ih]
        constructor
        · intro h
          rcases h with h | ⟨e, he, h2⟩
          · exact Or.inl h
          · exact Or.inr ⟨e, List.mem_cons_of_mem _ he, h2⟩
        · intro h
          rcases h with h | ⟨e, he, h2, h3, h4⟩
          · exact Or.inl h
          · rcases List.mem_cons.mp he with rfl | he2
            · rw [← h2] at h3
              exact absurd h1 h3
            · exact Or.inr ⟨e, he2, h2, h3, h4⟩
      · simp only [if_neg h1]
        by_cases h2 : titleMatch nq d
        · simp only [if_pos h2]
          rw [ih]
          constructor
          · intro h
            rcases h with h | ⟨e, he, h3⟩
            · rcases mem_addSet.mp h with h | rfl
              · exact Or.inl h
              · exact Or.inr ⟨d, List.mem_cons_self d ds, rfl, h1, h2⟩
            · exact Or.inr ⟨e, List.mem_cons_of_mem _ he, h3⟩
          · intro h
            rcases h with h | ⟨e, he, h3, h4, h5⟩
            · exact Or.inl (mem_addSet.mpr (Or.inl h))
            · rcases List.mem_cons.mp he with rfl | he2
              · exact Or.inl (mem_addSet.mpr (Or.inr h3.symm))
              · exact Or.inr ⟨e, he2, h3, h4, h5⟩
        · simp only [if_neg h2]
          rw [ih]
          constructor
          · intro h
            rcases h with h | ⟨e, he, h3⟩
            · exact Or.inl h
            · exact Or.inr ⟨e, List.mem_cons_of_mem _ he, h3⟩
          · intro h
            rcases h with h | ⟨e, he, h3, h4, h5⟩
            · exact Or.inl h
            · rcases List.mem_cons.mp he with rfl | he2
              · exact absurd h5 h2
              · exact Or.inr ⟨e, he2, h3, h4, h5⟩

theorem closed_reach (docs : List Doc) (W : List (List Char))
    (hclosed : ∀ x ∈ W, ∀ b, parentStep docs x b → b ∈ W)
    (i : List Char) (hi : i ∈ W) :
    ∀ a, AncestorOf docs i a → a ∈ W := by
  intro a h
  induction h with
  | base hp => exact hclosed i hi _ hp
  | step h2 hp ih => exact hclosed _ ih _ hp

theorem matchFold_props (docs : List Doc) (nq : List Char)
    (hnd : (docs.map Doc.id).Nodup) (hne : ∀ d ∈ docs, d.id ≠ [])
    (M0 : List (List Char))
    (hM0 : ∀ i ∈ M0, ∃ d ∈ docs, d.id = i) :
    ∀ (rest : List (List Char)) (acc : List (List Char)),
      (∀ i ∈ rest, i ∈ M0) →
      (∀ x ∈ acc, ∀ b, parentStep docs x b → b ∈ acc ∨ x ∈ rest) →
      (∀ x ∈ acc, x ∈ M0 ∨ ∃ m ∈ M0, AncestorOf docs m x) →
      (∀ x ∈ acc, x ∈ rest.foldl (fun acc i => includeAncestors docs
        (docs.length + 1) acc
        ((lookupGet docs i).bind Doc.parentId)) acc) ∧
      (∀ x ∈ rest.foldl (fun acc i => includeAncestors docs
          (docs.length + 1) acc
          ((lookupGet docs i).bind Doc.parentId)) acc, ∀ b,
        parentStep docs x b →
        b ∈ rest.foldl (fun acc i => includeAncestors docs
          (docs.length + 1) acc
          ((lookupGet docs i).bind Doc.parentId)) acc) ∧
      (∀ x ∈ rest.foldl (fun acc i => includeAncestors docs
          (docs.length + 1) acc
          ((lookupGet docs i).bind Doc.parentId)) acc,
        x ∈ M0 ∨ ∃ m ∈ M0, AncestorOf docs m x) := by
  intro rest
  induction rest with
  | nil =>
      intro acc hsub hCL hsound
      simp only [List.foldl_nil]
      refine ⟨fun x hx => hx, ?_, hsound⟩
      intro x hx b hps
      rcases hCL x hx b hps with h | h
      · exact h
      · simp at h
  | cons i rest2 ih =>
      intro acc hsub hCL hsound
      simp only [List.foldl_cons]
      have hiM0 : i ∈ M0 := hsub i (List.mem_cons_self i rest2)
      have hCLw : ∀ x ∈ acc, ∀ b, parentStep docs x b →
          b ∈ acc ∨ (lookupGet docs i).bind Doc.parentId = some b ∨
          x ∈ rest2 := by
        intro x hx b hps
        rcases hCL x hx b hps with h | h
        · exact Or.inl h
        · rcases List.mem_cons.mp h with rfl | h2
          · obtain ⟨d, hd, hdi2, hdp, hbne⟩ := hps
            have hlk : lookupGet docs x = some d := by
              rw [← hdi2]
              exact lookupGet_eq hnd hne hd
            rw [hlk, Option.some_bind, hdp]
            exact Or.inr (Or.inl rfl)
          · exact Or.inr (Or.inr h2)
      have hfuelw : ∀ j,
          (lookupGet docs i).bind Doc.parentId = some j → j ∉ acc →
          j ≠ [] →
          (docs.filter (fun d => d.id ∉ acc)).length + 1 ≤
            docs.length + 1 := by
        intro j _ _ _
        have := List.length_filter_le (fun d => decide (d.id ∉ acc)) docs
        omega
      have hreachw : ∀ j,
          (lookupGet docs i).bind Doc.parentId = some j → j ≠ [] →
          AncestorOf docs i j := by
        intro j hj hjne
        cases hlk : lookupGet docs i with
        | none => rw [hlk] at hj; simp at hj
        | some d =>
            obtain ⟨hdD2, hdi2⟩ := lookupGet_mem hlk
            rw [hlk, Option.some_bind] at hj
            exact AncestorOf.base ⟨d, hdD2, hdi2, hj, hjne⟩
      obtain ⟨hmono1, hclosed1, hsound1⟩ :=
        includeAncestors_walk docs hnd hne (fun x => x ∈ rest2) i
          (docs.length + 1) acc ((lookupGet docs i).bind Doc.parentId)
          hCLw hfuelw hreachw
      have hsoundacc : ∀ x ∈ includeAncestors docs (docs.length + 1) acc
          ((lookupGet docs i).bind Doc.parentId),
          x ∈ M0 ∨ ∃ m ∈ M0, AncestorOf docs m x := by
        intro x hx
        rcases hsound1 x hx with h | h
        · exact hsound x h
        · exact Or.inr ⟨i, hiM0, h⟩
      obtain ⟨hmono2, hclosed2, hsound2⟩ :=
        ih (includeAncestors docs (docs.length + 1) acc
          ((lookupGet docs i).bind Doc.parentId))
          (fun j hj => hsub j (List.mem_cons_of_mem _ hj))
          hclosed1 hsoundacc
      exact ⟨fun x hx => hmono2 x (hmono1 x hx), hclosed2, hsound2⟩


theorem stepFun_some_parent {docs : List Doc} {i j : List Char}
    (h : stepFun docs i = some j) :
    (lookupGet docs i).bind Doc.parentId = some j ∧ j ≠ [] := by
  cases hlk : (lookupGet docs i).bind Doc.parentId with
  | none => simp [stepFun, hlk] at h
  | some p =>
      simp only [stepFun, hlk] at h
      by_cases hp : p = []
      · rw [if_pos hp] at h
        exact absurd h (by simp)
      · rw [if_neg hp] at h
        injection h with h2
        subst h2
        exact ⟨rfl, hp⟩

theorem addAncestorsWhile_mono (docs : List Doc) :
    ∀ (fuel : Nat) (acc : List (List Char)) (cur : Option (List Char))
      (x : List Char), x ∈ acc →
      x ∈ addAncestorsWhile docs fuel acc cur := by
  intro fuel
  induction fuel with
  | zero =>
      intro acc cur x hx
      cases cur with
      | none => rw [addAncestorsWhile_none]; exact hx
      | some p => exact hx
  | succ f ih =>
      intro acc cur x hx
      cases cur with
      | none => rw [addAncestorsWhile_none]; exact hx
      | some p =>
          rw [addAncestorsWhile_succ_some]
          by_cases hp : p = []
          · rw [if_pos hp]; exact hx
          · rw [if_neg hp]
            exact ih _ _ x (mem_addSet.mpr (Or.inl hx))

theorem addAncestorsWhile_cover (docs : List Doc) (n : Nat)
    (hn1 : 1 ≤ n) :
    ∀ (fuel : Nat), n ≤ fuel →
      ∀ (acc : List (List Char)) (i a : List Char),
        iterOpt docs n i = some a →
        a ∈ addAncestorsWhile docs fuel acc
          ((lookupGet docs i).bind Doc.parentId) := by
  obtain ⟨m, rfl⟩ : ∃ m, n = m + 1 := ⟨n - 1, by omega⟩
  clear hn1
  induction m with
  | zero =>
      intro fuel hf acc i a hit
      cases hs : stepFun docs i with
      | none =>
          rw [iterOpt_succ_none 0 hs] at hit
          exact absurd hit (by simp)
      | some j =>
          rw [iterOpt_succ_step 0 hs, iterOpt_zero] at hit
          injection hit with h2
          subst h2
          obtain ⟨hcur, hane⟩ := stepFun_some_parent hs
          obtain ⟨f, rfl⟩ : ∃ f, fuel = f + 1 := ⟨fuel - 1, by omega⟩
          rw [hcur, addAncestorsWhile_succ_some, if_neg hane]
          exact addAncestorsWhile_mono docs f _ _ _
            (mem_addSet.mpr (Or.inr rfl))
  | succ m2 ih =>
      intro fuel hf acc i a hit
      cases hs : stepFun docs i with
      | none =>
          rw [iterOpt_succ_none (m2 + 1) hs] at hit
          exact absurd hit (by simp)
      | some j =>
          rw [iterOpt_succ_step (m2 + 1) hs] at hit
          obtain ⟨hcur, hjne⟩ := stepFun_some_parent hs
          obtain ⟨f, rfl⟩ : ∃ f, fuel = f + 1 := ⟨fuel - 1, by omega⟩
          rw [hcur, addAncestorsWhile_succ_some, if_neg hjne]
          exact ih f (by omega) (addSet acc j) j a hit

theorem expandFold_mono (docs : List Doc) :
    ∀ (l : List (List Char)) (acc : List (List Char)) (x : List Char),
      x ∈ acc →
      x ∈ l.foldl (fun acc i => addAncestorsWhile docs (docs.length + 1)
        acc ((lookupGet docs i).bind Doc.parentId)) acc := by
  intro l
  induction l with
  | nil => intro acc x hx; exact hx
  | cons i l2 ih =>
      intro acc x hx
      rw [List.foldl_cons]
      exact ih _ x (addAncestorsWhile_mono docs _ _ _ x hx)

theorem expandFold_cover (docs : List Doc) {i a : List Char}
    (hia : ∀ acc, a ∈ addAncestorsWhile docs (docs.length + 1) acc
      ((lookupGet docs i).bind Doc.parentId)) :
    ∀ (l : List (List Char)), i ∈ l → ∀ acc,
      a ∈ l.foldl (fun acc j => addAncestorsWhile docs (docs.length + 1)
        acc ((lookupGet docs j).bind Doc.parentId)) acc := by
  intro l
  induction l with
  | nil => intro h; exact absurd h (List.not_mem_nil i)
  | cons j l2 ih =>
      intro hmem acc
      rw [List.foldl_cons]
      rcases List.mem_cons.mp hmem with rfl | h2
      · exact expandFold_mono docs l2 _ a (hia acc)
      · exact ih h2 _


/-- C7. For every collection with pairwise distinct nonempty ids and a
nonempty normalized query, the match set computed by the sidebar is
defined and is exactly the upward closure of the title matches: an id
belongs to it iff it is the id of a document whose title contains the
query case-insensitively, or an ancestor of such a document; and the
expansion set contains every ancestor of every title match. -/
theorem c7_match_set_upward_closure_and_expansion
    (docs : List Doc) (nq : List Char) (prev : List (List Char))
    (hnd : (docs.map Doc.id).Nodup) (hne : ∀ d ∈ docs, d.id ≠ [])
    (hnq : nq ≠ []) :
    ∃ M, matchSetFn docs nq = some M ∧
      (∀ x, x ∈ M ↔
        ((∃ d ∈ docs, d.id = x ∧ titleMatch nq d = true) ∨
         (∃ d ∈ docs, titleMatch nq d = true ∧ AncestorOf docs d.id x))) ∧
      (∀ d ∈ docs, titleMatch nq d = true →
        ∀ a, AncestorOf docs d.id a →
          a ∈ expandAfterSearch docs M prev) := by
  set M0 := docs.foldl
    (fun acc d => if d.id = [] then acc
      else if titleMatch nq d then addSet acc d.id else acc) []
    with hM0def
  have hmemM0 : ∀ x, x ∈ M0 ↔
      ∃ d ∈ docs, d.id = x ∧ titleMatch nq d = true := by
    intro x
    rw [hM0def, mem_matchBase nq docs ([] : List (List Char)) x]
    simp only [List.not_mem_nil, false_or]
    constructor
    · intro ⟨d, hd, h1, h2, h3⟩
      exact ⟨d, hd, h1, h3⟩
    · intro ⟨d, hd, h1, h3⟩
      exact ⟨d, hd, h1, h1 ▸ hne d hd, h3⟩
  have hM0docs : ∀ i ∈ M0, ∃ d ∈ docs, d.id = i := by
    intro i hi
    obtain ⟨d, hd, h1, h3⟩ := (hmemM0 i).mp hi
    exact ⟨d, hd, h1⟩
  obtain ⟨hmono, hclosed, hsoundM⟩ :=
    matchFold_props docs nq hnd hne M0 hM0docs M0 M0
      (fun i hi => hi)
      (fun x hx b hps => Or.inr hx)
      (fun x hx => Or.inl hx)
  refine ⟨M0.foldl (fun acc i => includeAncestors docs (docs.length + 1)
    acc ((lookupGet docs i).bind Doc.parentId)) M0, ?_, ?_, ?_⟩
  · unfold matchSetFn
    rw [if_neg hnq]
  · intro x
    constructor
    · intro hx
      rcases hsoundM x hx with h | ⟨m, hm, hanc⟩
      · exact Or.inl ((hmemM0 x).mp h)
      · obtain ⟨d, hd, h1, h3⟩ := (hmemM0 m).mp hm
        exact Or.inr ⟨d, hd, h3, h1.symm ▸ hanc⟩
    · intro h
      rcases h with ⟨d, hd, h1, h3⟩ | ⟨d, hd, h3, hanc⟩
      · exact hmono x ((hmemM0 x).mpr ⟨d, hd, h1, h3⟩)
      · have hdm : d.id ∈ M0 := (hmemM0 d.id).mpr ⟨d, hd, rfl, h3⟩
        exact closed_reach docs _ hclosed d.id (hmono _ hdm) x hanc
  · intro d hd htm a hanc
    have hdm : d.id ∈ M0 := (hmemM0 d.id).mpr ⟨d, hd, rfl, htm⟩
    have hdM : d.id ∈ M0.foldl
        (fun acc i => includeAncestors docs (docs.length + 1) acc
          ((lookupGet docs i).bind Doc.parentId)) M0 := hmono _ hdm
    have hMne : M0.foldl
        (fun acc i => includeAncestors docs (docs.length + 1) acc
          ((lookupGet docs i).bind Doc.parentId)) M0 ≠ [] :=
      List.ne_nil_of_mem hdM
    unfold expandAfterSearch
    rw [if_neg hMne]
    obtain ⟨n, hn1, hit⟩ := (ancestorOf_iff_iterOpt hnd hne d.id a).mp hanc
    obtain ⟨m, hm1, hmlen, hitm⟩ := iterOpt_first docs n d.id a hn1 hit
    refine expandFold_cover docs ?_ _ hdM prev
    intro acc
    exact addAncestorsWhile_cover docs m hm1 (docs.length + 1)
      (by omega) acc d.id a hitm

/-- C7 witness: the upward closure characterization applied at the
three-level chain root, mid, leaf where only the leaf title contains the
query. -/
theorem c7_match_set_upward_closure_and_expansion_witness :
    ((([⟨['r'], "Alpha", none, some 0⟩, ⟨['m'], "Beta", some ['r'], some 0⟩,
        ⟨['l'], "Gamma", some ['m'], some 0⟩] : List Doc).map
        Doc.id).Nodup ∧
     (∀ d ∈ ([⟨['r'], "Alpha", none, some 0⟩,
        ⟨['m'], "Beta", some ['r'], some 0⟩,
        ⟨['l'], "Gamma", some ['m'], some 0⟩] : List Doc), d.id ≠ []) ∧
     (['g', 'a', 'm', 'm', 'a'] : List Char) ≠ []) ∧
    (∃ M, matchSetFn
        [⟨['r'], "Alpha", none, some 0⟩, ⟨['m'], "Beta", some ['r'], some 0⟩,
         ⟨['l'], "Gamma", some ['m'], some 0⟩]
        ['g', 'a', 'm', 'm', 'a'] = some M ∧
      (∀ x, x ∈ M ↔
        ((∃ d ∈ ([⟨['r'], "Alpha", none, some 0⟩,
            ⟨['m'], "Beta", some ['r'], some 0⟩,
            ⟨['l'], "Gamma", some ['m'], some 0⟩] : List Doc),
            d.id = x ∧ titleMatch ['g', 'a', 'm', 'm', 'a'] d = true) ∨
         (∃ d ∈ ([⟨['r'], "Alpha", none, some 0⟩,
            ⟨['m'], "Beta", some ['r'], some 0⟩,
            ⟨['l'], "Gamma", some ['m'], some 0⟩] : List Doc),
            titleMatch ['g', 'a', 'm', 'm', 'a'] d = true ∧
            AncestorOf [⟨['r'], "Alpha", none, some 0⟩,
              ⟨['m'], "Beta", some ['r'], some 0⟩,
              ⟨['l'], "Gamma", some ['m'], some 0⟩] d.id x))) ∧
      (∀ d ∈ ([⟨['r'], "Alpha", none, some 0⟩,
          ⟨['m'], "Beta", some ['r'], some 0⟩,
          ⟨['l'], "Gamma", some ['m'], some 0⟩] : List Doc),
        titleMatch ['g', 'a', 'm', 'm', 'a'] d = true →
        ∀ a, AncestorOf [⟨['r'], "Alpha", none, some 0⟩,
            ⟨['m'], "Beta", some ['r'], some 0⟩,
            ⟨['l'], "Gamma", some ['m'], some 0⟩] d.id a →
          a ∈ expandAfterSearch
            [⟨['r'], "Alpha", none, some 0⟩,
             ⟨['m'], "Beta", some ['r'], some 0⟩,
             ⟨['l'], "Gamma", some ['m'], some 0⟩] M [])) :=
  ⟨⟨by decide, by decide, by decide⟩,
   c7_match_set_upward_closure_and_expansion
     [⟨['r'], "Alpha", none, some 0⟩, ⟨['m'], "Beta", some ['r'], some 0⟩,
      ⟨['l'], "Gamma", some ['m'], some 0⟩]
     ['g', 'a', 'm', 'm', 'a'] [] (by decide) (by decide) (by decide)⟩


end DocTree

